import Mathlib

/-!
# roachpb/data.go: value codec, checksum and timestamps

A shallow embedding of `src/roachpb/data.go`.

* A Go `[]byte` is a `List Byte`; a nil slice and an empty slice are both `[]`
  (every function embedded here only looks at `len` and at the elements).
* `int64`, `int32`, `int` are `Int`, `uint32`, `uint64` are `Nat`; where the Go
  arithmetic can wrap the wrap is written out (`% 2 ^ 64`, `wrapInt64`).
* A Go call either returns normally without an error (`Res.ok`), returns a
  non-nil error (`Res.error`), or panics (`Res.panic`).
-/

namespace Roachpb

/-! ## Bytes, results, slicing -/

/-- A Go `byte`. -/
abbrev Byte := Fin 256

/-- The Go conversion `byte(x)` of an unsigned integer: truncation to 8 bits. -/
def byte (x : Nat) : Byte := ⟨x % 256, Nat.mod_lt x (by decide)⟩

/-- The errors built with `fmt.Errorf` in the decoders and getters of `data.go`,
with the values that are formatted into the message. -/
inductive Err where
  /-- "array is empty" -/
  | arrayEmpty
  /-- "value type is not %s: %s" (expected, found) and its two-tag variant. -/
  | typeMismatch (expected found : Nat)
  /-- "int64 varint decoding failed: %d" -/
  | varintFailed (n : Int)
  /-- "float64 value should be exactly 8 bytes: %d" -/
  | floatLength (len : Nat)
  /-- "insufficient bytes to decode ... int value" (util/encoding) -/
  | insufficientBytes
  /-- "%s: invalid header size: %d" -/
  | invalidHeaderSize (n : Nat)
  /-- "%s: invalid checksum (%x) value [% x]" -/
  | invalidChecksum (computed : Nat)
  /-- "empty slice" -/
  | emptySlice
  /-- "invalid varint" -/
  | invalidVarint
  /-- "not a self-delimiting tag: %q" -/
  | notSelfDelimiting (tag : Nat)
  /-- "unknown tag %q" -/
  | unknownTag (tag : Nat)
  /-- "span and descriptor's range do not overlap" -/
  | noOverlap
  deriving DecidableEq, Repr

/-- Outcome of a Go call: normal return with a nil error, return with a non-nil
error, or a run-time panic. -/
inductive Res (α : Type) where
  | ok (a : α)
  | error (e : Err)
  | panic
  deriving DecidableEq, Repr

/-- The call returned a non-nil error. -/
def Res.isError {α : Type} : Res α → Bool
  | .error _ => true
  | _ => false

/-- Two's complement wrap of a 64-bit signed result (`int64`, and `int` on a
64-bit platform). -/
@[irreducible]
def wrapInt64 (x : Int) : Int := (x + 2 ^ 63) % 2 ^ 64 - 2 ^ 63

/-- Two's complement wrap of a `uint32` result. -/
@[irreducible]
def wrapUint32 (x : Nat) : Nat := x % 2 ^ 32

/-- Go slice expression `b[lo:]`; `none` is the run-time panic
"slice bounds out of range" (`lo` must satisfy `0 ≤ lo ≤ len(b)`). -/
def sliceFrom (b : List Byte) (lo : Int) : Option (List Byte) :=
  if 0 ≤ lo ∧ lo ≤ b.length then some (b.drop lo.toNat) else none

/-- Go slice expression `b[lo:hi]` with the upper bound checked against
`len(b)`; `none` is the run-time panic. Go checks `hi` against `cap(b)`; at the
uses below the bound `len(b)` is the one that decides: in `DecodeBytesValue` the
sibling expression `b[hi:]` panics when `hi > len(b)`, and in `checksum` and
`Key.IsPrev` the bound is at most `len(b)`. -/
def slice (b : List Byte) (lo hi : Int) : Option (List Byte) :=
  if 0 ≤ lo ∧ lo ≤ hi ∧ hi ≤ b.length then some ((b.take hi.toNat).drop lo.toNat) else none

/-! ## Go `encoding/binary` varints (standard library, used by the codec) -/

/-- Go `binary.MaxVarintLen64`. -/
def MaxVarintLen64 : Nat := 10

/-- Go `binary.PutUvarint` for a `uint64` value `x`: the bytes written.
```
for x >= 0x80 { buf[i] = byte(x) | 0x80; x >>= 7; i++ }
buf[i] = byte(x)
``` -/
def PutUvarint (x : Nat) : List Byte :=
  if 0x80 ≤ x then byte ((byte x).val ||| 0x80) :: PutUvarint (x >>> 7) else [byte x]
termination_by x
decreasing_by
  simp only [Nat.shiftRight_eq_div_pow]
  omega

/-- Go `binary.PutVarint` for an `int64` value `x` (zig-zag, then `PutUvarint`);
`uint64(x)` is `x` modulo `2 ^ 64` and `^ux` on a `uint64` is `2 ^ 64 - 1 - ux`.
```
ux := uint64(x) << 1
if x < 0 { ux = ^ux }
``` -/
def PutVarint (x : Int) : List Byte :=
  let ux : Nat := ((x % 2 ^ 64).toNat <<< 1) % 2 ^ 64
  let ux : Nat := if x < 0 then 2 ^ 64 - 1 - ux else ux
  PutUvarint ux

/-- The loop of Go `binary.Uvarint` from index `i` on, with accumulator `x` and
shift `s`; returns the value and the byte count `n` (`n ≤ 0` on failure). This
is the loop of the Go release the file was written for; later releases stop
at the eleventh byte, which changes only the negative count reported for an
overlong input. The shifted byte is a `uint64`, hence the `% 2 ^ 64`.
```
for i, b := range buf {
    if b < 0x80 {
        if i > 9 || i == 9 && b > 1 { return 0, -(i + 1) } // overflow
        return x | uint64(b)<<s, i + 1
    }
    x |= uint64(b&0x7f) << s
    s += 7
}
return 0, 0
``` -/
def uvarintLoop : List Byte → Nat → Nat → Nat → Nat × Int
  | [], _, _, _ => (0, 0)
  | b :: buf, x, s, i =>
    if b.val < 0x80 then
      if i > 9 ∨ (i = 9 ∧ b.val > 1) then (0, -((i : Int) + 1))
      else (x ||| ((b.val <<< s) % 2 ^ 64), (i : Int) + 1)
    else uvarintLoop buf (x ||| (((b.val &&& 0x7f) <<< s) % 2 ^ 64)) (s + 7) (i + 1)

/-- Go `binary.Uvarint`. -/
def Uvarint (buf : List Byte) : Nat × Int := uvarintLoop buf 0 0 0

/-- Go `binary.Varint`; `^x` on an `int64` is `-x - 1`.
```
ux, n := Uvarint(buf)
x := int64(ux >> 1)
if ux&1 != 0 { x = ^x }
return x, n
``` -/
def Varint (buf : List Byte) : Int × Int :=
  let (ux, n) := Uvarint buf
  let x : Int := wrapInt64 ((ux >>> 1 : Nat) : Int)
  let x : Int := if ux &&& 1 ≠ 0 then -x - 1 else x
  (x, n)

/-! ## Value type tags -/

/-- Modelled from the spec: the `ValueType` enumeration (`NULL, INT, FLOAT,
BYTES, DELIMITED_BYTES, TIME, DECIMAL, DELIMITED_DECIMAL, DURATION, TIMESERIES,
UNKNOWN`) is declared in the generated `data.pb.go`, which is not among the
sources; the numbers are those of `data.proto`. -/
abbrev ValueType := Nat

def ValueType_UNKNOWN : ValueType := 0
def ValueType_INT : ValueType := 1
def ValueType_FLOAT : ValueType := 2
def ValueType_BYTES : ValueType := 3
def ValueType_TIME : ValueType := 4
def ValueType_DECIMAL : ValueType := 5
def ValueType_DURATION : ValueType := 6
def ValueType_NULL : ValueType := 7
def ValueType_DELIMITED_BYTES : ValueType := 8
def ValueType_DELIMITED_DECIMAL : ValueType := 9
def ValueType_TIMESERIES : ValueType := 100

/-! ## Encoders and decoders -/

/-- Source `encodeGoVarint`: appends `binary.PutVarint(x)` to `appendTo`. -/
def encodeGoVarint (appendTo : List Byte) (x : Int) : List Byte :=
  appendTo ++ PutVarint x

/-- Source `EncodeIntValue`. -/
def EncodeIntValue (appendTo : List Byte) (i : Int) : List Byte :=
  let appendTo := appendTo ++ [byte ValueType_INT]
  encodeGoVarint appendTo i

/-- Source `EncodeBytesValue`. `int64(len(data))` converts an `int` to an
`int64`, which changes nothing on a 64-bit platform. -/
def EncodeBytesValue (appendTo : List Byte) (data : List Byte) (delimited : Bool) : List Byte :=
  if delimited then
    let appendTo := appendTo ++ [byte ValueType_DELIMITED_BYTES]
    let appendTo := encodeGoVarint appendTo (data.length : Int)
    appendTo ++ data
  else
    let appendTo := appendTo ++ [byte ValueType_BYTES]
    appendTo ++ data

/-- Source `DecodeIntValue`: `(remaining, value)` on success. -/
def DecodeIntValue (b : List Byte) : Res (List Byte × Int) :=
  match b with
  | [] => .error .arrayEmpty
  | tag :: b =>
    if tag.val ≠ ValueType_INT then .error (.typeMismatch ValueType_INT tag.val)
    else
      let (i, n) := Varint b
      if n ≤ 0 then .error (.varintFailed n)
      else
        match sliceFrom b n with
        | none => .panic
        | some rest => .ok (rest, i)

/-- Source `DecodeBytesValue`: `(remaining, data)` on success. The two slice
expressions of the `DELIMITED_BYTES` case, `b[n+int(i):]` and `b[n : n+int(i)]`,
are both evaluated and either may panic; `n + int(i)` is an `int` sum and may
wrap. -/
def DecodeBytesValue (b : List Byte) : Res (List Byte × List Byte) :=
  match b with
  | [] => .error .arrayEmpty
  | tag :: b =>
    if tag.val = ValueType_BYTES then .ok ([], b)
    else if tag.val = ValueType_DELIMITED_BYTES then
      let (i, n) := Varint b
      if n ≤ 0 then .error (.varintFailed n)
      else
        match sliceFrom b (wrapInt64 (n + i)), slice b n (wrapInt64 (n + i)) with
        | some rest, some data => .ok (rest, data)
        | _, _ => .panic
    else .error (.typeMismatch ValueType_BYTES tag.val)

/-- Modelled from the spec: `encoding.EncodeUint64Ascending` of `util/encoding`,
which is not among the sources ("8 bytes: order-preserving big-endian encoding").
It appends the eight bytes of `v`, most significant first. -/
def EncodeUint64Ascending (b : List Byte) (v : Nat) : List Byte :=
  b ++ [byte (v >>> 56), byte (v >>> 48), byte (v >>> 40), byte (v >>> 32),
        byte (v >>> 24), byte (v >>> 16), byte (v >>> 8), byte v]

/-- Modelled from the spec: `encoding.DecodeUint64Ascending` of `util/encoding`,
which is not among the sources: the inverse of `EncodeUint64Ascending`, an error
when fewer than eight bytes are given. -/
def DecodeUint64Ascending (b : List Byte) : Res (List Byte × Nat) :=
  match b with
  | b0 :: b1 :: b2 :: b3 :: b4 :: b5 :: b6 :: b7 :: rest =>
    .ok (rest, (b0.val <<< 56) ||| (b1.val <<< 48) ||| (b2.val <<< 40) ||| (b3.val <<< 32) |||
      (b4.val <<< 24) ||| (b5.val <<< 16) ||| (b6.val <<< 8) ||| b7.val)
  | _ => .error .insufficientBytes

/-- Modelled from the spec: `encoding.EncodeUint32Ascending` of `util/encoding`,
which is not among the sources ("checksum, order-preserving big-endian uint32").
It appends the four bytes of `v`, most significant first. -/
def EncodeUint32Ascending (b : List Byte) (v : Nat) : List Byte :=
  b ++ [byte (v >>> 24), byte (v >>> 16), byte (v >>> 8), byte v]

/-- Modelled from the spec: `encoding.DecodeUint32Ascending` of `util/encoding`,
which is not among the sources: the inverse of `EncodeUint32Ascending`, an error
when fewer than four bytes are given. -/
def DecodeUint32Ascending (b : List Byte) : Res (List Byte × Nat) :=
  match b with
  | b0 :: b1 :: b2 :: b3 :: rest =>
    .ok (rest, (b0.val <<< 24) ||| (b1.val <<< 16) ||| (b2.val <<< 8) ||| b3.val)
  | _ => .error .insufficientBytes

/-- Source `EncodeFloatValue`. A `float64` is represented by its IEEE-754 bit
pattern, a `uint64`: `math.Float64bits` and `math.Float64frombits` are the
identity on this representation. -/
def EncodeFloatValue (appendTo : List Byte) (fbits : Nat) : List Byte :=
  let appendTo := appendTo ++ [byte ValueType_FLOAT]
  EncodeUint64Ascending appendTo fbits

/-- Source `DecodeFloatValue`: `(remaining, bit pattern of the float)`. -/
def DecodeFloatValue (b : List Byte) : Res (List Byte × Nat) :=
  match b with
  | [] => .error .arrayEmpty
  | tag :: b =>
    if tag.val ≠ ValueType_FLOAT then .error (.typeMismatch ValueType_FLOAT tag.val)
    else if b.length < 8 then .error (.floatLength b.length)
    else DecodeUint64Ascending b

/-- Source `getGoVarintLen`: `(n, int(i))` on success. -/
def getGoVarintLen (b : List Byte) : Res (Int × Int) :=
  let (i, n) := Varint b
  if n ≤ 0 then .error .invalidVarint else .ok (n, i)

/-- Source `PeekValueLength`. `getMultiVarintLen` stands for
`encoding.GetMultiVarintLen` of `util/encoding`, which is not among the sources;
`b[1:]` is the tail of the non-empty `b`; the sums are `int` sums. -/
def PeekValueLength (getMultiVarintLen : List Byte → Int → Res Int) (b : List Byte) : Res Int :=
  match b with
  | [] => .error .emptySlice
  | tag :: rest =>
    if tag.val = ValueType_NULL then .ok 1
    else if tag.val = ValueType_INT then
      match getGoVarintLen rest with
      | .ok (n, _) => .ok (wrapInt64 (1 + n))
      | .error e => .error e
      | .panic => .panic
    else if tag.val = ValueType_FLOAT then .ok 9
    else if tag.val = ValueType_DELIMITED_BYTES ∨ tag.val = ValueType_DELIMITED_DECIMAL then
      match getGoVarintLen rest with
      | .ok (n, i) => .ok (wrapInt64 (wrapInt64 (1 + n) + i))
      | .error e => .error e
      | .panic => .panic
    else if tag.val = ValueType_TIME then
      match getMultiVarintLen rest 2 with
      | .ok n => .ok (wrapInt64 (1 + n))
      | .error e => .error e
      | .panic => .panic
    else if tag.val = ValueType_DURATION then
      match getMultiVarintLen rest 3 with
      | .ok n => .ok (wrapInt64 (1 + n))
      | .error e => .error e
      | .panic => .panic
    else if tag.val = ValueType_BYTES ∨ tag.val = ValueType_DECIMAL then
      .error (.notSelfDelimiting tag.val)
    else .error (.unknownTag tag.val)

/-! ## Timestamp -/

/-- Go `math.MaxInt32`. -/
def MaxInt32 : Int := 2147483647

/-- Go `math.MaxInt64`. -/
def MaxInt64 : Int := 9223372036854775807

/-- Modelled from the spec: the `Timestamp` message of the generated
`data.pb.go` (not among the sources): "pair `(WallTime: int64 nanoseconds,
Logical: int32)`". -/
structure Timestamp where
  WallTime : Int
  Logical : Int
  deriving DecidableEq, Repr

/-- The fields are an `int64` and an `int32`. -/
def Timestamp.InRange (t : Timestamp) : Prop :=
  -MaxInt64 - 1 ≤ t.WallTime ∧ t.WallTime ≤ MaxInt64 ∧
  -MaxInt32 - 1 ≤ t.Logical ∧ t.Logical ≤ MaxInt32

instance (t : Timestamp) : Decidable t.InRange := by
  unfold Timestamp.InRange
  exact inferInstance

/-- Source `MaxTimestamp`. -/
def MaxTimestamp : Timestamp := { WallTime := MaxInt64, Logical := MaxInt32 }

/-- Source `MinTimestamp`. -/
def MinTimestamp : Timestamp := { WallTime := 0, Logical := 1 }

/-- Source `ZeroTimestamp`. -/
def ZeroTimestamp : Timestamp := { WallTime := 0, Logical := 0 }

/-- Source `Timestamp.Less`. -/
def Timestamp.Less (t s : Timestamp) : Bool :=
  decide (t.WallTime < s.WallTime) ||
    (decide (t.WallTime = s.WallTime) && decide (t.Logical < s.Logical))

/-- Source `Timestamp.Equal`. -/
def Timestamp.Equal (t s : Timestamp) : Bool :=
  decide (t.WallTime = s.WallTime) && decide (t.Logical = s.Logical)

/-- Source `Timestamp.Next`; the `panic` is `Res.panic`. With fields in range
neither addition can wrap (each is guarded by the comparison with the maximum). -/
def Timestamp.Next (t : Timestamp) : Res Timestamp :=
  if t.Logical = MaxInt32 then
    if t.WallTime = MaxInt64 then .panic
    else .ok { WallTime := t.WallTime + 1, Logical := 0 }
  else .ok { WallTime := t.WallTime, Logical := t.Logical + 1 }

/-- Source `Timestamp.Prev`; the `panic` is `Res.panic`. -/
def Timestamp.Prev (t : Timestamp) : Res Timestamp :=
  if t.Logical > 0 then .ok { WallTime := t.WallTime, Logical := t.Logical - 1 }
  else if t.WallTime > 0 then .ok { WallTime := t.WallTime - 1, Logical := MaxInt32 }
  else .panic

/-- Source `Timestamp.Forward`: the receiver after the call. -/
def Timestamp.Forward (t s : Timestamp) : Timestamp :=
  if t.Less s then s else t

/-- Source `Timestamp.Backward`: the receiver after the call. -/
def Timestamp.Backward (t s : Timestamp) : Timestamp :=
  if s.Less t then s else t

/-! ## Value: header, checksum, typed setters and getters -/

def checksumUninitialized : Nat := 0
def checksumSize : Nat := 4
def tagPos : Nat := checksumSize
def headerSize : Nat := tagPos + 1

/-- Modelled from the spec: the `Value` message of the generated `data.pb.go`
(not among the sources): "a byte sequence `RawBytes`" and "a companion
`Timestamp` field". -/
structure Value where
  RawBytes : List Byte
  Timestamp : Timestamp
  deriving DecidableEq, Repr

/-- Source `Value.checksum`. -/
def Value.checksum (v : Value) : Res Nat :=
  if v.RawBytes.length < checksumSize then .ok 0
  else
    match slice v.RawBytes 0 checksumSize with
    | none => .panic
    | some b =>
      match DecodeUint32Ascending b with
      | .ok (_, u) => .ok u
      | _ => .panic

/-- Source `Value.setChecksum`: the receiver after the call.
`EncodeUint32Ascending(v.RawBytes[:0], cksum)` appends four bytes to the
zero-length prefix of `RawBytes`, whose capacity is at least four, so it
overwrites the first four bytes of `RawBytes` in place. -/
def Value.setChecksum (v : Value) (cksum : Nat) : Value :=
  if checksumSize ≤ v.RawBytes.length then
    { v with RawBytes := EncodeUint32Ascending [] cksum ++ v.RawBytes.drop checksumSize }
  else v

/-- Source `Value.computeChecksum`. `crc` stands for the IEEE CRC-32 of
`hash/crc32` as a function of all the bytes written to the hash; `Sum32` is a
`uint32`, hence the `% 2 ^ 32`. -/
def Value.computeChecksum (crc : List Byte → Nat) (v : Value) (key : List Byte) : Nat :=
  if v.RawBytes.length < headerSize then 0
  else
    let sum := crc (key ++ v.RawBytes.drop checksumSize) % 2 ^ 32
    if sum = checksumUninitialized then 1 else sum

/-- Source `Value.InitChecksum`: the receiver after the call, or the panic.
A nil and an empty `RawBytes` behave alike: for the empty one `checksum()` is 0
and `setChecksum` does nothing. -/
def Value.InitChecksum (crc : List Byte → Nat) (v : Value) (key : List Byte) : Res Value :=
  if v.RawBytes = [] then .ok v
  else
    match v.checksum with
    | .ok c =>
      if c ≠ checksumUninitialized then .panic
      else .ok (v.setChecksum (v.computeChecksum crc key))
    | _ => .panic

/-- Source `Value.ClearChecksum`: the receiver after the call. -/
def Value.ClearChecksum (v : Value) : Value := v.setChecksum 0

/-- Source `Value.Verify`: `Res.ok ()` is the nil error. -/
def Value.Verify (crc : List Byte → Nat) (v : Value) (key : List Byte) : Res Unit :=
  let n := v.RawBytes.length
  if 0 < n ∧ n < headerSize then .error (.invalidHeaderSize n)
  else
    match v.checksum with
    | .ok sum =>
      if sum ≠ 0 then
        let computedSum := v.computeChecksum crc key
        if computedSum ≠ sum then .error (.invalidChecksum computedSum) else .ok ()
      else .ok ()
    | _ => .panic

/-- Source `Value.GetTag`. -/
def Value.GetTag (v : Value) : ValueType :=
  if v.RawBytes.length ≤ tagPos then ValueType_UNKNOWN
  else (v.RawBytes.getD tagPos 0).val

/-- Source `Value.dataBytes`: `v.RawBytes[headerSize:]`, `none` when it panics. -/
def Value.dataBytes (v : Value) : Option (List Byte) :=
  sliceFrom v.RawBytes headerSize

/-- Source `Value.SetBytes`: the receiver after the call. `make([]byte,
checksumSize, ...)` is four zero bytes. -/
def Value.SetBytes (v : Value) (b : List Byte) : Value :=
  { v with RawBytes := EncodeBytesValue (List.replicate checksumSize 0) b false }

/-- Source `Value.SetString`: the receiver after the call; `s` is the byte
sequence of the Go string, `[]byte(s)`. -/
def Value.SetString (v : Value) (s : List Byte) : Value :=
  { v with RawBytes := EncodeBytesValue (List.replicate checksumSize 0) s false }

/-- Source `Value.SetFloat`: the receiver after the call. -/
def Value.SetFloat (v : Value) (fbits : Nat) : Value :=
  { v with RawBytes := EncodeFloatValue (List.replicate checksumSize 0) fbits }

/-- Source `Value.SetInt`: the receiver after the call. -/
def Value.SetInt (v : Value) (i : Int) : Value :=
  { v with RawBytes := EncodeIntValue (List.replicate checksumSize 0) i }

/-- Source `Value.GetBytes`. -/
def Value.GetBytes (v : Value) : Res (List Byte) :=
  if v.GetTag ≠ ValueType_BYTES then .error (.typeMismatch ValueType_BYTES v.GetTag)
  else
    match v.dataBytes with
    | none => .panic
    | some d => .ok d

/-- Source `Value.GetFloat`: `v.RawBytes[checksumSize:]` panics on fewer than
four bytes. -/
def Value.GetFloat (v : Value) : Res Nat :=
  match sliceFrom v.RawBytes checksumSize with
  | none => .panic
  | some b =>
    match DecodeFloatValue b with
    | .ok (_, f) => .ok f
    | .error e => .error e
    | .panic => .panic

/-- Source `Value.GetInt`: `v.RawBytes[checksumSize:]` panics on fewer than
four bytes. -/
def Value.GetInt (v : Value) : Res Int :=
  match sliceFrom v.RawBytes checksumSize with
  | none => .panic
  | some b =>
    match DecodeIntValue b with
    | .ok (_, i) => .ok i
    | .error e => .error e
    | .panic => .panic

/-- The zig-zag `uint64` that `PutVarint` hands to `PutUvarint`. -/
def zigzag (x : Int) : Nat :=
  if x < 0 then 2 ^ 64 - 1 - ((x % 2 ^ 64).toNat <<< 1) % 2 ^ 64
  else ((x % 2 ^ 64).toNat <<< 1) % 2 ^ 64

/-- The big-endian value of four bytes, written arithmetically: what the
four-byte checksum field of `RawBytes` denotes. -/
def be32 (b0 b1 b2 b3 : Byte) : Nat :=
  b0.val * 2 ^ 24 + b1.val * 2 ^ 16 + b2.val * 2 ^ 8 + b3.val

/-! ## Keys: byte slices with capacity, ordering, successor -/

/-- A Go `[]byte` together with its spare capacity: `elems` are the `len(b)`
bytes of the slice and `spare` is what the backing array holds between `len(b)`
and `cap(b)`. -/
structure Slice where
  elems : List Byte
  spare : List Byte
  deriving DecidableEq, Repr

/-- Go `len(b)`. -/
def Slice.len (b : Slice) : Nat := b.elems.length

/-- Go `cap(b)`. -/
def Slice.cap (b : Slice) : Nat := b.elems.length + b.spare.length

/-- Go index expression `b[i]`; `none` is the run-time panic "index out of
range". -/
def indexAt (b : List Byte) (i : Int) : Option Byte :=
  if 0 ≤ i ∧ i < b.length then b.get? i.toNat else none

/-- Go `bytes.Compare` (standard library): -1, 0 or +1 as `a` is
lexicographically less than, equal to or greater than `b`; a nil argument is an
empty slice. -/
def bytesCompare : List Byte → List Byte → Int
  | [], [] => 0
  | [], _ :: _ => -1
  | _ :: _, [] => 1
  | x :: a, y :: b => if x < y then -1 else if y < x then 1 else bytesCompare a b

/-- Go `bytes.Equal` (standard library): same length and same bytes. -/
def bytesEqual (a b : List Byte) : Bool := decide (a = b)

/-- Source `BytesNext`. When the slice has spare capacity, `bNext :=
b[:len(b)+1]` extends it over the first spare byte of the backing array and is
returned if that byte is 0; otherwise a fresh slice of `len(b)+1` bytes is made,
`b` copied into it and its last byte set to 0. -/
def BytesNext (b : Slice) : Slice :=
  let bn : Slice := { elems := b.elems ++ [0], spare := [] }
  if b.cap > b.len then
    match b.spare with
    | x :: rest =>
      let bNext : Slice := { elems := b.elems ++ [x], spare := rest }
      if x = 0 then bNext else bn
    | [] => bn
  else bn

/-- Source `Key.Next`. -/
def Key.Next (k : Slice) : Slice := BytesNext k

/-- Source `RKey.Next`. -/
def RKey.Next (rk : Slice) : Slice := BytesNext rk

/-- Source `Key.Equal`. -/
def Key.Equal (k l : Slice) : Bool := bytesEqual k.elems l.elems

/-- Source `RKey.Less`. -/
def RKey.Less (rk otherRK : Slice) : Bool := decide (bytesCompare rk.elems otherRK.elems < 0)

/-- Source `Key.IsPrev`: `l := len(m) - 1; return l == len(k) && m[l] == 0 &&
k.Equal(m[:l])`. The `&&` short-circuits, so `m[l]` and `m[:l]` are evaluated
only after `l == len(k)` held. -/
def Key.IsPrev (k m : Slice) : Res Bool :=
  let l : Int := (m.len : Int) - 1
  if l ≠ (k.len : Int) then .ok false
  else
    match indexAt m.elems l with
    | none => .panic
    | some x =>
      if x ≠ 0 then .ok false
      else
        match slice m.elems 0 l with
        | none => .panic
        | some p => .ok (bytesEqual k.elems p)

/-- A key held in a struct field, seen as a slice: the methods of `Span` and
`RSpan` look only at the bytes, never at the capacity. -/
def asSlice (b : List Byte) : Slice := { elems := b, spare := [] }

/-- Source `RKeyMax`. -/
def RKeyMax : Slice := { elems := [0xff, 0xff], spare := [] }

/-- Source `KeyMax`. -/
def KeyMax : Slice := RKeyMax

/-- The loop of source `bytesPrefixEnd` over the copy `e` of the key, with `n`
positions still to visit (the Go index is `i = n - 1`, counting down to 0):
`end[i] = end[i] + 1` is a `byte` sum, which wraps; `none` is the fall through
of the loop. -/
def prefixEndLoop (e : List Byte) : Nat → Option (List Byte)
  | 0 => none
  | i + 1 =>
    let e := e.set i (byte ((e.getD i 0).val + 1))
    if e.getD i 0 ≠ 0 then some e else prefixEndLoop e i

/-- Source `bytesPrefixEnd`: a fresh slice of `len(b)` bytes, or `b` itself when
the loop falls through. -/
def bytesPrefixEnd (b : Slice) : Slice :=
  match prefixEndLoop b.elems b.len with
  | some e => { elems := e, spare := [] }
  | none => b

/-- Source `Key.PrefixEnd`. -/
def Key.PrefixEnd (k : Slice) : Slice :=
  if k.len = 0 then RKeyMax else bytesPrefixEnd k

/-- Source `RKey.PrefixEnd`. -/
def RKey.PrefixEnd (rk : Slice) : Slice :=
  if rk.len = 0 then RKeyMax else bytesPrefixEnd rk

/-- Modelled from the spec: the `Span` message of the generated `data.pb.go`:
"`Span` = {`Key`, optional `EndKey`}". -/
structure Span where
  Key : List Byte
  EndKey : List Byte
  deriving DecidableEq, Repr

/-- Source `Span.Overlaps`. -/
def Span.Overlaps (s o : Span) : Bool :=
  if s.EndKey.length = 0 ∧ o.EndKey.length = 0 then Key.Equal (asSlice s.Key) (asSlice o.Key)
  else if s.EndKey.length = 0 then
    decide (bytesCompare s.Key o.Key ≥ 0) && decide (bytesCompare s.Key o.EndKey < 0)
  else if o.EndKey.length = 0 then
    decide (bytesCompare o.Key s.Key ≥ 0) && decide (bytesCompare o.Key s.EndKey < 0)
  else decide (bytesCompare s.EndKey o.Key > 0) && decide (bytesCompare s.Key o.EndKey < 0)

/-- Source `RSpan`. -/
structure RSpan where
  Key : List Byte
  EndKey : List Byte
  deriving DecidableEq, Repr

/-- Source `RSpan.ContainsKey`. -/
def RSpan.ContainsKey (rs : RSpan) (key : List Byte) : Bool :=
  decide (bytesCompare key rs.Key ≥ 0) && decide (bytesCompare key rs.EndKey < 0)

/-- Source `RSpan.ContainsExclusiveEndKey`. -/
def RSpan.ContainsExclusiveEndKey (rs : RSpan) (key : List Byte) : Bool :=
  decide (bytesCompare key rs.Key > 0) && decide (bytesCompare key rs.EndKey ≤ 0)

/-- Source `RSpan.ContainsKeyRange`. -/
def RSpan.ContainsKeyRange (rs : RSpan) (start end_ : List Byte) : Bool :=
  if end_.length = 0 then rs.ContainsKey start
  else
    let comp := bytesCompare end_ start
    if comp < 0 then false
    else if comp = 0 then rs.ContainsKey start
    else decide (bytesCompare start rs.Key ≥ 0) && decide (bytesCompare rs.EndKey end_ ≥ 0)

/-- Modelled from the spec: the `RangeDescriptor` message, "a range/shard boundary
descriptor (external)", of which `Intersect` reads the two boundary keys. -/
structure RangeDescriptor where
  StartKey : List Byte
  EndKey : List Byte
  deriving DecidableEq, Repr

/-- Modelled from the spec: `RangeDescriptor.ContainsKeyRange`, which is not
among the sources: containment of the `RSpan` over `[StartKey, EndKey)`. -/
def RangeDescriptor.ContainsKeyRange (desc : RangeDescriptor) (start end_ : List Byte) : Bool :=
  (RSpan.mk desc.StartKey desc.EndKey).ContainsKeyRange start end_

/-- Source `RSpan.Intersect`: the span and the error returned (`none` is the nil
error). `endKey == nil` reads as `endKey = []`: it is evaluated only after
`desc.StartKey.Less(rs.EndKey)` held, when `endKey` is not empty. -/
def RSpan.Intersect (rs : RSpan) (desc : RangeDescriptor) : RSpan × Option Err :=
  if !(RKey.Less (asSlice rs.Key) (asSlice desc.EndKey)) ||
      !(RKey.Less (asSlice desc.StartKey) (asSlice rs.EndKey)) then
    (rs, some .noOverlap)
  else
    let key := rs.Key
    let key := if RKey.Less (asSlice key) (asSlice desc.StartKey) then desc.StartKey else key
    let endKey := rs.EndKey
    let endKey :=
      if !(desc.ContainsKeyRange desc.StartKey endKey) || decide (endKey = []) then desc.EndKey
      else endKey
    ({ Key := key, EndKey := endKey }, none)

/-- The keys of a span in the spec's words: "an empty `EndKey` denotes a
single-key span", otherwise the half-open range `[Key, EndKey)`. -/
def Span.specContains (s : Span) (k : List Byte) : Bool :=
  if s.EndKey = [] then decide (k = s.Key)
  else decide (bytesCompare s.Key k ≤ 0) && decide (bytesCompare k s.EndKey < 0)

/-- A well-formed span in the spec's words: `Key < EndKey`, or `EndKey` absent. -/
def Span.WellFormed (s : Span) : Prop :=
  s.EndKey = [] ∨ bytesCompare s.Key s.EndKey < 0

instance (s : Span) : Decidable s.WellFormed := by
  unfold Span.WellFormed
  exact inferInstance

/-- The keys of an `RSpan` when it is read in the spec's words, like a `Span`: an
empty `EndKey` denotes the single key `Key`. -/
def RSpan.specContains (rs : RSpan) (k : List Byte) : Bool :=
  if rs.EndKey = [] then decide (k = rs.Key)
  else decide (bytesCompare rs.Key k ≤ 0) && decide (bytesCompare k rs.EndKey < 0)

/-- The keys of the descriptor's range `[StartKey, EndKey)`. -/
def RangeDescriptor.specContains (desc : RangeDescriptor) (k : List Byte) : Bool :=
  decide (bytesCompare desc.StartKey k ≤ 0) && decide (bytesCompare k desc.EndKey < 0)

/-- The greater of two keys in byte order, in the spec's words `max`. -/
def maxKey (a b : List Byte) : List Byte := if bytesCompare a b < 0 then b else a

/-- The lesser of two keys in byte order, in the spec's words `min`. -/
def minKey (a b : List Byte) : List Byte := if bytesCompare b a < 0 then b else a

/-! ## Transaction -/

/-- Modelled from the spec: the node identifier, "external, opaque integer". -/
abbrev NodeID := Int

/-- A Go `map[NodeID]Timestamp` as the list of its entries, in the order in which
a `range` loop happens to visit them; the keys of a Go map are distinct. The nil
map and the empty map are both `[]`. -/
abbrev ObservedMap := List (NodeID × Timestamp)

/-- Go map read `ts, ok := m[k]`: `none` when `ok` is false. -/
def mapLookup : ObservedMap → NodeID → Option Timestamp
  | [], _ => none
  | (k, v) :: m, n => if k = n then some v else mapLookup m n

/-- Go map write `m[k] = v`: the entry of `k` is replaced, or added. -/
def mapStore : ObservedMap → NodeID → Timestamp → ObservedMap
  | [], n, ts => [(n, ts)]
  | (k, v) :: m, n, ts => if k = n then (n, ts) :: m else (k, v) :: mapStore m n ts

/-- Modelled from the spec: the `TransactionStatus` enumeration of the generated
`data.pb.go`: "status (`PENDING | COMMITTED | ABORTED`)". -/
inductive TransactionStatus where
  | PENDING
  | COMMITTED
  | ABORTED
  deriving DecidableEq, Repr

/-- Modelled from the spec: the `Transaction` message of the generated
`data.pb.go` with its embedded `TxnMeta`, whose fields Go promotes, as one
record. The field types are those of `data.proto`: `ID` is a `*uuid.UUID` (128
bits), `LastHeartbeat` a `*Timestamp`, `Epoch` a `uint32`, `Priority` and
`Sequence` are `int32`; `Isolation` is the number of the isolation level. -/
structure Transaction where
  ID : Option Nat
  Isolation : Nat
  Key : List Byte
  Epoch : Nat
  Priority : Int
  Sequence : Int
  Name : String
  Status : TransactionStatus
  LastHeartbeat : Option Timestamp
  OrigTimestamp : Timestamp
  MaxTimestamp : Timestamp
  ObservedTimestamps : ObservedMap
  Writing : Bool
  WriteTooOld : Bool
  RetryOnPush : Bool
  Intents : List Span
  Timestamp : Timestamp
  deriving DecidableEq, Repr

/-- Source `Transaction.Clone`: the heartbeat is copied behind a new pointer, the
map entry by entry into a new map, the intents into a new slice. -/
def Transaction.Clone (t : Transaction) : Transaction :=
  { t with
    LastHeartbeat := match t.LastHeartbeat with
      | some h => some h
      | none => none
    ObservedTimestamps := t.ObservedTimestamps.foldl (fun m e => mapStore m e.1 e.2) []
    Intents := [] ++ t.Intents }

/-- Source `Transaction.UpgradePriority`: the receiver after the call. -/
def Transaction.UpgradePriority (t : Transaction) (minPriority : Int) : Transaction :=
  if minPriority > t.Priority then { t with Priority := minPriority } else t

/-- Source `Transaction.UpdateObservedTimestamp`: the receiver after the call. -/
def Transaction.UpdateObservedTimestamp (t : Transaction) (nodeID : NodeID)
    (maxTS : Roachpb.Timestamp) : Transaction :=
  match mapLookup t.ObservedTimestamps nodeID with
  | none => { t with ObservedTimestamps := mapStore t.ObservedTimestamps nodeID maxTS }
  | some ts =>
    if maxTS.Less ts then
      { t with ObservedTimestamps := mapStore t.ObservedTimestamps nodeID maxTS }
    else t

/-- Source `Transaction.GetObservedTimestamp`: a missing entry reads as the zero
`Timestamp` and `false`. -/
def Transaction.GetObservedTimestamp (t : Transaction) (nodeID : NodeID) :
    Roachpb.Timestamp × Bool :=
  match mapLookup t.ObservedTimestamps nodeID with
  | some ts => (ts, true)
  | none => ({ WallTime := 0, Logical := 0 }, false)

/-- Source `Transaction.Restart`: the receiver after the call. `rolled` is the
value returned by `MakePriority(userPriority)`, which draws from `math/rand` and
computes in `float64`; `t.Epoch++` is a `uint32` increment. -/
def Transaction.Restart (t : Transaction) (rolled : Int) (upgradePriority : Int)
    (timestamp : Roachpb.Timestamp) : Transaction :=
  let t := { t with Epoch := wrapUint32 (t.Epoch + 1) }
  let t := if t.Timestamp.Less timestamp then { t with Timestamp := timestamp } else t
  let t := { t with OrigTimestamp := t.Timestamp }
  let t := t.UpgradePriority rolled
  let t := t.UpgradePriority upgradePriority
  let t := { t with WriteTooOld := false }
  { t with RetryOnPush := false }

/-- Source `Transaction.Update`: the receiver after the call; `o = none` is the
nil pointer. The `range` loop over `o.ObservedTimestamps` visits the entries in
the order of the list. -/
def Transaction.Update (t : Transaction) (o : Option Transaction) : Transaction :=
  match o with
  | none => t
  | some o =>
    if t.ID = none then o.Clone
    else
      let t := if t.Key.length = 0 then { t with Key := o.Key } else t
      let t := if o.Status ≠ .PENDING then { t with Status := o.Status } else t
      let t := if t.Epoch < o.Epoch then { t with Epoch := o.Epoch } else t
      let t := { t with Timestamp := t.Timestamp.Forward o.Timestamp }
      let t := { t with OrigTimestamp := t.OrigTimestamp.Forward o.OrigTimestamp }
      let t := { t with MaxTimestamp := t.MaxTimestamp.Forward o.MaxTimestamp }
      let t :=
        match o.LastHeartbeat with
        | none => t
        | some oh =>
          let th : Roachpb.Timestamp :=
            match t.LastHeartbeat with
            | none => { WallTime := 0, Logical := 0 }
            | some h => h
          { t with LastHeartbeat := some (th.Forward oh) }
      let t := o.ObservedTimestamps.foldl (fun t e => t.UpdateObservedTimestamp e.1 e.2) t
      let t := t.UpgradePriority o.Priority
      let t := { t with Writing := t.Writing || o.Writing }
      let t := { t with WriteTooOld := o.WriteTooOld }
      let t := { t with RetryOnPush := o.RetryOnPush }
      let t := if t.Sequence < o.Sequence then { t with Sequence := o.Sequence } else t
      if o.Intents.length > 0 then { t with Intents := o.Intents } else t

/-- The map that `UpdateObservedTimestamp(nodeID, maxTS)` leaves, as a function
of the map alone. -/
def observe (m : ObservedMap) (nodeID : NodeID) (maxTS : Timestamp) : ObservedMap :=
  match mapLookup m nodeID with
  | none => mapStore m nodeID maxTS
  | some ts => if maxTS.Less ts then mapStore m nodeID maxTS else m

/-- The map that the `range` loop of `Update` leaves: the entries `es` observed
one after the other. -/
def observeAll (m es : ObservedMap) : ObservedMap :=
  es.foldl (fun m e => observe m e.1 e.2) m

/-- The heartbeat that `Update` leaves: unchanged when `o.LastHeartbeat` is nil,
else the receiver's heartbeat (the zero timestamp when nil) forwarded to it. -/
def forwardHeartbeat (th oh : Option Timestamp) : Option Timestamp :=
  match oh with
  | none => th
  | some oh =>
    some (Timestamp.Forward
      (match th with
        | none => { WallTime := 0, Logical := 0 }
        | some h => h) oh)

/-- The Go zero value `Transaction{}`. -/
def zeroTransaction : Transaction :=
  { ID := none, Isolation := 0, Key := [], Epoch := 0, Priority := 0, Sequence := 0, Name := "",
    Status := .PENDING, LastHeartbeat := none, OrigTimestamp := { WallTime := 0, Logical := 0 },
    MaxTimestamp := { WallTime := 0, Logical := 0 }, ObservedTimestamps := [], Writing := false,
    WriteTooOld := false, RetryOnPush := false, Intents := [],
    Timestamp := { WallTime := 0, Logical := 0 } }

/-- The lowest, under `Timestamp.Less`, of an optional timestamp and a list of
timestamps taken in order: what a map entry holds after the timestamps of the
list were observed for its node. -/
def lowest : Option Timestamp → List Timestamp → Option Timestamp
  | acc, [] => acc
  | none, x :: xs => lowest (some x) xs
  | some y, x :: xs => lowest (some (if x.Less y then x else y)) xs

/-- The timestamps that a sequence of `UpdateObservedTimestamp(node, ts)` calls
passes for the node `n`, in the order of the calls. -/
def passedFor (n : NodeID) (calls : List (NodeID × Timestamp)) : List Timestamp :=
  (calls.filter (fun c => decide (c.1 = n))).map Prod.snd

/-! # Theorems -/

/-! ## Varint lemmas -/

theorem byte_val (x : Nat) : (byte x).val = x % 256 := rfl

set_option maxRecDepth 100000 in
theorem lor_0x80 : ∀ y : Fin 256, y.val ||| 0x80 = y.val % 128 + 128 := by decide

/-- The continuation byte written by `PutUvarint`. -/
theorem cont_byte_val (x : Nat) : (byte ((byte x).val ||| 0x80)).val = x % 128 + 128 := by
  rw [lor_0x80, byte_val, byte_val]
  omega

theorem land_0x7f (y : Nat) : y &&& 0x7f = y % 128 :=
  Nat.and_pow_two_sub_one_eq_mod y 7

theorem lor_shiftLeft_eq_add (acc y s : Nat) (h : acc < 2 ^ s) :
    acc ||| (y <<< s) = acc + y * 2 ^ s := by
  rw [Nat.shiftLeft_eq, Nat.lor_comm, Nat.mul_comm y, ← Nat.mul_add_lt_is_or h]
  omega

theorem PutUvarint_length_pos (x : Nat) : 0 < (PutUvarint x).length := by
  rw [PutUvarint]
  split <;> simp

/-- Loop invariant of `Uvarint` run over the output of `PutUvarint`. -/
theorem uvarintLoop_PutUvarint (x : Nat) :
    ∀ (r : List Byte) (acc i : Nat), i ≤ 9 → acc < 2 ^ (7 * i) → x < 2 ^ (64 - 7 * i) →
      uvarintLoop (PutUvarint x ++ r) acc (7 * i) i
        = (acc + x * 2 ^ (7 * i), (i : Int) + (PutUvarint x).length) := by
  induction x using Nat.strong_induction_on with
  | _ x ih =>
    intro r acc i hi hacc hx
    rw [PutUvarint]
    by_cases hx80 : 0x80 ≤ x
    · have hi8 : i ≤ 8 := by
        by_contra hcon
        have h9 : i = 9 := by omega
        subst h9
        norm_num at hx
        omega
      have hpow : (2:Nat) ^ (64 - 7 * i) = 2 ^ (64 - 7 * (i + 1)) * 128 := by
        have : 64 - 7 * i = (64 - 7 * (i + 1)) + 7 := by omega
        rw [this, Nat.pow_add]
      have hpow2 : (2:Nat) ^ (7 * (i + 1)) = 2 ^ (7 * i) * 128 := by
        rw [Nat.mul_add, Nat.pow_add]
      have hx7 : x >>> 7 = x / 128 := by simp [Nat.shiftRight_eq_div_pow]
      have hdiv : x / 128 < 2 ^ (64 - 7 * (i + 1)) := by
        rw [hpow] at hx
        exact Nat.div_lt_of_lt_mul (by rw [Nat.mul_comm]; exact hx)
      have hlt : x / 128 < x := by omega
      have hacc2 : acc + x % 128 * 2 ^ (7 * i) < 2 ^ (7 * (i + 1)) := by
        rw [hpow2]
        have : x % 128 * 2 ^ (7 * i) ≤ 127 * 2 ^ (7 * i) := Nat.mul_le_mul_right _ (by omega)
        omega
      have h64 : acc + x % 128 * 2 ^ (7 * i) < 2 ^ 64 :=
        lt_of_lt_of_le hacc2 (Nat.pow_le_pow_right (by decide) (by omega))
      simp only [hx80, if_true, List.cons_append, uvarintLoop, cont_byte_val, land_0x7f]
      have hnot : ¬ (x % 128 + 128 < 128) := by omega
      rw [if_neg hnot]
      have hmod : (x % 128 + 128) % 128 = x % 128 := by omega
      have hsh : (x % 128) <<< (7 * i) < 2 ^ 64 := by
        rw [Nat.shiftLeft_eq]
        omega
      rw [hmod, Nat.mod_eq_of_lt hsh, lor_shiftLeft_eq_add _ _ _ hacc, hx7]
      have := ih (x / 128) hlt r (acc + x % 128 * 2 ^ (7 * i)) (i + 1) (by omega) hacc2 hdiv
      have h7 : 7 * i + 7 = 7 * (i + 1) := by omega
      rw [h7, this, hpow2]
      simp only [List.length_cons, Prod.mk.injEq]
      constructor
      · have := Nat.div_add_mod x 128
        have e : x / 128 * (2 ^ (7 * i) * 128) = (128 * (x / 128)) * 2 ^ (7 * i) := by ring
        rw [e]
        have e2 : x * 2 ^ (7 * i) = (128 * (x / 128) + x % 128) * 2 ^ (7 * i) := by rw [this]
        rw [e2]
        ring
      · push_cast
        ring
    · have hx128 : x < 128 := by omega
      have hbv : (byte x).val = x := by rw [byte_val]; omega
      simp only [hx80, if_false, List.cons_append, List.nil_append, uvarintLoop, hbv]
      rw [if_pos hx128]
      have hov : ¬ (i > 9 ∨ (i = 9 ∧ x > 1)) := by
        rintro (h | ⟨h, h1⟩)
        · omega
        · subst h
          norm_num at hx
          omega
      have h64 : acc + x * 2 ^ (7 * i) < 2 ^ 64 := by
        have h1 : x * 2 ^ (7 * i) + 2 ^ (7 * i) ≤ 2 ^ (64 - 7 * i) * 2 ^ (7 * i) := by
          have : (x + 1) * 2 ^ (7 * i) ≤ 2 ^ (64 - 7 * i) * 2 ^ (7 * i) :=
            Nat.mul_le_mul_right _ hx
          linarith [this]
        have h2 : (2:Nat) ^ (64 - 7 * i) * 2 ^ (7 * i) = 2 ^ 64 := by
          rw [← Nat.pow_add]
          congr 1
          omega
        omega
      have hsh : x <<< (7 * i) < 2 ^ 64 := by
        rw [Nat.shiftLeft_eq]
        omega
      rw [if_neg hov, Nat.mod_eq_of_lt hsh, lor_shiftLeft_eq_add _ _ _ hacc]
      simp

theorem Uvarint_PutUvarint (x : Nat) (hx : x < 2 ^ 64) (r : List Byte) :
    Uvarint (PutUvarint x ++ r) = (x, ((PutUvarint x).length : Int)) := by
  have h := uvarintLoop_PutUvarint x r 0 0 (by omega) (by simp) (by simpa using hx)
  simpa [Uvarint] using h

theorem PutVarint_eq (x : Int) : PutVarint x = PutUvarint (zigzag x) := by
  unfold PutVarint zigzag
  split <;> simp_all

theorem zigzag_lt (x : Int) : zigzag x < 2 ^ 64 := by
  unfold zigzag
  split <;> omega

theorem unzigzag (x : Int) (h1 : -2 ^ 63 ≤ x) (h2 : x < 2 ^ 63) :
    (if zigzag x &&& 1 ≠ 0 then -wrapInt64 ((zigzag x >>> 1 : Nat) : Int) - 1
      else wrapInt64 ((zigzag x >>> 1 : Nat) : Int)) = x := by
  rw [Nat.and_one_is_mod, Nat.shiftRight_eq_div_pow]
  unfold zigzag wrapInt64
  simp only [Nat.shiftLeft_eq]
  norm_num
  split_ifs <;> omega

theorem Varint_PutVarint (x : Int) (h1 : -2 ^ 63 ≤ x) (h2 : x < 2 ^ 63) (r : List Byte) :
    Varint (PutVarint x ++ r) = (x, ((PutVarint x).length : Int)) := by
  rw [PutVarint_eq]
  simp only [Varint, Uvarint_PutUvarint _ (zigzag_lt x)]
  rw [unzigzag x h1 h2]

theorem sliceFrom_append_length (a r : List Byte) :
    sliceFrom (a ++ r) (a.length : Int) = some r := by
  simp [sliceFrom]

theorem PutVarint_length_pos (x : Int) : 0 < (PutVarint x).length := by
  rw [PutVarint_eq]
  exact PutUvarint_length_pos _

theorem DecodeIntValue_EncodeIntValue (i : Int) (h1 : -2 ^ 63 ≤ i) (h2 : i < 2 ^ 63) (r : List Byte) :
    DecodeIntValue (EncodeIntValue [] i ++ r) = .ok (r, i) := by
  have hp := PutVarint_length_pos i
  simp only [EncodeIntValue, encodeGoVarint, List.nil_append, List.singleton_append,
    List.cons_append, DecodeIntValue]
  rw [if_neg (by decide), Varint_PutVarint i h1 h2 r]
  simp only
  rw [if_neg (by omega), sliceFrom_append_length]

theorem wrapInt64_of_inRange (x : Int) (h1 : -2 ^ 63 ≤ x) (h2 : x < 2 ^ 63) : wrapInt64 x = x := by
  unfold wrapInt64
  omega

theorem slice_append_mid (a d r : List Byte) :
    slice (a ++ (d ++ r)) (a.length : Int) ((a.length + d.length : Nat) : Int) = some d := by
  unfold slice
  rw [if_pos]
  · simp only [Int.toNat_ofNat]
    rw [← List.append_assoc, List.take_append_of_le_length (by simp)]
    have : (a ++ d).length = a.length + d.length := by simp
    rw [← this, List.take_length]
    simp
  · simp

theorem DecodeBytesValue_delimited (b : List Byte) (i n : Int) (hv : Varint b = (i, n))
    (hn : ¬ n ≤ 0) (rest data : List Byte)
    (h1 : sliceFrom b (wrapInt64 (n + i)) = some rest)
    (h2 : slice b n (wrapInt64 (n + i)) = some data) :
    DecodeBytesValue (byte ValueType_DELIMITED_BYTES :: b) = .ok (rest, data) := by
  unfold DecodeBytesValue
  simp only
  rw [if_neg (by decide), if_pos (by decide), hv]
  simp only
  rw [if_neg hn, h1, h2]

theorem DecodeBytesValue_EncodeBytesValue (data r : List Byte)
    (hlen : ((EncodeBytesValue [] data true ++ r).length : Int) ≤ MaxInt64) :
    DecodeBytesValue (EncodeBytesValue [] data false) = .ok ([], data) ∧
    DecodeBytesValue (EncodeBytesValue [] data true ++ r) = .ok (r, data) := by
  constructor
  · simp only [EncodeBytesValue, Bool.false_eq_true, if_false, List.nil_append,
      List.singleton_append, DecodeBytesValue]
    rw [if_pos (by decide)]
  · have hp := PutVarint_length_pos (data.length : Int)
    have henc : EncodeBytesValue [] data true ++ r
        = byte ValueType_DELIMITED_BYTES
            :: (PutVarint (data.length : Int) ++ (data ++ r)) := by
      simp [EncodeBytesValue, encodeGoVarint]
    rw [henc] at hlen ⊢
    simp only [List.length_cons, List.length_append, MaxInt64] at hlen
    have hsum : wrapInt64 (((PutVarint (data.length : Int)).length : Int) + (data.length : Int))
        = ((PutVarint (data.length : Int)).length + data.length : Nat) := by
      rw [wrapInt64_of_inRange _ (by omega) (by omega)]
      simp
    refine DecodeBytesValue_delimited _ _ _
      (Varint_PutVarint _ (by omega) (by omega) (data ++ r)) (by omega) r data ?_ ?_
    · rw [hsum, ← List.append_assoc]
      have := sliceFrom_append_length (PutVarint (data.length : Int) ++ data) r
      simpa using this
    · rw [hsum]
      exact slice_append_mid _ _ _

theorem GetInt_SetInt_GetBytes_SetBytes (v : Value) (i : Int) (h1 : -MaxInt64 - 1 ≤ i) (h2 : i ≤ MaxInt64)
    (b : List Byte) :
    (v.SetInt i).GetInt = .ok i ∧ (v.SetBytes b).GetBytes = .ok b := by
  constructor
  · have henc : (v.SetInt i).RawBytes = [0, 0, 0, 0] ++ (EncodeIntValue [] i ++ []) := by
      simp [Value.SetInt, EncodeIntValue, encodeGoVarint, checksumSize, List.replicate]
    have hs : sliceFrom (v.SetInt i).RawBytes checksumSize = some (EncodeIntValue [] i ++ []) := by
      rw [henc]
      exact sliceFrom_append_length [0, 0, 0, 0] _
    unfold Value.GetInt
    simp only [MaxInt64] at h1 h2
    simp only [hs, DecodeIntValue_EncodeIntValue i (by omega) (by omega) []]
  · have henc : (v.SetBytes b).RawBytes = [0, 0, 0, 0, byte ValueType_BYTES] ++ b := by
      simp [Value.SetBytes, EncodeBytesValue, checksumSize, List.replicate]
    have htag : (v.SetBytes b).GetTag = ValueType_BYTES := by
      simp [Value.GetTag, henc, tagPos, checksumSize]
      rfl
    have hd : (v.SetBytes b).dataBytes = some b := by
      unfold Value.dataBytes
      rw [henc]
      exact sliceFrom_append_length [0, 0, 0, 0, byte ValueType_BYTES] b
    unfold Value.GetBytes
    rw [if_neg (by rw [htag]; decide), hd]

/-! ## Checksum lemmas -/

theorem shl_lor_eq_add (a b k : Nat) (hb : b < 2 ^ k) : (a <<< k) ||| b = a * 2 ^ k + b := by
  rw [Nat.shiftLeft_eq, Nat.mul_comm, ← Nat.mul_add_lt_is_or hb]

theorem be32_eq_lor (b0 b1 b2 b3 : Byte) :
    (b0.val <<< 24) ||| (b1.val <<< 16) ||| (b2.val <<< 8) ||| b3.val = be32 b0 b1 b2 b3 := by
  have h0 := b0.isLt
  have h1 := b1.isLt
  have h2 := b2.isLt
  have h3 := b3.isLt
  unfold be32
  rw [Nat.lor_assoc, Nat.lor_assoc, shl_lor_eq_add b2.val b3.val 8 (by omega),
    shl_lor_eq_add b1.val _ 16 (by omega), shl_lor_eq_add b0.val _ 24 (by omega)]
  omega

theorem DecodeUint32Ascending_cons (b0 b1 b2 b3 : Byte) (rest : List Byte) :
    DecodeUint32Ascending (b0 :: b1 :: b2 :: b3 :: rest) = .ok (rest, be32 b0 b1 b2 b3) := by
  unfold DecodeUint32Ascending
  simp only [be32_eq_lor]

theorem be32_lt (b0 b1 b2 b3 : Byte) : be32 b0 b1 b2 b3 < 2 ^ 32 := by
  have h0 := b0.isLt
  have h1 := b1.isLt
  have h2 := b2.isLt
  have h3 := b3.isLt
  unfold be32
  omega

theorem EncodeUint32Ascending_nil (c : Nat) :
    EncodeUint32Ascending [] c = [byte (c >>> 24), byte (c >>> 16), byte (c >>> 8), byte c] := rfl

theorem be32_encode (c : Nat) (hc : c < 2 ^ 32) :
    be32 (byte (c >>> 24)) (byte (c >>> 16)) (byte (c >>> 8)) (byte c) = c := by
  unfold be32
  simp only [byte_val, Nat.shiftRight_eq_div_pow]
  omega

/-- `checksum()` of a value with at least four bytes is their big-endian value. -/
theorem checksum_cons (b0 b1 b2 b3 : Byte) (rest : List Byte) (ts : Timestamp) :
    (Value.mk (b0 :: b1 :: b2 :: b3 :: rest) ts).checksum = .ok (be32 b0 b1 b2 b3) := by
  unfold Value.checksum
  have hs : slice (b0 :: b1 :: b2 :: b3 :: rest) 0 (checksumSize : Nat) = some [b0, b1, b2, b3] := by
    simp [slice, checksumSize]
    omega
  simp only [List.length_cons, checksumSize]
  rw [if_neg (by omega)]
  simp only [checksumSize] at hs
  simp only [hs, DecodeUint32Ascending_cons]

theorem checksum_short (v : Value) (h : v.RawBytes.length < 4) : v.checksum = .ok 0 := by
  unfold Value.checksum
  rw [if_pos (by simpa [checksumSize] using h)]

theorem computeChecksum_ne_zero (crc : List Byte → Nat) (v : Value) (key : List Byte)
    (h : 5 ≤ v.RawBytes.length) : v.computeChecksum crc key ≠ 0 := by
  unfold Value.computeChecksum
  rw [if_neg (by simp [headerSize, tagPos, checksumSize]; omega)]
  simp only [checksumUninitialized]
  split <;> omega

theorem computeChecksum_lt (crc : List Byte → Nat) (v : Value) (key : List Byte) :
    v.computeChecksum crc key < 2 ^ 32 := by
  unfold Value.computeChecksum
  split
  · omega
  · simp only [checksumUninitialized]
    split <;> omega

theorem computeChecksum_eq_zero_iff (crc : List Byte → Nat) (v : Value) (key : List Byte) :
    v.computeChecksum crc key = 0 ↔ v.RawBytes.length < headerSize := by
  constructor
  · intro h
    by_contra hcon
    exact computeChecksum_ne_zero crc v key (by simp [headerSize, tagPos, checksumSize] at hcon; omega) h
  · intro h
    unfold Value.computeChecksum
    rw [if_pos h]

theorem Verify_nil (crc : List Byte → Nat) (ts : Timestamp) (key : List Byte) :
    (Value.mk [] ts).Verify crc key = .ok () := by
  unfold Value.Verify
  simp only [List.length_nil]
  rw [if_neg (by omega), checksum_short _ (by simp)]
  simp

theorem Verify_short (crc : List Byte → Nat) (v : Value) (key : List Byte)
    (h1 : 1 ≤ v.RawBytes.length) (h4 : v.RawBytes.length ≤ 4) :
    v.Verify crc key = .error (.invalidHeaderSize v.RawBytes.length) := by
  unfold Value.Verify
  simp only
  rw [if_pos (by simp [headerSize, tagPos, checksumSize]; omega)]

theorem Verify_cons (crc : List Byte → Nat) (b0 b1 b2 b3 t : Byte) (rest : List Byte)
    (ts : Timestamp) (key : List Byte) :
    (Value.mk (b0 :: b1 :: b2 :: b3 :: t :: rest) ts).Verify crc key =
      if be32 b0 b1 b2 b3 ≠ 0 then
        if (Value.mk (b0 :: b1 :: b2 :: b3 :: t :: rest) ts).computeChecksum crc key
            ≠ be32 b0 b1 b2 b3 then
          .error (.invalidChecksum
            ((Value.mk (b0 :: b1 :: b2 :: b3 :: t :: rest) ts).computeChecksum crc key))
        else .ok ()
      else .ok () := by
  unfold Value.Verify
  simp only [List.length_cons]
  rw [if_neg (by simp [headerSize, tagPos, checksumSize]), checksum_cons]

theorem Verify_isError_iff (crc : List Byte → Nat) (v : Value) (key : List Byte) :
    (v.Verify crc key).isError = true ↔
      (1 ≤ v.RawBytes.length ∧ v.RawBytes.length ≤ 4) ∨
      ∃ b0 b1 b2 b3 rest, v.RawBytes = b0 :: b1 :: b2 :: b3 :: rest ∧
        be32 b0 b1 b2 b3 ≠ 0 ∧ be32 b0 b1 b2 b3 ≠ v.computeChecksum crc key := by
  obtain ⟨bs, ts⟩ := v
  rcases bs with _ | ⟨b0, _ | ⟨b1, _ | ⟨b2, _ | ⟨b3, _ | ⟨t, rest⟩⟩⟩⟩⟩
  · rw [Verify_nil]
    simp [Res.isError]
  · rw [Verify_short _ _ _ (by simp) (by simp)]
    simp [Res.isError]
  · rw [Verify_short _ _ _ (by simp) (by simp)]
    simp [Res.isError]
  · rw [Verify_short _ _ _ (by simp) (by simp)]
    simp [Res.isError]
  · rw [Verify_short _ _ _ (by simp) (by simp)]
    simp [Res.isError]
  · rw [Verify_cons]
    simp only [List.length_cons]
    constructor
    · intro h
      right
      refine ⟨b0, b1, b2, b3, t :: rest, rfl, ?_⟩
      by_cases hz : be32 b0 b1 b2 b3 = 0
      · simp [hz, Res.isError] at h
      · by_cases hc : (Value.mk (b0 :: b1 :: b2 :: b3 :: t :: rest) ts).computeChecksum crc key
            = be32 b0 b1 b2 b3
        · simp [hz, hc, Res.isError] at h
        · exact ⟨hz, fun e => hc e.symm⟩
    · rintro (⟨_, h4⟩ | ⟨c0, c1, c2, c3, r, heq, hz, hc⟩)
      · omega
      · simp only [List.cons.injEq] at heq
        obtain ⟨rfl, rfl, rfl, rfl, rfl⟩ := heq
        rw [if_pos hz, if_pos (fun e => hc e.symm)]
        rfl

theorem Verify_returns (crc : List Byte → Nat) (v : Value) (key : List Byte) :
    v.Verify crc key ≠ .panic := by
  obtain ⟨bs, ts⟩ := v
  rcases bs with _ | ⟨b0, _ | ⟨b1, _ | ⟨b2, _ | ⟨b3, _ | ⟨t, rest⟩⟩⟩⟩⟩
  · rw [Verify_nil]; simp
  · rw [Verify_short _ _ _ (by simp) (by simp)]; simp
  · rw [Verify_short _ _ _ (by simp) (by simp)]; simp
  · rw [Verify_short _ _ _ (by simp) (by simp)]; simp
  · rw [Verify_short _ _ _ (by simp) (by simp)]; simp
  · rw [Verify_cons]
    split_ifs <;> simp

theorem Verify_noop (crc : List Byte → Nat) (v : Value) (key : List Byte)
    (hwf : v.RawBytes = [] ∨ 5 ≤ v.RawBytes.length) (hz : v.checksum = .ok 0) :
    v.Verify crc key = .ok () := by
  obtain ⟨bs, ts⟩ := v
  rcases bs with _ | ⟨b0, _ | ⟨b1, _ | ⟨b2, _ | ⟨b3, _ | ⟨t, rest⟩⟩⟩⟩⟩
  · exact Verify_nil crc ts key
  · simp at hwf
  · simp at hwf
  · simp at hwf
  · simp at hwf
  · rw [checksum_cons] at hz
    rw [Verify_cons]
    simp only [Res.ok.injEq] at hz
    rw [if_neg (by simp [hz])]

theorem InitChecksum_Verify (crc : List Byte → Nat) (v : Value) (key : List Byte)
    (hwf : v.RawBytes = [] ∨ 5 ≤ v.RawBytes.length) (hz : v.checksum = .ok 0) :
    ∃ w, v.InitChecksum crc key = .ok w ∧ w.Verify crc key = .ok () := by
  obtain ⟨bs, ts⟩ := v
  rcases bs with _ | ⟨b0, _ | ⟨b1, _ | ⟨b2, _ | ⟨b3, _ | ⟨t, rest⟩⟩⟩⟩⟩
  · exact ⟨_, by simp [Value.InitChecksum], Verify_nil crc ts key⟩
  · simp at hwf
  · simp at hwf
  · simp at hwf
  · simp at hwf
  · have hc := computeChecksum_lt crc (Value.mk (b0 :: b1 :: b2 :: b3 :: t :: rest) ts) key
    have hne := computeChecksum_ne_zero crc (Value.mk (b0 :: b1 :: b2 :: b3 :: t :: rest) ts) key
      (by simp)
    generalize hcdef : (Value.mk (b0 :: b1 :: b2 :: b3 :: t :: rest) ts).computeChecksum crc key
      = c at hc hne
    have hset : (Value.mk (b0 :: b1 :: b2 :: b3 :: t :: rest) ts).setChecksum c
        = Value.mk (byte (c >>> 24) :: byte (c >>> 16) :: byte (c >>> 8) :: byte c :: t :: rest)
            ts := by
      simp [Value.setChecksum, checksumSize, EncodeUint32Ascending_nil]
    have hcc : (Value.mk (byte (c >>> 24) :: byte (c >>> 16) :: byte (c >>> 8) :: byte c
        :: t :: rest) ts).computeChecksum crc key = c := by
      rw [← hcdef]
      simp [Value.computeChecksum, headerSize, tagPos, checksumSize]
    refine ⟨Value.mk (byte (c >>> 24) :: byte (c >>> 16) :: byte (c >>> 8) :: byte c
        :: t :: rest) ts, ?_, ?_⟩
    · unfold Value.InitChecksum
      rw [if_neg (by simp), hz]
      simp only [checksumUninitialized, ne_eq, not_true_eq_false, if_false, hcdef, hset]
    · rw [Verify_cons, hcc, be32_encode c hc, if_pos hne, if_neg (by simp)]

/-! ## Decoders on arbitrary input -/

theorem uvarintLoop_count_le (buf : List Byte) :
    ∀ x s i : Nat, (uvarintLoop buf x s i).2 ≤ (i : Int) + buf.length := by
  induction buf with
  | nil =>
    intro x s i
    simp only [uvarintLoop, List.length_nil]
    omega
  | cons b buf ih =>
    intro x s i
    simp only [uvarintLoop, List.length_cons]
    split_ifs
    · show -((i : Int) + 1) ≤ _
      omega
    · show (i : Int) + 1 ≤ _
      omega
    · have := ih (x ||| (((b.val &&& 0x7f) <<< s) % 2 ^ 64)) (s + 7) (i + 1)
      push_cast at this ⊢
      omega

theorem Varint_count_le (buf : List Byte) : (Varint buf).2 ≤ (buf.length : Int) := by
  have h := uvarintLoop_count_le buf 0 0 0
  simp only [Varint, Uvarint]
  simpa using h

/-- `DecodeIntValue` returns normally on every input. -/
theorem DecodeIntValue_returns (b : List Byte) : DecodeIntValue b ≠ .panic := by
  cases b with
  | nil => simp [DecodeIntValue]
  | cons tag b =>
    have hle := Varint_count_le b
    unfold DecodeIntValue
    simp only
    split_ifs with h1 h2
    · simp
    · simp
    · have hs : sliceFrom b (Varint b).2 = some (b.drop (Varint b).2.toNat) := by
        unfold sliceFrom
        rw [if_pos ⟨by omega, hle⟩]
      rw [hs]
      simp

/-- `DecodeFloatValue` returns normally on every input. -/
theorem DecodeFloatValue_returns (b : List Byte) : DecodeFloatValue b ≠ .panic := by
  cases b with
  | nil => simp [DecodeFloatValue]
  | cons tag b =>
    unfold DecodeFloatValue
    simp only
    split_ifs
    · simp
    · simp
    · unfold DecodeUint64Ascending
      split <;> simp

/-- `GetBytes` never panics, and fails whenever the tag is not `BYTES`. -/
theorem GetBytes_checks_tag (v : Value) :
    v.GetBytes ≠ .panic ∧
    (v.GetTag ≠ ValueType_BYTES → v.GetBytes = .error (.typeMismatch ValueType_BYTES v.GetTag)) := by
  constructor
  · unfold Value.GetBytes
    split_ifs with h
    · simp
    · have hlen : 5 ≤ v.RawBytes.length := by
        by_contra hcon
        apply h
        unfold Value.GetTag
        rw [if_pos (by simp only [tagPos, checksumSize]; omega)]
        decide
      have hs : v.dataBytes = some (v.RawBytes.drop 5) := by
        unfold Value.dataBytes sliceFrom
        rw [if_pos (by simp only [headerSize, tagPos, checksumSize]; omega)]
        rfl
      rw [hs]
      simp
  · intro h
    unfold Value.GetBytes
    rw [if_pos h]

/-! ## Timestamp lemmas -/

theorem Less_iff (t s : Timestamp) :
    t.Less s = true ↔
      t.WallTime < s.WallTime ∨ (t.WallTime = s.WallTime ∧ t.Logical < s.Logical) := by
  simp [Timestamp.Less]

theorem Equal_iff (t s : Timestamp) : t.Equal s = true ↔ t = s := by
  obtain ⟨tw, tl⟩ := t
  obtain ⟨sw, sl⟩ := s
  simp [Timestamp.Equal]

/-! ## The claims -/

/-- C1: integer round trip. For every `int64` value `i` and every byte sequence
`r`, `DecodeIntValue` applied to `EncodeIntValue(empty, i)` followed by `r`
returns the remaining bytes `r`, the value `i` and no error. -/
theorem C1_int_value_roundtrip (i : Int) (hlo : -MaxInt64 - 1 ≤ i) (hhi : i ≤ MaxInt64)
    (r : List Byte) :
    DecodeIntValue (EncodeIntValue [] i ++ r) = .ok (r, i) := by
  simp only [MaxInt64] at hlo hhi
  exact DecodeIntValue_EncodeIntValue i (by omega) (by omega) r

/-- C1 at `i = 42`, `r` empty: the encoding is `[INT tag, varint(42)]` and
decoding returns `(remaining = [], 42, nil)`. -/
theorem C1_int_value_roundtrip_witness :
    (-MaxInt64 - 1 ≤ 42 ∧ (42 : Int) ≤ MaxInt64) ∧
    EncodeIntValue [] 42 = [byte ValueType_INT, 84] ∧
    DecodeIntValue (EncodeIntValue [] 42 ++ []) = .ok ([], 42) :=
  ⟨by decide, by simp [EncodeIntValue, encodeGoVarint, PutVarint, PutUvarint, byte],
    C1_int_value_roundtrip 42 (by decide) (by decide) []⟩

/-- C2: bytes round trip. For every byte sequence `data`,
`DecodeBytesValue(EncodeBytesValue(empty, data, false))` returns the value `data`, no
error and no remaining bytes; and for every tail `r` (the whole buffer being a Go
slice, its length fits an `int`), `DecodeBytesValue(EncodeBytesValue(empty, data, true)`
followed by `r)` returns remaining `r`, value `data` and no error. -/
theorem C2_bytes_value_roundtrip (data r : List Byte)
    (hlen : ((EncodeBytesValue [] data true ++ r).length : Int) ≤ MaxInt64) :
    DecodeBytesValue (EncodeBytesValue [] data false) = .ok ([], data) ∧
    DecodeBytesValue (EncodeBytesValue [] data true ++ r) = .ok (r, data) :=
  DecodeBytesValue_EncodeBytesValue data r hlen

/-- C2 at `data = [1, 2, 3]`, `r = [9, 9]`. -/
theorem C2_bytes_value_roundtrip_witness :
    DecodeBytesValue (EncodeBytesValue [] [1, 2, 3] false) = .ok ([], [1, 2, 3]) ∧
    DecodeBytesValue (EncodeBytesValue [] [1, 2, 3] true ++ [9, 9]) = .ok ([9, 9], [1, 2, 3]) :=
  C2_bytes_value_roundtrip [1, 2, 3] [9, 9]
    (by simp [EncodeBytesValue, encodeGoVarint, PutVarint, PutUvarint, MaxInt64])

/-- C3: Set/Get round trip on `Value`. For every `Value` `v` (whatever its
contents) and every `int64` `i`, after `v.SetInt(i)` the call `v.GetInt()` returns
`(i, nil)`; for every byte sequence `b`, after `v.SetBytes(b)` the call
`v.GetBytes()` returns `(b, nil)`. -/
theorem C3_set_get_roundtrip (v : Value) (i : Int) (hlo : -MaxInt64 - 1 ≤ i)
    (hhi : i ≤ MaxInt64) (b : List Byte) :
    (v.SetInt i).GetInt = .ok i ∧ (v.SetBytes b).GetBytes = .ok b :=
  GetInt_SetInt_GetBytes_SetBytes v i hlo hhi b

/-- C3 at a value that held three stray bytes, `i = -3`, `b = [5, 6]`. -/
theorem C3_set_get_roundtrip_witness :
    ((Value.mk [7, 7, 7] ZeroTimestamp).SetInt (-3)).GetInt = .ok (-3) ∧
    ((Value.mk [7, 7, 7] ZeroTimestamp).SetBytes [5, 6]).GetBytes = .ok [5, 6] :=
  C3_set_get_roundtrip (Value.mk [7, 7, 7] ZeroTimestamp) (-3) (by decide) (by decide) [5, 6]

/-- C4: for every key and every `Value` that satisfies the data-model invariant
(`RawBytes` empty or at least 5 bytes long) and whose checksum field is 0,
`InitChecksum(key)` does not panic and `Verify(key)` on the resulting value
returns no error, whatever function of the bytes the CRC-32 is. -/
theorem C4_verify_after_init (crc : List Byte → Nat) (v : Value) (key : List Byte)
    (hwf : v.RawBytes = [] ∨ 5 ≤ v.RawBytes.length) (hz : v.checksum = .ok 0) :
    ∃ w, v.InitChecksum crc key = .ok w ∧ w.Verify crc key = .ok () :=
  InitChecksum_Verify crc v key hwf hz

/-- C4 at the value `SetInt(42)` of an empty value, key `[1, 2]`, with the
length of the input standing for the CRC. -/
theorem C4_verify_after_init_witness :
    ∃ w, ((Value.mk [] ZeroTimestamp).SetInt 42).InitChecksum (fun l => l.length) [1, 2] = .ok w ∧
      w.Verify (fun l => l.length) [1, 2] = .ok () :=
  C4_verify_after_init (fun l => l.length) ((Value.mk [] ZeroTimestamp).SetInt 42) [1, 2]
    (by
      right
      simp [Value.SetInt, EncodeIntValue, encodeGoVarint, PutVarint, PutUvarint, checksumSize])
    (by
      have h : ((Value.mk [] ZeroTimestamp).SetInt 42)
          = Value.mk [0, 0, 0, 0, byte ValueType_INT, 84] ZeroTimestamp := by
        simp [Value.SetInt, EncodeIntValue, encodeGoVarint, PutVarint, PutUvarint, checksumSize,
          byte]
      rw [h, checksum_cons]
      rfl)

/-- C5 as stated fails: the empty value (and any value shorter than the 5-byte
header) makes `computeChecksum` return the reserved 0. -/
theorem C5_computeChecksum_zero_on_short_value :
    (Value.mk [] ZeroTimestamp).computeChecksum (fun _ => 7) [1] = 0 ∧
    (Value.mk [0, 0, 0, 0] ZeroTimestamp).computeChecksum (fun _ => 7) [1] = 0 := by
  constructor <;> rfl

/-- C5 amended: `computeChecksum(key)` returns the reserved value 0 exactly for
the values whose `RawBytes` is shorter than the 5-byte header; for every value
with at least 5 bytes and every key it is never 0 (a raw CRC of 0 is folded to
1). -/
theorem C5_computeChecksum_zero_iff_short (crc : List Byte → Nat) (v : Value) (key : List Byte) :
    (v.computeChecksum crc key = 0 ↔ v.RawBytes.length < 5) ∧
    (5 ≤ v.RawBytes.length → crc (key ++ v.RawBytes.drop 4) % 2 ^ 32 = 0 →
      v.computeChecksum crc key = 1) := by
  refine ⟨computeChecksum_eq_zero_iff crc v key, ?_⟩
  intro h5 h0
  unfold Value.computeChecksum
  rw [if_neg (by simp only [headerSize, tagPos, checksumSize]; omega)]
  simp only [checksumSize, checksumUninitialized, h0, if_true]

/-- C5 amended, at a 6-byte value whose CRC is 0: the result is 1. -/
theorem C5_computeChecksum_zero_iff_short_witness :
    (Value.mk [0, 0, 0, 0, 1, 84] ZeroTimestamp).computeChecksum (fun _ => 0) [1] = 1 :=
  (C5_computeChecksum_zero_iff_short (fun _ => 0) (Value.mk [0, 0, 0, 0, 1, 84] ZeroTimestamp)
    [1]).2 (by decide) (by decide)

/-- C6: for every `Value` `v` and key, `Verify(key)` never panics, and it returns
an error if and only if either `RawBytes` has between 1 and 4 bytes, or the
stored checksum (the first 4 bytes, big-endian) is non-zero and differs from
`computeChecksum(key)`; in particular `Verify` returns nil whenever the value is
well formed (empty or at least 5 bytes) and stores no checksum. -/
theorem C6_verify_error_iff (crc : List Byte → Nat) (v : Value) (key : List Byte) :
    v.Verify crc key ≠ .panic ∧
    ((v.Verify crc key).isError = true ↔
      (1 ≤ v.RawBytes.length ∧ v.RawBytes.length ≤ 4) ∨
      ∃ b0 b1 b2 b3 rest, v.RawBytes = b0 :: b1 :: b2 :: b3 :: rest ∧
        be32 b0 b1 b2 b3 ≠ 0 ∧ be32 b0 b1 b2 b3 ≠ v.computeChecksum crc key) ∧
    ((v.RawBytes = [] ∨ 5 ≤ v.RawBytes.length) → v.checksum = .ok 0 →
      v.Verify crc key = .ok ()) :=
  ⟨Verify_returns crc v key, Verify_isError_iff crc v key, Verify_noop crc v key⟩

/-- C6 at a well-formed value without a checksum: `Verify` is a no-op. -/
theorem C6_verify_error_iff_witness :
    (Value.mk [0, 0, 0, 0, 1, 84] ZeroTimestamp).Verify (fun l => l.length) [1, 2] = .ok () :=
  (C6_verify_error_iff (fun l => l.length) (Value.mk [0, 0, 0, 0, 1, 84] ZeroTimestamp)
    [1, 2]).2.2 (by right; decide) (by rw [checksum_cons]; rfl)

/-- C7, the failing inputs: a `DELIMITED_BYTES` buffer whose varint length prefix
is 5 with no byte after it, and one whose prefix is -1, make `DecodeBytesValue`
panic (slice bounds out of range) instead of returning an error. -/
theorem C7_DecodeBytesValue_panics :
    Varint [10] = (5, 1) ∧
    DecodeBytesValue [byte ValueType_DELIMITED_BYTES, 10] = .panic ∧
    Varint [1] = (-1, 1) ∧
    DecodeBytesValue [byte ValueType_DELIMITED_BYTES, 1] = .panic := by
  refine ⟨?_, ?_, ?_, ?_⟩ <;> with_unfolding_all decide

/-- C8, the failing inputs: on the empty value and on a 3-byte value the tag
reported by `GetTag` is `UNKNOWN`, neither `INT` nor `FLOAT`, yet `GetInt` and
`GetFloat` panic (slice bounds out of range) instead of returning an error. -/
theorem C8_GetInt_GetFloat_panic_on_short_value :
    (Value.mk [] ZeroTimestamp).GetTag = ValueType_UNKNOWN ∧
    ValueType_UNKNOWN ≠ ValueType_INT ∧ ValueType_UNKNOWN ≠ ValueType_FLOAT ∧
    (Value.mk [] ZeroTimestamp).GetInt = .panic ∧
    (Value.mk [] ZeroTimestamp).GetFloat = .panic ∧
    (Value.mk [0, 0, 0] ZeroTimestamp).GetTag = ValueType_UNKNOWN ∧
    (Value.mk [0, 0, 0] ZeroTimestamp).GetInt = .panic ∧
    (Value.mk [0, 0, 0] ZeroTimestamp).GetFloat = .panic := by
  refine ⟨?_, ?_, ?_, ?_, ?_, ?_, ?_, ?_⟩ <;> decide

/-- C9: `Timestamp.Less` is the lexicographic order on `(WallTime, Logical)`; it
is irreflexive and transitive, `Equal` is equality of both fields, and for all
timestamps `t` and `s` exactly one of `t.Less(s)`, `t.Equal(s)`, `s.Less(t)`
holds. -/
theorem C9_less_strict_total_order :
    (∀ t s : Timestamp, t.Less s = true ↔
      t.WallTime < s.WallTime ∨ (t.WallTime = s.WallTime ∧ t.Logical < s.Logical)) ∧
    (∀ t s : Timestamp, t.Equal s = true ↔ t = s) ∧
    (∀ t : Timestamp, t.Less t = false) ∧
    (∀ t s u : Timestamp, t.Less s = true → s.Less u = true → t.Less u = true) ∧
    (∀ t s : Timestamp,
      (t.Less s = true ∧ t.Equal s = false ∧ s.Less t = false) ∨
      (t.Less s = false ∧ t.Equal s = true ∧ s.Less t = false) ∨
      (t.Less s = false ∧ t.Equal s = false ∧ s.Less t = true)) := by
  refine ⟨Less_iff, Equal_iff, ?_, ?_, ?_⟩
  · intro t
    simp [Timestamp.Less]
  · intro t s u h1 h2
    rw [Less_iff] at h1 h2 ⊢
    omega
  · intro t s
    obtain ⟨tw, tl⟩ := t
    obtain ⟨sw, sl⟩ := s
    simp only [Timestamp.Less, Timestamp.Equal, Bool.or_eq_true, Bool.and_eq_true,
      decide_eq_true_eq, Bool.or_eq_false_iff, Bool.and_eq_false_iff, decide_eq_false_iff_not]
    omega

/-- C9 at three concrete timestamps: ties on `WallTime` are broken by `Logical`. -/
theorem C9_less_strict_total_order_witness :
    (Timestamp.mk 1 5).Less (Timestamp.mk 2 0) = true ∧
    (Timestamp.mk 2 0).Less (Timestamp.mk 2 1) = true ∧
    (Timestamp.mk 1 5).Less (Timestamp.mk 2 1) = true :=
  ⟨by decide, by decide,
    C9_less_strict_total_order.2.2.2.1 (Timestamp.mk 1 5) (Timestamp.mk 2 0) (Timestamp.mk 2 1)
      (by decide) (by decide)⟩

/-- C10 as stated fails: `{WallTime: -1, Logical: MaxInt32}` has its `Logical` in
`[0, 2^31-1]` and is not the maximum timestamp; `Next` gives `{0, 0}`, whose
`Prev` panics. -/
theorem C10_next_prev_fails_below_zero :
    (Timestamp.mk (-1) MaxInt32).InRange ∧
    0 ≤ (Timestamp.mk (-1) MaxInt32).Logical ∧
    Timestamp.mk (-1) MaxInt32 ≠ MaxTimestamp ∧
    (Timestamp.mk (-1) MaxInt32).Next = .ok (Timestamp.mk 0 0) ∧
    (Timestamp.mk 0 0).Prev = .panic := by
  refine ⟨?_, ?_, ?_, ?_, ?_⟩ <;> decide

/-- C10 amended: for every timestamp `t` with `Logical` in `[0, 2^31-1]` other
than the maximum timestamp, `t.Next()` does not fail: it is `{WallTime+1, 0}`
when `Logical = 2^31-1` and `{WallTime, Logical+1}` otherwise. `t.Next().Prev()`
equals `t` exactly when `WallTime ≥ 0` or `Logical < 2^31-1`; in the remaining
case (`Logical = 2^31-1` with a negative `WallTime`) `t.Next()` is
`{WallTime+1, 0}` and `Prev` of it panics. -/
theorem C10_next_prev (t : Timestamp) (hl0 : 0 ≤ t.Logical) (hl1 : t.Logical ≤ MaxInt32)
    (hne : t ≠ MaxTimestamp) :
    ∃ n, t.Next = .ok n ∧
      (n.Prev = .ok t ↔ (t.Logical = MaxInt32 → 0 ≤ t.WallTime)) ∧
      (n.Prev ≠ .ok t → n.Prev = .panic) ∧
      (t.Logical = MaxInt32 → n = { WallTime := t.WallTime + 1, Logical := 0 }) ∧
      (t.Logical ≠ MaxInt32 → n = { WallTime := t.WallTime, Logical := t.Logical + 1 }) ∧
      (t.Logical = MaxInt32 → t.WallTime < 0 →
        t.Next = .ok { WallTime := t.WallTime + 1, Logical := 0 } ∧
        (Timestamp.mk (t.WallTime + 1) 0).Prev = .panic) := by
  obtain ⟨w, l⟩ := t
  simp only [MaxInt32, MaxTimestamp, MaxInt64, ne_eq, Timestamp.mk.injEq, not_and] at *
  by_cases hl : l = 2147483647
  · subst hl
    have hw : w ≠ 9223372036854775807 := fun h => hne h rfl
    have hnext : (Timestamp.mk w 2147483647).Next = .ok (Timestamp.mk (w + 1) 0) := by
      simp [Timestamp.Next, MaxInt32, MaxInt64, hw]
    refine ⟨Timestamp.mk (w + 1) 0, hnext, ?_, ?_, fun _ => rfl, fun h => absurd rfl h, ?_⟩
    · by_cases h0 : 0 ≤ w
      · have : w + 1 > 0 := by omega
        simp [Timestamp.Prev, MaxInt32, this, h0]
      · have : ¬ (w + 1 > 0) := by omega
        simp [Timestamp.Prev, MaxInt32, this, h0]
    · by_cases h0 : 0 ≤ w
      · have : w + 1 > 0 := by omega
        simp [Timestamp.Prev, MaxInt32, this]
      · have : ¬ (w + 1 > 0) := by omega
        simp [Timestamp.Prev, MaxInt32, this]
    · intro _ hneg
      have : ¬ (w + 1 > 0) := by omega
      exact ⟨hnext, by simp [Timestamp.Prev, this]⟩
  · refine ⟨Timestamp.mk w (l + 1), ?_, ?_, ?_, fun h => absurd h hl, fun _ => rfl,
      fun h => absurd h hl⟩
    · simp [Timestamp.Next, MaxInt32, hl]
    · have : l + 1 > 0 := by omega
      simp [Timestamp.Prev, this, hl]
    · have : l + 1 > 0 := by omega
      simp [Timestamp.Prev, this]

/-- C10 amended at `{WallTime: -3, Logical: MaxInt32}`: `Next` carries into
`WallTime`, giving `{-2, 0}`, and `Prev` of `{-2, 0}` panics. -/
theorem C10_next_prev_witness :
    (0 ≤ (Timestamp.mk (-3) MaxInt32).Logical ∧ (Timestamp.mk (-3) MaxInt32).Logical ≤ MaxInt32 ∧
      Timestamp.mk (-3) MaxInt32 ≠ MaxTimestamp) ∧
    ∃ n, (Timestamp.mk (-3) MaxInt32).Next = .ok n ∧
      (n.Prev = .ok (Timestamp.mk (-3) MaxInt32) ↔
        ((Timestamp.mk (-3) MaxInt32).Logical = MaxInt32 →
          0 ≤ (Timestamp.mk (-3) MaxInt32).WallTime)) ∧
      (n.Prev ≠ .ok (Timestamp.mk (-3) MaxInt32) → n.Prev = .panic) ∧
      ((Timestamp.mk (-3) MaxInt32).Logical = MaxInt32 →
        n = { WallTime := (Timestamp.mk (-3) MaxInt32).WallTime + 1, Logical := 0 }) ∧
      ((Timestamp.mk (-3) MaxInt32).Logical ≠ MaxInt32 →
        n = { WallTime := (Timestamp.mk (-3) MaxInt32).WallTime,
              Logical := (Timestamp.mk (-3) MaxInt32).Logical + 1 }) ∧
      ((Timestamp.mk (-3) MaxInt32).Logical = MaxInt32 →
        (Timestamp.mk (-3) MaxInt32).WallTime < 0 →
        (Timestamp.mk (-3) MaxInt32).Next
          = .ok { WallTime := (Timestamp.mk (-3) MaxInt32).WallTime + 1, Logical := 0 } ∧
        (Timestamp.mk ((Timestamp.mk (-3) MaxInt32).WallTime + 1) 0).Prev = .panic) :=
  ⟨⟨by decide, by decide, by decide⟩,
    C10_next_prev (Timestamp.mk (-3) MaxInt32) (by decide) (by decide) (by decide)⟩

/-! ## Next, Prev, Forward, Backward -/

theorem Next_Prev_cases (t : Timestamp) (hr : t.InRange) (hw : 0 ≤ t.WallTime)
    (hl : 0 ≤ t.Logical) :
    (t.Next = .panic ↔ t = MaxTimestamp) ∧
    (t.Prev = .panic ↔ t = ZeroTimestamp) ∧
    (t.Logical = MaxInt32 → t ≠ MaxTimestamp →
      t.Next = .ok { WallTime := t.WallTime + 1, Logical := 0 }) ∧
    (t.Logical ≠ MaxInt32 → t.Next = .ok { WallTime := t.WallTime, Logical := t.Logical + 1 }) ∧
    (t.Logical = 0 → t ≠ ZeroTimestamp →
      t.Prev = .ok { WallTime := t.WallTime - 1, Logical := MaxInt32 }) ∧
    (t.Logical ≠ 0 → t.Prev = .ok { WallTime := t.WallTime, Logical := t.Logical - 1 }) ∧
    (∀ n, t.Next = .ok n → n.InRange) ∧
    (∀ p, t.Prev = .ok p → p.InRange) := by
  obtain ⟨w, l⟩ := t
  simp only [Timestamp.InRange, MaxInt64, MaxInt32] at hr
  simp only at hw hl
  simp only [Timestamp.Next, Timestamp.Prev, MaxTimestamp, ZeroTimestamp, MaxInt32, MaxInt64,
    Timestamp.mk.injEq, ne_eq, Timestamp.InRange]
  refine ⟨?_, ?_, ?_, ?_, ?_, ?_, ?_, ?_⟩
  · constructor
    · intro h
      split_ifs at h with h1 h2
      exact ⟨h2, h1⟩
    · rintro ⟨h1, h2⟩
      rw [if_pos h2, if_pos h1]
  · constructor
    · intro h
      split_ifs at h with h1 h2
      exact ⟨by omega, by omega⟩
    · rintro ⟨h1, h2⟩
      rw [if_neg (by omega), if_neg (by omega)]
  · intro h1 h2
    rw [if_pos h1, if_neg (fun h => h2 ⟨h, h1⟩)]
  · intro h1
    rw [if_neg h1]
  · intro h1 h2
    rw [if_neg (by omega), if_pos (by omega)]
  · intro h1
    rw [if_pos (by omega)]
  · intro n h
    split_ifs at h with h1 h2
    · simp only [Res.ok.injEq] at h
      subst h
      simp only
      omega
    · simp only [Res.ok.injEq] at h
      subst h
      simp only
      omega
  · intro p h
    split_ifs at h with h1 h2
    · simp only [Res.ok.injEq] at h
      subst h
      simp only
      omega
    · simp only [Res.ok.injEq] at h
      subst h
      simp only
      omega

theorem Forward_Backward_spec (t s : Timestamp) :
    (t.Forward s = t ∨ t.Forward s = s) ∧
    (t.Forward s).Less t = false ∧ (t.Forward s).Less s = false ∧
    (t.Backward s = t ∨ t.Backward s = s) ∧
    t.Less (t.Backward s) = false ∧ s.Less (t.Backward s) = false := by
  obtain ⟨tw, tl⟩ := t
  obtain ⟨sw, sl⟩ := s
  unfold Timestamp.Forward Timestamp.Backward
  refine ⟨?_, ?_, ?_, ?_, ?_, ?_⟩
  · split_ifs <;> simp
  · split_ifs with h
    · rw [Less_iff] at h
      rw [Bool.eq_false_iff, ne_eq, Less_iff]
      simp only at h ⊢
      omega
    · simp [Timestamp.Less]
  · split_ifs with h
    · simp [Timestamp.Less]
    · simpa using h
  · split_ifs <;> simp
  · split_ifs with h
    · rw [Less_iff] at h
      rw [Bool.eq_false_iff, ne_eq, Less_iff]
      simp only at h ⊢
      omega
    · simp [Timestamp.Less]
  · split_ifs with h
    · simp [Timestamp.Less]
    · simpa using h

/-! ## Transaction lemmas -/

theorem UpgradePriority_eq (t : Transaction) (p : Int) :
    t.UpgradePriority p = { t with Priority := max t.Priority p } := by
  unfold Transaction.UpgradePriority
  split_ifs with h
  · rw [max_eq_right (by omega)]
  · rw [max_eq_left (by omega)]

theorem UpdateObservedTimestamp_eq (t : Transaction) (k : NodeID) (v : Timestamp) :
    ∃ m, t.UpdateObservedTimestamp k v = { t with ObservedTimestamps := m } := by
  unfold Transaction.UpdateObservedTimestamp
  split
  · exact ⟨_, rfl⟩
  · split_ifs
    · exact ⟨_, rfl⟩
    · exact ⟨t.ObservedTimestamps, rfl⟩

theorem foldl_UpdateObservedTimestamp_eq (es : ObservedMap) :
    ∀ t : Transaction, ∃ m,
      es.foldl (fun t e => t.UpdateObservedTimestamp e.1 e.2) t
        = { t with ObservedTimestamps := m } := by
  induction es with
  | nil => intro t; exact ⟨t.ObservedTimestamps, rfl⟩
  | cons e es ih =>
    intro t
    obtain ⟨m1, h1⟩ := UpdateObservedTimestamp_eq t e.1 e.2
    obtain ⟨m2, h2⟩ := ih (t.UpdateObservedTimestamp e.1 e.2)
    refine ⟨m2, ?_⟩
    rw [List.foldl_cons, h2, h1]

/-- With the ID unset and `o` not nil, `Update` replaces the receiver by the
clone of `o`. -/
theorem Update_of_ID_unset (t o : Transaction) (hid : t.ID = none) :
    t.Update (some o) = o.Clone := by
  unfold Transaction.Update
  simp -zeta only [hid, if_true]

/-- What `Update` leaves in the receiver when its ID is set and `o` is not nil:
every field but the observed timestamps, the key, the status, the heartbeat and
the intents is given in closed form. -/
theorem Update_of_ID_set (t o : Transaction) (hid : t.ID ≠ none) :
    ∃ key status hb m intents, t.Update (some o) =
      { t with
        Key := key, Status := status, LastHeartbeat := hb, ObservedTimestamps := m,
        Intents := intents,
        Epoch := max t.Epoch o.Epoch,
        Timestamp := t.Timestamp.Forward o.Timestamp,
        OrigTimestamp := t.OrigTimestamp.Forward o.OrigTimestamp,
        MaxTimestamp := t.MaxTimestamp.Forward o.MaxTimestamp,
        Priority := max t.Priority o.Priority,
        Sequence := max t.Sequence o.Sequence,
        Writing := t.Writing || o.Writing,
        WriteTooOld := o.WriteTooOld,
        RetryOnPush := o.RetryOnPush } := by
  unfold Transaction.Update
  simp -zeta only [hid, if_false]
  lift_lets
  intro t1 t2 t3 t4 t5 t6 th t7 t8 t9 t10 t11 t12 t13
  obtain ⟨key, ht1⟩ : ∃ key, t1 =
      { t with
        Key := key } := by
    simp only [t1]
    split_ifs
    · exact ⟨_, rfl⟩
    · exact ⟨t.Key, rfl⟩
  clear_value t1
  subst ht1
  obtain ⟨st, ht2⟩ : ∃ st, t2 =
      { t with
        Key := key,
        Status := st } := by
    simp only [t2]
    split_ifs
    · exact ⟨_, rfl⟩
    · exact ⟨t.Status, rfl⟩
  clear_value t2
  subst ht2
  have ht3 : t3 =
      { t with
        Key := key,
        Status := st,
        Epoch := max t.Epoch o.Epoch } := by
    simp only [t3]
    split_ifs with h
    · rw [max_eq_right (by omega)]
    · rw [max_eq_left (by omega)]
  clear_value t3
  subst ht3
  have ht4 : t4 =
      { t with
        Key := key,
        Status := st,
        Epoch := max t.Epoch o.Epoch,
        Timestamp := t.Timestamp.Forward o.Timestamp } := by
    rfl
  clear_value t4
  subst ht4
  have ht5 : t5 =
      { t with
        Key := key,
        Status := st,
        Epoch := max t.Epoch o.Epoch,
        Timestamp := t.Timestamp.Forward o.Timestamp,
        OrigTimestamp := t.OrigTimestamp.Forward o.OrigTimestamp } := by
    rfl
  clear_value t5
  subst ht5
  have ht6 : t6 =
      { t with
        Key := key,
        Status := st,
        Epoch := max t.Epoch o.Epoch,
        Timestamp := t.Timestamp.Forward o.Timestamp,
        OrigTimestamp := t.OrigTimestamp.Forward o.OrigTimestamp,
        MaxTimestamp := t.MaxTimestamp.Forward o.MaxTimestamp } := by
    rfl
  clear_value t6
  subst ht6
  obtain ⟨hb, ht7⟩ : ∃ hb, t7 =
      { t with
        Key := key,
        Status := st,
        LastHeartbeat := hb,
        Epoch := max t.Epoch o.Epoch,
        Timestamp := t.Timestamp.Forward o.Timestamp,
        OrigTimestamp := t.OrigTimestamp.Forward o.OrigTimestamp,
        MaxTimestamp := t.MaxTimestamp.Forward o.MaxTimestamp } := by
    simp only [t7]
    split
    · exact ⟨t.LastHeartbeat, rfl⟩
    · exact ⟨_, rfl⟩
  clear_value t7
  subst ht7
  obtain ⟨m, ht8⟩ : ∃ m, t8 =
      { t with
        Key := key,
        Status := st,
        LastHeartbeat := hb,
        ObservedTimestamps := m,
        Epoch := max t.Epoch o.Epoch,
        Timestamp := t.Timestamp.Forward o.Timestamp,
        OrigTimestamp := t.OrigTimestamp.Forward o.OrigTimestamp,
        MaxTimestamp := t.MaxTimestamp.Forward o.MaxTimestamp } := by
    simp only [t8]
    exact foldl_UpdateObservedTimestamp_eq _ _
  clear_value t8
  subst ht8
  have ht9 : t9 =
      { t with
        Key := key,
        Status := st,
        LastHeartbeat := hb,
        ObservedTimestamps := m,
        Epoch := max t.Epoch o.Epoch,
        Timestamp := t.Timestamp.Forward o.Timestamp,
        OrigTimestamp := t.OrigTimestamp.Forward o.OrigTimestamp,
        MaxTimestamp := t.MaxTimestamp.Forward o.MaxTimestamp,
        Priority := max t.Priority o.Priority } := by
    simp only [t9, UpgradePriority_eq]
  clear_value t9
  subst ht9
  have ht10 : t10 =
      { t with
        Key := key,
        Status := st,
        LastHeartbeat := hb,
        ObservedTimestamps := m,
        Epoch := max t.Epoch o.Epoch,
        Timestamp := t.Timestamp.Forward o.Timestamp,
        OrigTimestamp := t.OrigTimestamp.Forward o.OrigTimestamp,
        MaxTimestamp := t.MaxTimestamp.Forward o.MaxTimestamp,
        Priority := max t.Priority o.Priority,
        Writing := (t.Writing || o.Writing) } := by
    rfl
  clear_value t10
  subst ht10
  have ht11 : t11 =
      { t with
        Key := key,
        Status := st,
        LastHeartbeat := hb,
        ObservedTimestamps := m,
        Epoch := max t.Epoch o.Epoch,
        Timestamp := t.Timestamp.Forward o.Timestamp,
        OrigTimestamp := t.OrigTimestamp.Forward o.OrigTimestamp,
        MaxTimestamp := t.MaxTimestamp.Forward o.MaxTimestamp,
        Priority := max t.Priority o.Priority,
        Writing := (t.Writing || o.Writing),
        WriteTooOld := o.WriteTooOld } := by
    rfl
  clear_value t11
  subst ht11
  have ht12 : t12 =
      { t with
        Key := key,
        Status := st,
        LastHeartbeat := hb,
        ObservedTimestamps := m,
        Epoch := max t.Epoch o.Epoch,
        Timestamp := t.Timestamp.Forward o.Timestamp,
        OrigTimestamp := t.OrigTimestamp.Forward o.OrigTimestamp,
        MaxTimestamp := t.MaxTimestamp.Forward o.MaxTimestamp,
        Priority := max t.Priority o.Priority,
        Writing := (t.Writing || o.Writing),
        WriteTooOld := o.WriteTooOld,
        RetryOnPush := o.RetryOnPush } := by
    rfl
  clear_value t12
  subst ht12
  have ht13 : t13 =
      { t with
        Key := key,
        Status := st,
        LastHeartbeat := hb,
        ObservedTimestamps := m,
        Epoch := max t.Epoch o.Epoch,
        Timestamp := t.Timestamp.Forward o.Timestamp,
        OrigTimestamp := t.OrigTimestamp.Forward o.OrigTimestamp,
        MaxTimestamp := t.MaxTimestamp.Forward o.MaxTimestamp,
        Priority := max t.Priority o.Priority,
        Sequence := max t.Sequence o.Sequence,
        Writing := (t.Writing || o.Writing),
        WriteTooOld := o.WriteTooOld,
        RetryOnPush := o.RetryOnPush } := by
    simp only [t13]
    split_ifs with h
    · rw [max_eq_right (show t.Sequence ≤ o.Sequence by omega)]
    · rw [max_eq_left (show o.Sequence ≤ t.Sequence by omega)]
  clear_value t13
  subst ht13
  split_ifs
  · exact ⟨key, st, hb, m, o.Intents, rfl⟩
  · exact ⟨key, st, hb, m, t.Intents, rfl⟩

/-- What `Restart` leaves in the receiver. -/
theorem Restart_eq (t : Transaction) (rolled upgradePriority : Int) (timestamp : Timestamp) :
    t.Restart rolled upgradePriority timestamp =
      { t with
        Epoch := wrapUint32 (t.Epoch + 1),
        Timestamp := t.Timestamp.Forward timestamp,
        OrigTimestamp := t.Timestamp.Forward timestamp,
        Priority := max (max t.Priority rolled) upgradePriority,
        WriteTooOld := false,
        RetryOnPush := false } := by
  unfold Transaction.Restart
  lift_lets
  intro t1 t2 t3 t4 t5 t6
  have ht1 : t1 =
      { t with
        Epoch := wrapUint32 (t.Epoch + 1) } := by
    rfl
  clear_value t1
  subst ht1
  have ht2 : t2 =
      { t with
        Epoch := wrapUint32 (t.Epoch + 1),
        Timestamp := t.Timestamp.Forward timestamp } := by
    simp only [t2, Timestamp.Forward]
    split_ifs <;> rfl
  clear_value t2
  subst ht2
  have ht3 : t3 =
      { t with
        Epoch := wrapUint32 (t.Epoch + 1),
        Timestamp := t.Timestamp.Forward timestamp,
        OrigTimestamp := t.Timestamp.Forward timestamp } := by
    rfl
  clear_value t3
  subst ht3
  have ht4 : t4 =
      { t with
        Epoch := wrapUint32 (t.Epoch + 1),
        Timestamp := t.Timestamp.Forward timestamp,
        OrigTimestamp := t.Timestamp.Forward timestamp,
        Priority := max t.Priority rolled } := by
    simp only [t4, UpgradePriority_eq]
  clear_value t4
  subst ht4
  have ht5 : t5 =
      { t with
        Epoch := wrapUint32 (t.Epoch + 1),
        Timestamp := t.Timestamp.Forward timestamp,
        OrigTimestamp := t.Timestamp.Forward timestamp,
        Priority := max (max t.Priority rolled) upgradePriority } := by
    simp only [t5, UpgradePriority_eq]
  clear_value t5
  subst ht5
  have ht6 : t6 =
      { t with
        Epoch := wrapUint32 (t.Epoch + 1),
        Timestamp := t.Timestamp.Forward timestamp,
        OrigTimestamp := t.Timestamp.Forward timestamp,
        Priority := max (max t.Priority rolled) upgradePriority,
        WriteTooOld := false } := by
    rfl
  clear_value t6
  subst ht6
  rfl

theorem wrapUint32_of_lt (x : Nat) (h : x < 2 ^ 32) : wrapUint32 x = x := by
  unfold wrapUint32
  exact Nat.mod_eq_of_lt h

theorem mapStore_of_not_mem (m : ObservedMap) (k : NodeID) (v : Timestamp)
    (h : k ∉ m.map Prod.fst) : mapStore m k v = m ++ [(k, v)] := by
  induction m with
  | nil => rfl
  | cons e m ih =>
    obtain ⟨k1, v1⟩ := e
    simp only [List.map_cons, List.mem_cons, not_or] at h
    simp only [mapStore, List.cons_append]
    rw [if_neg (fun e => h.1 e.symm), ih h.2]

theorem foldl_mapStore_copy (m : ObservedMap) :
    ∀ acc : ObservedMap, (acc ++ m).map Prod.fst |>.Nodup →
      m.foldl (fun a e => mapStore a e.1 e.2) acc = acc ++ m := by
  induction m with
  | nil => intro acc _; simp
  | cons e m ih =>
    intro acc hnd
    have hnot : e.1 ∉ acc.map Prod.fst := by
      simp only [List.map_append, List.map_cons] at hnd
      rw [List.nodup_append] at hnd
      intro hmem
      exact hnd.2.2 hmem (List.mem_cons_self _ _)
    rw [List.foldl_cons, mapStore_of_not_mem acc e.1 e.2 hnot, ih]
    · simp
    · simpa using hnd

/-- `Clone` returns a record equal to the receiver (the keys of a Go map are
distinct). -/
theorem Clone_eq (t : Transaction) (hnd : (t.ObservedTimestamps.map Prod.fst).Nodup) :
    t.Clone = t := by
  have hcopy := foldl_mapStore_copy t.ObservedTimestamps [] (by simpa using hnd)
  obtain ⟨id, iso, key, ep, pri, seq, name, status, hb, orig, mx, obs, wr, wto, rop, ints, ts⟩ := t
  simp only [List.nil_append] at hcopy
  simp only [Transaction.Clone, hcopy, List.nil_append]
  cases hb <;> rfl

/-! ## Observed timestamps -/

theorem Less_false_iff (t s : Timestamp) :
    t.Less s = false ↔
      ¬ (t.WallTime < s.WallTime ∨ (t.WallTime = s.WallTime ∧ t.Logical < s.Logical)) := by
  rw [← Less_iff, Bool.not_eq_true]

theorem mapLookup_mapStore_same (m : ObservedMap) (k : NodeID) (v : Timestamp) :
    mapLookup (mapStore m k v) k = some v := by
  induction m with
  | nil => simp [mapStore, mapLookup]
  | cons e m ih =>
    obtain ⟨k1, v1⟩ := e
    simp only [mapStore]
    split_ifs with h
    · simp [mapLookup]
    · simp [mapLookup, h, ih]

theorem mapLookup_mapStore_ne (m : ObservedMap) (k n : NodeID) (v : Timestamp) (h : k ≠ n) :
    mapLookup (mapStore m k v) n = mapLookup m n := by
  induction m with
  | nil => simp [mapStore, mapLookup, h]
  | cons e m ih =>
    obtain ⟨k1, v1⟩ := e
    simp only [mapStore]
    split_ifs with h1
    · subst h1
      simp [mapLookup, h]
    · simp [mapLookup, ih]

theorem lookup_UpdateObservedTimestamp_same (t : Transaction) (k : NodeID) (v : Timestamp) :
    mapLookup (t.UpdateObservedTimestamp k v).ObservedTimestamps k
      = lowest (mapLookup t.ObservedTimestamps k) [v] := by
  unfold Transaction.UpdateObservedTimestamp
  cases hl : mapLookup t.ObservedTimestamps k with
  | none => simp [lowest, mapLookup_mapStore_same]
  | some ts =>
    simp only [lowest]
    split_ifs with h
    · simp [mapLookup_mapStore_same]
    · simp [hl]

theorem lookup_UpdateObservedTimestamp_ne (t : Transaction) (k n : NodeID) (v : Timestamp)
    (h : k ≠ n) :
    mapLookup (t.UpdateObservedTimestamp k v).ObservedTimestamps n
      = mapLookup t.ObservedTimestamps n := by
  unfold Transaction.UpdateObservedTimestamp
  split
  · simp [mapLookup_mapStore_ne _ _ _ _ h]
  · split_ifs
    · simp [mapLookup_mapStore_ne _ _ _ _ h]
    · rfl

theorem lowest_cons (acc : Option Timestamp) (x : Timestamp) (xs : List Timestamp) :
    lowest acc (x :: xs) = lowest (lowest acc [x]) xs := by
  cases acc <;> simp [lowest]

theorem lookup_foldl_UpdateObservedTimestamp (n : NodeID) (calls : List (NodeID × Timestamp)) :
    ∀ t : Transaction,
      mapLookup (calls.foldl (fun t c => t.UpdateObservedTimestamp c.1 c.2) t).ObservedTimestamps n
        = lowest (mapLookup t.ObservedTimestamps n) (passedFor n calls) := by
  induction calls with
  | nil => intro t; simp [passedFor, lowest]
  | cons c calls ih =>
    intro t
    obtain ⟨k, v⟩ := c
    rw [List.foldl_cons, ih]
    by_cases h : k = n
    · subst h
      have hp : passedFor k ((k, v) :: calls) = v :: passedFor k calls := by
        simp [passedFor]
      rw [hp, lowest_cons, lookup_UpdateObservedTimestamp_same]
    · have hp : passedFor n ((k, v) :: calls) = passedFor n calls := by
        simp [passedFor, h]
      rw [hp, lookup_UpdateObservedTimestamp_ne _ _ _ _ h]

theorem lowest_some_spec (xs : List Timestamp) :
    ∀ y : Timestamp, ∃ r, lowest (some y) xs = some r ∧ (r = y ∨ r ∈ xs) ∧
      y.Less r = false ∧ ∀ x ∈ xs, x.Less r = false := by
  induction xs with
  | nil =>
    intro y
    exact ⟨y, rfl, Or.inl rfl, by simp [Timestamp.Less], by simp⟩
  | cons x xs ih =>
    intro y
    simp only [lowest]
    obtain ⟨r, hr, hmem, hy, hall⟩ := ih (if x.Less y then x else y)
    refine ⟨r, hr, ?_, ?_, ?_⟩
    · rcases hmem with h | h
      · by_cases hxy : x.Less y = true
        · rw [if_pos hxy] at h
          right
          rw [h]
          exact List.mem_cons_self _ _
        · rw [if_neg hxy] at h
          exact Or.inl h
      · exact Or.inr (List.mem_cons_of_mem _ h)
    · by_cases hxy : x.Less y = true
      · rw [if_pos hxy] at hy
        rw [Less_iff] at hxy
        rw [Less_false_iff] at hy ⊢
        omega
      · rw [if_neg hxy] at hy
        exact hy
    · intro x' hx'
      rcases List.mem_cons.1 hx' with h | h
      · subst h
        by_cases hxy : x'.Less y = true
        · rw [if_pos hxy] at hy
          exact hy
        · rw [if_neg hxy] at hy
          rw [Bool.not_eq_true, Less_false_iff] at hxy
          rw [Less_false_iff] at hy ⊢
          omega
      · exact hall x' h

theorem passedFor_eq_nil_iff (n : NodeID) (calls : List (NodeID × Timestamp)) :
    passedFor n calls = [] ↔ ∀ c ∈ calls, c.1 ≠ n := by
  simp [passedFor, List.filter_eq_nil_iff]

/-! ## Keys -/

theorem BytesNext_elems (b : Slice) : (BytesNext b).elems = b.elems ++ [0] := by
  unfold BytesNext
  simp only
  split_ifs with h
  · split
    · split_ifs with hx
      · rw [hx]
      · rfl
    · rfl
  · rfl

theorem bytesCompare_self_append_zero (k : List Byte) : bytesCompare k (k ++ [0]) = -1 := by
  induction k with
  | nil => rfl
  | cons x k ih =>
    simp only [List.cons_append, bytesCompare]
    rw [if_neg (lt_irrefl x), if_neg (lt_irrefl x)]
    exact ih

theorem bytesCompare_nothing_between (k : List Byte) :
    ∀ m : List Byte, ¬ (bytesCompare k m < 0 ∧ bytesCompare m (k ++ [0]) < 0) := by
  induction k with
  | nil =>
    intro m
    cases m with
    | nil => simp [bytesCompare]
    | cons a as =>
      rintro ⟨-, h2⟩
      simp only [List.nil_append, bytesCompare] at h2
      have ha : ¬ a < 0 := by
        intro h
        exact absurd h (Nat.not_lt_zero _)
      rw [if_neg ha] at h2
      split_ifs at h2
      · omega
      · cases as <;> simp [bytesCompare] at h2
  | cons x k ih =>
    intro m
    cases m with
    | nil => simp [bytesCompare]
    | cons a as =>
      rintro ⟨h1, h2⟩
      simp only [List.cons_append, bytesCompare] at h1 h2
      by_cases hxa : x < a
      · rw [if_neg (not_lt_of_lt hxa), if_pos hxa] at h2
        omega
      · rw [if_neg hxa] at h1
        by_cases hax : a < x
        · rw [if_pos hax] at h1
          omega
        · rw [if_neg hax] at h1
          rw [if_neg hax, if_neg hxa] at h2
          exact ih as ⟨h1, h2⟩

theorem IsPrev_eq (k m : Slice) :
    Key.IsPrev k m = .ok (decide (m.elems = k.elems ++ [0])) := by
  obtain ⟨ke, ks⟩ := k
  obtain ⟨me, ms⟩ := m
  unfold Key.IsPrev
  simp only [Slice.len]
  rcases List.eq_nil_or_concat me with rfl | ⟨init, x, rfl⟩
  · have : ¬ ([] : List Byte) = ke ++ [0] := by simp
    simp only [List.length_nil, this, decide_False]
    rw [if_pos (by push_cast; omega)]
  · simp only [List.concat_eq_append, List.length_append, List.length_singleton]
    by_cases hlen : init.length = ke.length
    · have hidx : indexAt (init ++ [x]) (((init.length + 1 : Nat) : Int) - 1) = some x := by
        unfold indexAt
        rw [if_pos (by simp)]
        have : (((init.length + 1 : Nat) : Int) - 1).toNat = init.length := by
          push_cast
          omega
        rw [this]
        simp
      have hsl : slice (init ++ [x]) 0 (((init.length + 1 : Nat) : Int) - 1) = some init := by
        unfold slice
        rw [if_pos (by simp)]
        have : (((init.length + 1 : Nat) : Int) - 1).toNat = init.length := by
          push_cast
          omega
        rw [this]
        simp
      rw [if_neg (by push_cast; omega), hidx]
      simp only
      by_cases hx : x = 0
      · subst hx
        rw [if_neg (by simp), hsl]
        simp only [bytesEqual, Res.ok.injEq, decide_eq_decide]
        constructor
        · intro h
          rw [h]
        · intro h
          exact (List.append_cancel_right h).symm
      · rw [if_pos hx]
        have : ¬ init ++ [x] = ke ++ [0] := by
          intro h
          have := List.append_inj' h rfl
          simp at this
          exact hx this.2
        simp [this]
    · rw [if_pos (by push_cast; omega)]
      have : ¬ init ++ [x] = ke ++ [0] := by
        intro h
        have := congrArg List.length h
        simp at this
        exact hlen this
      simp [this]

/-! ## The claims, continued -/

/-- C11: for every timestamp with `WallTime ≥ 0` and `Logical ≥ 0`, `Next` panics
if and only if `t` is `MaxTimestamp` and `Prev` panics if and only if `t` is
`ZeroTimestamp`; otherwise `Next` carries `{w, MaxInt32}` to `{w+1, 0}` and
increments `Logical` in every other case, `Prev` borrows `{w, 0}` to
`{w-1, MaxInt32}` and decrements `Logical` in every other case, and the results
stay within `int64` and `int32`. -/
theorem C11_next_prev_cases (t : Timestamp) (hr : t.InRange) (hw : 0 ≤ t.WallTime)
    (hl : 0 ≤ t.Logical) :
    (t.Next = .panic ↔ t = MaxTimestamp) ∧
    (t.Prev = .panic ↔ t = ZeroTimestamp) ∧
    (t.Logical = MaxInt32 → t ≠ MaxTimestamp →
      t.Next = .ok { WallTime := t.WallTime + 1, Logical := 0 }) ∧
    (t.Logical ≠ MaxInt32 → t.Next = .ok { WallTime := t.WallTime, Logical := t.Logical + 1 }) ∧
    (t.Logical = 0 → t ≠ ZeroTimestamp →
      t.Prev = .ok { WallTime := t.WallTime - 1, Logical := MaxInt32 }) ∧
    (t.Logical ≠ 0 → t.Prev = .ok { WallTime := t.WallTime, Logical := t.Logical - 1 }) ∧
    (∀ n, t.Next = .ok n → n.InRange) ∧
    (∀ p, t.Prev = .ok p → p.InRange) :=
  Next_Prev_cases t hr hw hl

/-- C11 at `{WallTime: 5, Logical: MaxInt32}`: `Next` carries to `{6, 0}`. -/
theorem C11_next_prev_cases_witness :
    (Timestamp.mk 5 MaxInt32).Next = .ok { WallTime := 5 + 1, Logical := 0 } :=
  (C11_next_prev_cases (Timestamp.mk 5 MaxInt32) (by decide) (by decide) (by decide)).2.2.1
    rfl (by decide)

/-- C12: for all timestamps `t` and `s`, the receiver after `t.Forward(s)` is one
of `t`, `s` and neither `t` nor `s` is later than it (it is their maximum under
`Less`); the receiver after `t.Backward(s)` is one of `t`, `s` and is later than
neither (it is their minimum). -/
theorem C12_forward_backward (t s : Timestamp) :
    (t.Forward s = t ∨ t.Forward s = s) ∧
    (t.Forward s).Less t = false ∧ (t.Forward s).Less s = false ∧
    (t.Backward s = t ∨ t.Backward s = s) ∧
    t.Less (t.Backward s) = false ∧ s.Less (t.Backward s) = false :=
  Forward_Backward_spec t s

/-- C13: for every transaction `t` whose ID is set and every non-nil `o`, after
`t.Update(o)` each of `Timestamp`, `OrigTimestamp` and `MaxTimestamp` is the
later of `t`'s and `o`'s value, each of `Epoch`, `Priority` and `Sequence` is the
numeric maximum of the two values, and `WriteTooOld` and `RetryOnPush` are `o`'s
values. -/
theorem C13_update_merges (t o : Transaction) (hid : t.ID ≠ none) :
    (t.Update (some o)).Timestamp
      = (if t.Timestamp.Less o.Timestamp then o.Timestamp else t.Timestamp) ∧
    (t.Update (some o)).OrigTimestamp
      = (if t.OrigTimestamp.Less o.OrigTimestamp then o.OrigTimestamp else t.OrigTimestamp) ∧
    (t.Update (some o)).MaxTimestamp
      = (if t.MaxTimestamp.Less o.MaxTimestamp then o.MaxTimestamp else t.MaxTimestamp) ∧
    (t.Update (some o)).Epoch = max t.Epoch o.Epoch ∧
    (t.Update (some o)).Priority = max t.Priority o.Priority ∧
    (t.Update (some o)).Sequence = max t.Sequence o.Sequence ∧
    (t.Update (some o)).WriteTooOld = o.WriteTooOld ∧
    (t.Update (some o)).RetryOnPush = o.RetryOnPush := by
  obtain ⟨key, status, hb, m, intents, h⟩ := Update_of_ID_set t o hid
  rw [h]
  exact ⟨rfl, rfl, rfl, rfl, rfl, rfl, rfl, rfl⟩

/-- C13 at a receiver with ID 1 and `WriteTooOld` set, merged with a record of a
later timestamp, higher priority and the flag clear. -/
theorem C13_update_merges_witness :
    (({ zeroTransaction with ID := some 1, WriteTooOld := true }).Update
      (some { zeroTransaction with Priority := 4, Timestamp := ⟨1, 1⟩ })).Timestamp = ⟨1, 1⟩ ∧
    (({ zeroTransaction with ID := some 1, WriteTooOld := true }).Update
      (some { zeroTransaction with Priority := 4, Timestamp := ⟨1, 1⟩ })).Priority = 4 ∧
    (({ zeroTransaction with ID := some 1, WriteTooOld := true }).Update
      (some { zeroTransaction with Priority := 4, Timestamp := ⟨1, 1⟩ })).WriteTooOld = false :=
  ⟨(C13_update_merges { zeroTransaction with ID := some 1, WriteTooOld := true }
      { zeroTransaction with Priority := 4, Timestamp := ⟨1, 1⟩ } (by decide)).1,
    (C13_update_merges { zeroTransaction with ID := some 1, WriteTooOld := true }
      { zeroTransaction with Priority := 4, Timestamp := ⟨1, 1⟩ } (by decide)).2.2.2.2.1,
    (C13_update_merges { zeroTransaction with ID := some 1, WriteTooOld := true }
      { zeroTransaction with Priority := 4, Timestamp := ⟨1, 1⟩ } (by decide)).2.2.2.2.2.2.1⟩

/-- C14: for every transaction `t` whose ID is unset and every non-nil `o` (whose
observed-timestamp map, being a Go map, has distinct keys), after `t.Update(o)`
the receiver equals `o` in every field, whatever it held before; and for every
`t`, `t.Update(nil)` leaves `t` unchanged. -/
theorem C14_update_adopts (t o : Transaction) (hid : t.ID = none)
    (hmap : (o.ObservedTimestamps.map Prod.fst).Nodup) :
    t.Update (some o) = o ∧ ∀ u : Transaction, u.Update none = u := by
  refine ⟨?_, fun u => rfl⟩
  unfold Transaction.Update
  simp -zeta only [hid, if_true]
  exact Clone_eq o hmap

/-- C14 at a receiver without ID that held a priority and a timestamp. -/
theorem C14_update_adopts_witness :
    ({ zeroTransaction with Priority := 9, Timestamp := ⟨5, 0⟩ }).Update
      (some { zeroTransaction with ID := some 7, ObservedTimestamps := [(1, ⟨2, 2⟩), (3, ⟨4, 4⟩)] })
      = { zeroTransaction with ID := some 7, ObservedTimestamps := [(1, ⟨2, 2⟩), (3, ⟨4, 4⟩)] } :=
  (C14_update_adopts { zeroTransaction with Priority := 9, Timestamp := ⟨5, 0⟩ }
    { zeroTransaction with ID := some 7, ObservedTimestamps := [(1, ⟨2, 2⟩), (3, ⟨4, 4⟩)] }
    rfl (by decide)).1

/-- C15 as stated fails twice. A receiver without ID is replaced by `o`'s clone,
so its `Timestamp` drops from `{5, 0}` to `{1, 0}`; and `Restart` sets
`OrigTimestamp` to the new `Timestamp`, so an `OrigTimestamp` of `{10, 0}` with
`Timestamp` `{5, 0}` drops to `{6, 0}` on a restart at `{6, 0}`. -/
theorem C15_timestamps_can_regress :
    (({ zeroTransaction with Timestamp := ⟨5, 0⟩ }).Update
      (some { zeroTransaction with ID := some 7, Timestamp := ⟨1, 0⟩ })).Timestamp = ⟨1, 0⟩ ∧
    (Timestamp.mk 1 0).Less ⟨5, 0⟩ = true ∧
    (({ zeroTransaction with OrigTimestamp := ⟨10, 0⟩, Timestamp := ⟨5, 0⟩ }).Restart 0 0
      ⟨6, 0⟩).OrigTimestamp = ⟨6, 0⟩ ∧
    (Timestamp.mk 6 0).Less ⟨10, 0⟩ = true := by
  refine ⟨?_, ?_, ?_, ?_⟩ <;> with_unfolding_all decide

/-- C15 amended: for every transaction `t` whose ID is set (or when `o` is nil),
none of `Timestamp`, `OrigTimestamp`, `MaxTimestamp` is less after `t.Update(o)`
than before; when the ID of `t` is unset and `o` is not nil, `t` becomes the
clone of `o` and its three timestamps are those of `o`. For every `t` and all
`Restart` arguments, `Timestamp` is not less after `Restart` than before,
`MaxTimestamp` is unchanged, `OrigTimestamp` is the new `Timestamp`, and it is
less than before exactly when the old `OrigTimestamp` was later than both the old
`Timestamp` and the `timestamp` argument, so never when `OrigTimestamp` was not
later than `Timestamp` before the call. -/
theorem C15_timestamps_monotone (t : Transaction) (o : Option Transaction)
    (rolled upgradePriority : Int) (timestamp : Timestamp) :
    ((t.ID ≠ none ∨ o = none) →
      (t.Update o).Timestamp.Less t.Timestamp = false ∧
      (t.Update o).OrigTimestamp.Less t.OrigTimestamp = false ∧
      (t.Update o).MaxTimestamp.Less t.MaxTimestamp = false) ∧
    (∀ o2 : Transaction, t.ID = none → o = some o2 →
      t.Update o = o2.Clone ∧
      (t.Update o).Timestamp = o2.Timestamp ∧
      (t.Update o).OrigTimestamp = o2.OrigTimestamp ∧
      (t.Update o).MaxTimestamp = o2.MaxTimestamp) ∧
    (t.Restart rolled upgradePriority timestamp).Timestamp.Less t.Timestamp = false ∧
    (t.Restart rolled upgradePriority timestamp).MaxTimestamp = t.MaxTimestamp ∧
    (t.Restart rolled upgradePriority timestamp).OrigTimestamp
      = (t.Restart rolled upgradePriority timestamp).Timestamp ∧
    ((t.Restart rolled upgradePriority timestamp).OrigTimestamp.Less t.OrigTimestamp = true ↔
      t.Timestamp.Less t.OrigTimestamp = true ∧ timestamp.Less t.OrigTimestamp = true) ∧
    (t.Timestamp.Less t.OrigTimestamp = false →
      (t.Restart rolled upgradePriority timestamp).OrigTimestamp.Less t.OrigTimestamp
        = false) := by
  have hirr : ∀ s : Timestamp, s.Less s = false := fun s => by simp [Timestamp.Less]
  have hiff : ((t.Restart rolled upgradePriority timestamp).OrigTimestamp.Less t.OrigTimestamp
      = true ↔
      t.Timestamp.Less t.OrigTimestamp = true ∧ timestamp.Less t.OrigTimestamp = true) := by
    rw [Restart_eq]
    simp only [Timestamp.Forward]
    split_ifs with h
    · rw [Less_iff] at h
      simp only [Less_iff]
      omega
    · rw [Bool.not_eq_true, Less_false_iff] at h
      simp only [Less_iff]
      omega
  refine ⟨fun hid => ⟨?_, ?_, ?_⟩, ?_, ?_, ?_, ?_, hiff, ?_⟩
  · cases o with
    | none => exact hirr _
    | some o =>
      obtain ⟨key, status, hb, m, intents, h⟩ :=
        Update_of_ID_set t o (by rcases hid with h | h; exact h; cases h)
      rw [h]
      exact (Forward_Backward_spec t.Timestamp o.Timestamp).2.1
  · cases o with
    | none => exact hirr _
    | some o =>
      obtain ⟨key, status, hb, m, intents, h⟩ :=
        Update_of_ID_set t o (by rcases hid with h | h; exact h; cases h)
      rw [h]
      exact (Forward_Backward_spec t.OrigTimestamp o.OrigTimestamp).2.1
  · cases o with
    | none => exact hirr _
    | some o =>
      obtain ⟨key, status, hb, m, intents, h⟩ :=
        Update_of_ID_set t o (by rcases hid with h | h; exact h; cases h)
      rw [h]
      exact (Forward_Backward_spec t.MaxTimestamp o.MaxTimestamp).2.1
  · intro o2 hid ho
    subst ho
    have hc : t.Update (some o2) = o2.Clone := Update_of_ID_unset t o2 hid
    rw [hc]
    exact ⟨rfl, rfl, rfl, rfl⟩
  · rw [Restart_eq]
    exact (Forward_Backward_spec t.Timestamp timestamp).2.1
  · rw [Restart_eq]
  · rw [Restart_eq]
  · intro hle
    rw [Bool.eq_false_iff]
    intro hlt
    have := (hiff.1 hlt).1
    rw [hle] at this
    exact Bool.false_ne_true this

/-- C15 amended, at a receiver with ID 1 whose timestamp is later than that of
`o`, and at a receiver without ID, which takes the timestamp of `o`. -/
theorem C15_timestamps_monotone_witness :
    (({ zeroTransaction with ID := some 1, Timestamp := ⟨5, 0⟩ }).Update
      (some { zeroTransaction with Timestamp := ⟨1, 0⟩ })).Timestamp.Less ⟨5, 0⟩ = false ∧
    (({ zeroTransaction with Timestamp := ⟨5, 0⟩ }).Update
      (some { zeroTransaction with ID := some 7, Timestamp := ⟨1, 0⟩ })).Timestamp = ⟨1, 0⟩ :=
  ⟨((C15_timestamps_monotone { zeroTransaction with ID := some 1, Timestamp := ⟨5, 0⟩ }
      (some { zeroTransaction with Timestamp := ⟨1, 0⟩ }) 0 0 ⟨0, 0⟩).1 (Or.inl (by decide))).1,
    ((C15_timestamps_monotone { zeroTransaction with Timestamp := ⟨5, 0⟩ }
      (some { zeroTransaction with ID := some 7, Timestamp := ⟨1, 0⟩ }) 0 0 ⟨0, 0⟩).2.1
      { zeroTransaction with ID := some 7, Timestamp := ⟨1, 0⟩ } rfl rfl).2.1⟩

/-- C16 as stated fails: a receiver without ID and with priority 5 is replaced by
the clone of `o`, whose priority is 1. -/
theorem C16_priority_can_regress :
    (({ zeroTransaction with Priority := 5 }).Update
      (some { zeroTransaction with ID := some 7, Priority := 1 })).Priority = 1 := by
  decide

/-- C16 amended: for every transaction `t` whose ID is set (or when `o` is nil),
`Priority` after `t.Update(o)` is not less than before; when the ID of `t` is
unset and `o` is not nil, `t` becomes the clone of `o` and its priority is that
of `o`. For every `t`, every rolled priority and all other arguments, `Priority`
after `t.Restart(...)` and after `t.UpgradePriority(p)` is not less than
before. -/
theorem C16_priority_monotone (t : Transaction) (o : Option Transaction)
    (rolled upgradePriority p : Int) (timestamp : Timestamp) :
    ((t.ID ≠ none ∨ o = none) → t.Priority ≤ (t.Update o).Priority) ∧
    (∀ o2 : Transaction, t.ID = none → o = some o2 →
      t.Update o = o2.Clone ∧ (t.Update o).Priority = o2.Priority) ∧
    t.Priority ≤ (t.Restart rolled upgradePriority timestamp).Priority ∧
    t.Priority ≤ (t.UpgradePriority p).Priority := by
  refine ⟨fun hid => ?_, ?_, ?_, ?_⟩
  · cases o with
    | none => exact le_refl _
    | some o =>
      obtain ⟨key, status, hb, m, intents, h⟩ :=
        Update_of_ID_set t o (by rcases hid with h | h; exact h; cases h)
      rw [h]
      exact le_max_left _ _
  · intro o2 hid ho
    subst ho
    have hc : t.Update (some o2) = o2.Clone := Update_of_ID_unset t o2 hid
    rw [hc]
    exact ⟨rfl, rfl⟩
  · rw [Restart_eq]
    exact le_trans (le_max_left _ _) (le_max_left _ _)
  · rw [UpgradePriority_eq]
    exact le_max_left _ _

/-- C16 amended, at a receiver with ID 1 and priority 5 merged with priority 1,
and at a receiver without ID, which takes the priority 1 of `o`. -/
theorem C16_priority_monotone_witness :
    (5 : Int) ≤ (({ zeroTransaction with ID := some 1, Priority := 5 }).Update
      (some { zeroTransaction with Priority := 1 })).Priority ∧
    (({ zeroTransaction with Priority := 5 }).Update
      (some { zeroTransaction with ID := some 7, Priority := 1 })).Priority = 1 :=
  ⟨(C16_priority_monotone { zeroTransaction with ID := some 1, Priority := 5 }
      (some { zeroTransaction with Priority := 1 }) 0 0 0 ⟨0, 0⟩).1 (Or.inl (by decide)),
    ((C16_priority_monotone { zeroTransaction with Priority := 5 }
      (some { zeroTransaction with ID := some 7, Priority := 1 }) 0 0 0 ⟨0, 0⟩).2.1
      { zeroTransaction with ID := some 7, Priority := 1 } rfl rfl).2⟩

/-- C17 as stated fails at the largest `uint32` epoch: `t.Epoch++` wraps to 0,
which is not the old epoch plus 1. -/
theorem C17_epoch_wraps :
    (({ zeroTransaction with Epoch := 4294967295 }).Restart 0 0 ⟨0, 0⟩).Epoch = 0 ∧
    (0 : Nat) ≠ 4294967295 + 1 := by
  constructor <;> with_unfolding_all decide

/-- C17 amended: for every transaction `t` and arguments, with `rolled` the
priority returned by `MakePriority(userPriority)`: after `t.Restart`, `Epoch` is
the old `Epoch` plus 1 when that fits a `uint32` and 0 when the old `Epoch` was the
largest `uint32`; `Timestamp` is the later of the old `Timestamp` and `timestamp`;
`OrigTimestamp` equals the new `Timestamp`; `Priority` is `max(old Priority,
rolled, upgradePriority)`; `WriteTooOld` and `RetryOnPush` are false; every other
field is unchanged. -/
theorem C17_restart (t : Transaction) (rolled upgradePriority : Int) (timestamp : Timestamp) :
    t.Restart rolled upgradePriority timestamp =
      { t with
        Epoch := wrapUint32 (t.Epoch + 1),
        Timestamp := if t.Timestamp.Less timestamp then timestamp else t.Timestamp,
        OrigTimestamp := if t.Timestamp.Less timestamp then timestamp else t.Timestamp,
        Priority := max (max t.Priority rolled) upgradePriority,
        WriteTooOld := false,
        RetryOnPush := false } ∧
    (t.Epoch < 4294967295 →
      (t.Restart rolled upgradePriority timestamp).Epoch = t.Epoch + 1) ∧
    (t.Epoch = 4294967295 → (t.Restart rolled upgradePriority timestamp).Epoch = 0) := by
  rw [Restart_eq]
  refine ⟨rfl, ?_, ?_⟩
  · intro h
    exact wrapUint32_of_lt _ (by omega)
  · intro h
    show wrapUint32 (t.Epoch + 1) = 0
    rw [h]
    unfold wrapUint32
    rfl

/-- C17 amended, at a restart of the zero transaction with rolled priority 5,
upgrade priority 7 and timestamp `{3, 3}`. -/
theorem C17_restart_witness :
    (zeroTransaction.Restart 5 7 ⟨3, 3⟩).Epoch = 0 + 1 ∧
    zeroTransaction.Restart 5 7 ⟨3, 3⟩ =
      { zeroTransaction with
        Epoch := 1, Timestamp := ⟨3, 3⟩, OrigTimestamp := ⟨3, 3⟩, Priority := 7 } :=
  ⟨(C17_restart zeroTransaction 5 7 ⟨3, 3⟩).2.1 (by decide), by with_unfolding_all decide⟩

/-- C18: lowest observed timestamp wins. Starting from a transaction `t0` with no
observed timestamps, after any finite sequence `calls` of
`UpdateObservedTimestamp(node, ts)` calls, `GetObservedTimestamp(n)` reports
`found = false` exactly when no call named `n`, and otherwise returns a timestamp
that was passed for `n` and that no timestamp passed for `n` is less than (their
minimum); and on any transaction a call for a node `k` other than `n` does not
change what `GetObservedTimestamp(n)` returns. -/
theorem C18_lowest_observed_wins (t0 : Transaction) (h0 : t0.ObservedTimestamps = [])
    (calls : List (NodeID × Timestamp)) (n : NodeID) :
    (((calls.foldl (fun t c => t.UpdateObservedTimestamp c.1 c.2) t0).GetObservedTimestamp n).2
        = false ↔ ∀ c ∈ calls, c.1 ≠ n) ∧
    (((calls.foldl (fun t c => t.UpdateObservedTimestamp c.1 c.2) t0).GetObservedTimestamp n).2
        = true →
      ((calls.foldl (fun t c => t.UpdateObservedTimestamp c.1 c.2) t0).GetObservedTimestamp n).1
          ∈ passedFor n calls ∧
      ∀ x ∈ passedFor n calls, x.Less
        ((calls.foldl (fun t c => t.UpdateObservedTimestamp c.1 c.2) t0).GetObservedTimestamp n).1
          = false) ∧
    (∀ (t : Transaction) (k : NodeID) (v : Timestamp), k ≠ n →
      (t.UpdateObservedTimestamp k v).GetObservedTimestamp n = t.GetObservedTimestamp n) := by
  have hl := lookup_foldl_UpdateObservedTimestamp n calls t0
  rw [h0] at hl
  simp only [mapLookup] at hl
  have hnil := passedFor_eq_nil_iff n calls
  refine ⟨?_, ?_, ?_⟩
  · unfold Transaction.GetObservedTimestamp
    rw [hl]
    cases hp : passedFor n calls with
    | nil =>
      rw [hp] at hnil
      simp only [lowest, true_iff]
      exact hnil.1 rfl
    | cons x xs =>
      rw [hp] at hnil
      obtain ⟨r, hr, -⟩ := lowest_some_spec xs x
      simp only [lowest, hr]
      constructor
      · intro h
        cases h
      · intro h
        exact absurd (hnil.2 h) (by simp)
  · unfold Transaction.GetObservedTimestamp
    rw [hl]
    cases hp : passedFor n calls with
    | nil => simp [lowest]
    | cons x xs =>
      obtain ⟨r, hr, hmem, hx, hall⟩ := lowest_some_spec xs x
      simp only [lowest, hr]
      intro _
      refine ⟨?_, ?_⟩
      · rcases hmem with h | h
        · rw [h]
          exact List.mem_cons_self _ _
        · exact List.mem_cons_of_mem _ h
      · intro y hy
        rcases List.mem_cons.1 hy with h | h
        · rw [h]
          exact hx
        · exact hall y h
  · intro t k v hk
    unfold Transaction.GetObservedTimestamp
    rw [lookup_UpdateObservedTimestamp_ne t k n v hk]

/-- C18 at the calls `(1, {5,0}), (2, {9,9}), (1, {3,0}), (1, {4,0})`: node 1 reads
`{3,0}`, node 3 is not found. -/
theorem C18_lowest_observed_wins_witness :
    (([(1, ⟨5, 0⟩), (2, ⟨9, 9⟩), (1, ⟨3, 0⟩), (1, ⟨4, 0⟩)].foldl
      (fun t c => t.UpdateObservedTimestamp c.1 c.2) zeroTransaction).GetObservedTimestamp 1
        = (⟨3, 0⟩, true)) ∧
    ((([(1, ⟨5, 0⟩), (2, ⟨9, 9⟩), (1, ⟨3, 0⟩), (1, ⟨4, 0⟩)].foldl
      (fun t c => t.UpdateObservedTimestamp c.1 c.2) zeroTransaction).GetObservedTimestamp 3).2
        = false) :=
  ⟨by decide,
    (C18_lowest_observed_wins zeroTransaction rfl
      [(1, ⟨5, 0⟩), (2, ⟨9, 9⟩), (1, ⟨3, 0⟩), (1, ⟨4, 0⟩)] 3).1.2 (by decide)⟩

/-- C19: for every byte slice `k` (whatever its spare capacity holds), `Key.Next`,
`RKey.Next` and `BytesNext` return `k` with one zero byte appended; that
sequence is strictly greater than `k` under `bytes.Compare`, and no byte
sequence `m` lies strictly between `k` and it. -/
theorem C19_next_is_successor (k : Slice) :
    (Key.Next k).elems = k.elems ++ [0] ∧
    (RKey.Next k).elems = k.elems ++ [0] ∧
    (BytesNext k).elems = k.elems ++ [0] ∧
    bytesCompare k.elems (Key.Next k).elems < 0 ∧
    ∀ m : List Byte, ¬ (bytesCompare k.elems m < 0 ∧ bytesCompare m (Key.Next k).elems < 0) := by
  have h := BytesNext_elems k
  refine ⟨h, h, h, ?_, ?_⟩
  · show bytesCompare k.elems (BytesNext k).elems < 0
    rw [h, bytesCompare_self_append_zero]
    decide
  · intro m
    show ¬ (bytesCompare k.elems m < 0 ∧ bytesCompare m (BytesNext k).elems < 0)
    rw [h]
    exact bytesCompare_nothing_between k.elems m

/-- C19 on a slice whose spare capacity starts with a zero byte (the backing
array is reused) and on one whose spare capacity starts with 7 (a copy is made). -/
theorem C19_next_is_successor_witness :
    Key.Next ⟨[1, 2], [0, 5]⟩ = ⟨[1, 2, 0], [5]⟩ ∧
    Key.Next ⟨[1, 2], [7, 5]⟩ = ⟨[1, 2, 0], []⟩ ∧
    (Key.Next ⟨[1, 2], [7, 5]⟩).elems = [1, 2] ++ [0] :=
  ⟨by decide, by decide, (C19_next_is_successor ⟨[1, 2], [7, 5]⟩).1⟩

/-- C20: for all byte slices `k` and `m` (the empty `m` included), `k.IsPrev(m)`
returns without panicking, and it is true if and only if `m` is byte-wise equal
to `k.Next()`; in particular `k.IsPrev(k.Next())` is true for every `k`. -/
theorem C20_isPrev_iff_next (k m : Slice) :
    Key.IsPrev k m = .ok (decide (m.elems = (Key.Next k).elems)) ∧
    Key.IsPrev k m = .ok (Key.Equal (Key.Next k) m) ∧
    Key.IsPrev k (Key.Next k) = .ok true := by
  have hn : (Key.Next k).elems = k.elems ++ [0] := BytesNext_elems k
  refine ⟨?_, ?_, ?_⟩
  · rw [IsPrev_eq, hn]
  · rw [IsPrev_eq]
    unfold Key.Equal bytesEqual
    rw [hn]
    simp only [Res.ok.injEq, decide_eq_decide]
    exact eq_comm
  · rw [IsPrev_eq, hn]
    simp

/-- C20 at the empty `m` and at `m = Next(k)`. -/
theorem C20_isPrev_iff_next_witness :
    Key.IsPrev ⟨[1, 2], []⟩ ⟨[], []⟩ = .ok false ∧
    Key.IsPrev ⟨[1, 2], []⟩ (Key.Next ⟨[1, 2], []⟩) = .ok true :=
  ⟨by decide, (C20_isPrev_iff_next ⟨[1, 2], []⟩ ⟨[], []⟩).2.2⟩

/-! ## Byte-string order, spans and range spans -/

/-! ## The byte-lexicographic order -/

theorem bytesCompare_lt_iff : ∀ a b : List Byte, bytesCompare a b < 0 ↔ a < b
  | [], [] => by simp [bytesCompare]
  | [], y :: b => by simp [bytesCompare, List.nil_lt_cons]
  | x :: a, [] => by
    simp only [bytesCompare]
    constructor
    · intro h; omega
    · intro h; exact absurd h (List.Lex.not_nil_right _ _)
  | x :: a, y :: b => by
    have ih := bytesCompare_lt_iff a b
    simp only [bytesCompare]
    by_cases hxy : x < y
    · rw [if_pos hxy]
      constructor
      · intro _; exact List.Lex.rel hxy
      · intro _; omega
    · rw [if_neg hxy]
      by_cases hyx : y < x
      · rw [if_pos hyx]
        constructor
        · intro h; omega
        · intro h
          exfalso
          cases h with
          | cons h' => exact lt_irrefl _ hyx
          | rel h' => exact hxy h'
      · rw [if_neg hyx]
        have hEq : x = y := le_antisymm (not_lt.1 hyx) (not_lt.1 hxy)
        subst hEq
        rw [ih]
        constructor
        · intro h; exact List.Lex.cons h
        · intro h
          cases h with
          | cons h' => exact h'
          | rel h' => exact absurd h' (lt_irrefl _)

theorem bytesCompare_eq_iff : ∀ a b : List Byte, bytesCompare a b = 0 ↔ a = b
  | [], [] => by simp [bytesCompare]
  | [], y :: b => by simp [bytesCompare]
  | x :: a, [] => by simp [bytesCompare]
  | x :: a, y :: b => by
    have ih := bytesCompare_eq_iff a b
    simp only [bytesCompare, List.cons.injEq]
    by_cases hxy : x < y
    · rw [if_pos hxy]
      constructor
      · intro h; omega
      · rintro ⟨h, -⟩; exact absurd hxy (by rw [h]; exact lt_irrefl _)
    · rw [if_neg hxy]
      by_cases hyx : y < x
      · rw [if_pos hyx]
        constructor
        · intro h; omega
        · rintro ⟨h, -⟩; exact absurd hyx (by rw [h]; exact lt_irrefl _)
      · rw [if_neg hyx, ih]
        have hEq : x = y := le_antisymm (not_lt.1 hyx) (not_lt.1 hxy)
        simp [hEq]

theorem bytesCompare_range (a b : List Byte) :
    bytesCompare a b = -1 ∨ bytesCompare a b = 0 ∨ bytesCompare a b = 1 := by
  induction a generalizing b with
  | nil => cases b <;> simp [bytesCompare]
  | cons x a ih =>
    cases b with
    | nil => simp [bytesCompare]
    | cons y b =>
      simp only [bytesCompare]
      split_ifs
      · simp
      · simp
      · exact ih b

theorem bytesCompare_gt_iff (a b : List Byte) : 0 < bytesCompare a b ↔ b < a := by
  have h1 := bytesCompare_lt_iff a b
  have h2 := bytesCompare_eq_iff a b
  constructor
  · intro h
    rcases lt_trichotomy a b with hlt | heq | hgt
    · have := h1.2 hlt; omega
    · have := h2.2 heq; omega
    · exact hgt
  · intro h
    rcases bytesCompare_range a b with hc | hc | hc
    · exact absurd (h1.1 (by omega)) (lt_asymm h)
    · exact absurd (h2.1 hc) (ne_of_gt h)
    · omega

theorem bytesCompare_le_iff (a b : List Byte) : bytesCompare a b ≤ 0 ↔ a ≤ b := by
  rw [← not_lt, bytesCompare_gt_iff, not_lt]

theorem bytesCompare_ge_iff (a b : List Byte) : bytesCompare a b ≥ 0 ↔ b ≤ a := by
  rw [ge_iff_le, ← not_lt, bytesCompare_lt_iff, not_lt]

/-! ## Spans -/

theorem RKey_Less_iff (a b : List Byte) : RKey.Less (asSlice a) (asSlice b) = true ↔ a < b := by
  simp [RKey.Less, asSlice, bytesCompare_lt_iff]

theorem ContainsKey_iff (rs : RSpan) (k : List Byte) :
    rs.ContainsKey k = true ↔ rs.Key ≤ k ∧ k < rs.EndKey := by
  simp [RSpan.ContainsKey, bytesCompare_ge_iff, bytesCompare_lt_iff]

theorem Span_specContains_iff (s : Span) (k : List Byte) :
    s.specContains k = true ↔
      (s.EndKey = [] ∧ k = s.Key) ∨ (s.EndKey ≠ [] ∧ s.Key ≤ k ∧ k < s.EndKey) := by
  unfold Span.specContains
  split_ifs with h
  · simp [h]
  · simp [h, bytesCompare_le_iff, bytesCompare_lt_iff]

theorem RSpan_specContains_iff (rs : RSpan) (k : List Byte) :
    rs.specContains k = true ↔
      (rs.EndKey = [] ∧ k = rs.Key) ∨ (rs.EndKey ≠ [] ∧ rs.Key ≤ k ∧ k < rs.EndKey) := by
  unfold RSpan.specContains
  split_ifs with h
  · simp [h]
  · simp [h, bytesCompare_le_iff, bytesCompare_lt_iff]

theorem desc_specContains_iff (desc : RangeDescriptor) (k : List Byte) :
    desc.specContains k = true ↔ desc.StartKey ≤ k ∧ k < desc.EndKey := by
  simp [RangeDescriptor.specContains, bytesCompare_le_iff, bytesCompare_lt_iff]

/-- Two half-open ranges with `a < b` and `c < d` share a key iff `c < b` and
`a < d`. -/
theorem ranges_share_key_iff (a b c d : List Byte) (hab : a < b) (hcd : c < d) :
    (∃ k, (a ≤ k ∧ k < b) ∧ (c ≤ k ∧ k < d)) ↔ c < b ∧ a < d := by
  constructor
  · rintro ⟨k, ⟨h1, h2⟩, h3, h4⟩
    exact ⟨lt_of_le_of_lt h3 h2, lt_of_le_of_lt h1 h4⟩
  · rintro ⟨h1, h2⟩
    refine ⟨max a c, ⟨le_max_left _ _, max_lt hab h1⟩, le_max_right _ _, max_lt h2 hcd⟩

theorem Overlaps_iff (s o : Span) (hs : s.WellFormed) (ho : o.WellFormed) :
    s.Overlaps o = true ↔ ∃ k, s.specContains k = true ∧ o.specContains k = true := by
  simp only [Span_specContains_iff]
  unfold Span.WellFormed at hs ho
  rw [bytesCompare_lt_iff] at hs ho
  unfold Span.Overlaps
  by_cases h1 : s.EndKey = []
  · by_cases h2 : o.EndKey = []
    · rw [if_pos (by simp [h1, h2])]
      simp only [Key.Equal, asSlice, bytesEqual, decide_eq_true_eq, h1, h2, true_and, ne_eq,
        not_true_eq_false, false_and, or_false]
      constructor
      · intro h; exact ⟨s.Key, rfl, h⟩
      · rintro ⟨k, rfl, h⟩; exact h
    · have ho' : o.Key < o.EndKey := by rcases ho with h | h; exact absurd h h2; exact h
      rw [if_neg (by simp [h1, h2]), if_pos (by simp [h1])]
      simp only [Bool.and_eq_true, decide_eq_true_eq, bytesCompare_ge_iff, bytesCompare_lt_iff,
        h1, h2, true_and, ne_eq, not_true_eq_false, false_and, or_false, not_false_eq_true,
        false_or]
      constructor
      · intro h; exact ⟨s.Key, rfl, h⟩
      · rintro ⟨k, rfl, h⟩; exact h
  · have hs' : s.Key < s.EndKey := by rcases hs with h | h; exact absurd h h1; exact h
    by_cases h2 : o.EndKey = []
    · rw [if_neg (by simp [h1]), if_neg (by simp [h1]), if_pos (by simp [h2])]
      simp only [Bool.and_eq_true, decide_eq_true_eq, bytesCompare_ge_iff, bytesCompare_lt_iff,
        h1, h2, true_and, ne_eq, not_true_eq_false, false_and, or_false, not_false_eq_true,
        false_or]
      constructor
      · intro h; exact ⟨o.Key, h, rfl⟩
      · rintro ⟨k, h, rfl⟩; exact h
    · have ho' : o.Key < o.EndKey := by rcases ho with h | h; exact absurd h h2; exact h
      rw [if_neg (by simp [h1]), if_neg (by simp [h1]), if_neg (by simp [h2])]
      simp only [Bool.and_eq_true, decide_eq_true_eq, gt_iff_lt, bytesCompare_gt_iff,
        bytesCompare_lt_iff, h1, h2, ne_eq, not_false_eq_true, true_and, false_and, false_or]
      rw [ranges_share_key_iff _ _ _ _ hs' ho']

theorem ContainsKeyRange_cases (rs : RSpan) (start end_ : List Byte) :
    ((end_ = [] ∨ end_ = start) → rs.ContainsKeyRange start end_ = rs.ContainsKey start) ∧
    (end_ ≠ [] → bytesCompare end_ start < 0 → rs.ContainsKeyRange start end_ = false) ∧
    (bytesCompare start end_ < 0 →
      (rs.ContainsKeyRange start end_ = true ↔
        ∀ k, bytesCompare start k ≤ 0 → bytesCompare k end_ < 0 → rs.ContainsKey k = true)) ∧
    (∀ k, rs.ContainsKey k = true ↔ bytesCompare rs.Key k ≤ 0 ∧ bytesCompare k rs.EndKey < 0) := by
  refine ⟨?_, ?_, ?_, ?_⟩
  · intro h
    unfold RSpan.ContainsKeyRange
    by_cases he : end_.length = 0
    · rw [if_pos he]
    · rw [if_neg he]
      have hes : end_ = start := by
        rcases h with h | h
        · exact absurd (by simp [h]) he
        · exact h
      have hc : bytesCompare end_ start = 0 := (bytesCompare_eq_iff _ _).2 hes
      simp [hc]
  · intro he hlt
    unfold RSpan.ContainsKeyRange
    rw [if_neg (by simpa using he)]
    simp only [hlt, if_true]
  · intro hlt
    have hse : start < end_ := (bytesCompare_lt_iff _ _).1 hlt
    have hne : end_.length ≠ 0 := by
      intro h
      have : end_ = [] := List.length_eq_zero.1 h
      subst this
      exact absurd hse (List.Lex.not_nil_right _ _)
    have hgt : 0 < bytesCompare end_ start := (bytesCompare_gt_iff _ _).2 hse
    unfold RSpan.ContainsKeyRange
    rw [if_neg hne]
    simp only
    rw [if_neg (by omega), if_neg (by omega)]
    simp only [Bool.and_eq_true, decide_eq_true_eq, bytesCompare_ge_iff, bytesCompare_le_iff,
      bytesCompare_lt_iff, ContainsKey_iff]
    constructor
    · rintro ⟨h1, h2⟩ k hk1 hk2
      exact ⟨le_trans h1 hk1, lt_of_lt_of_le hk2 h2⟩
    · intro h
      refine ⟨(h start (le_refl _) hse).1, ?_⟩
      by_contra hcon
      have hlt2 : rs.EndKey < end_ := not_le.1 hcon
      have := (h (max start rs.EndKey) (le_max_left _ _) (max_lt hse hlt2)).2
      exact absurd this (not_lt.2 (le_max_right _ _))
  · intro k
    rw [ContainsKey_iff, bytesCompare_le_iff, bytesCompare_lt_iff]

/-- The result of `Intersect`, case by case. -/
theorem Intersect_eq (rs : RSpan) (desc : RangeDescriptor) :
    (¬ (rs.Key < desc.EndKey ∧ desc.StartKey < rs.EndKey) →
      rs.Intersect desc = (rs, some .noOverlap)) ∧
    (rs.Key < desc.EndKey → desc.StartKey < rs.EndKey →
      rs.Intersect desc =
        ({ Key := if rs.Key < desc.StartKey then desc.StartKey else rs.Key,
           EndKey := if desc.EndKey < rs.EndKey then desc.EndKey else rs.EndKey }, none)) := by
  constructor
  · intro h
    unfold RSpan.Intersect
    rw [if_pos]
    simp only [Bool.or_eq_true, Bool.not_eq_true', ← Bool.not_eq_true, RKey_Less_iff]
    by_contra hcon
    push_neg at hcon
    exact h hcon
  · intro h1 h2
    have hne : rs.EndKey ≠ [] := by
      intro h
      rw [h] at h2
      exact absurd h2 (List.Lex.not_nil_right _ _)
    have hckr : desc.ContainsKeyRange desc.StartKey rs.EndKey = true ↔ rs.EndKey ≤ desc.EndKey := by
      unfold RangeDescriptor.ContainsKeyRange RSpan.ContainsKeyRange
      rw [if_neg (by simpa using hne)]
      have hgt : 0 < bytesCompare rs.EndKey desc.StartKey := (bytesCompare_gt_iff _ _).2 h2
      simp only
      rw [if_neg (by omega), if_neg (by omega)]
      simp [bytesCompare_ge_iff]
    unfold RSpan.Intersect
    rw [if_neg]
    · simp only [RKey_Less_iff, hne, decide_False, Bool.or_false, Bool.not_eq_true']
      congr 2
      by_cases hle : rs.EndKey ≤ desc.EndKey
      · rw [if_neg (by rw [Bool.eq_false_iff]; exact fun h => h (hckr.2 hle)),
          if_neg (not_lt.2 hle)]
      · rw [if_pos (by rw [Bool.eq_false_iff]; exact fun h => hle (hckr.1 h)),
          if_pos (not_le.1 hle)]
    · simp only [Bool.or_eq_true, Bool.not_eq_true', ← Bool.not_eq_true, RKey_Less_iff]
      push_neg
      exact ⟨h1, h2⟩

/-! ## Claims on spans and range spans -/

theorem maxKey_eq (a b : List Byte) : maxKey a b = max a b := by
  unfold maxKey
  by_cases h : a < b
  · rw [if_pos ((bytesCompare_lt_iff _ _).2 h), max_eq_right (le_of_lt h)]
  · rw [if_neg (fun h2 => h ((bytesCompare_lt_iff _ _).1 h2)), max_eq_left (not_lt.1 h)]

theorem minKey_eq (a b : List Byte) : minKey a b = min a b := by
  unfold minKey
  by_cases h : b < a
  · rw [if_pos ((bytesCompare_lt_iff _ _).2 h), min_eq_right (le_of_lt h)]
  · rw [if_neg (fun h2 => h ((bytesCompare_lt_iff _ _).1 h2)), min_eq_left (not_lt.1 h)]

theorem Overlaps_touching (a b c : List Byte) (hab : bytesCompare a b < 0)
    (hbc : bytesCompare b c < 0) :
    (Span.mk a b).Overlaps (Span.mk b c) = false ∧
    (Span.mk b []).Overlaps (Span.mk a c) = true := by
  have h1 : a < b := (bytesCompare_lt_iff _ _).1 hab
  have h2 : b < c := (bytesCompare_lt_iff _ _).1 hbc
  have hb : b ≠ [] := fun h => absurd (h ▸ h1) (List.Lex.not_nil_right _ _)
  have hc : c ≠ [] := fun h => absurd (h ▸ h2) (List.Lex.not_nil_right _ _)
  constructor
  · rw [← Bool.not_eq_true, Overlaps_iff _ _ (Or.inr hab) (Or.inr hbc)]
    simp only [Span_specContains_iff]
    rintro ⟨k, hk1, hk2⟩
    rcases hk1 with ⟨h, _⟩ | ⟨_, _, hk1⟩
    · exact hb h
    rcases hk2 with ⟨h, _⟩ | ⟨_, hk2, _⟩
    · exact hc h
    exact absurd hk1 (not_lt.2 hk2)
  · rw [Overlaps_iff _ _ (Or.inl rfl) (Or.inr (by
      exact (bytesCompare_lt_iff _ _).2 (lt_trans h1 h2)))]
    refine ⟨b, ?_, ?_⟩
    · rw [Span_specContains_iff]; exact Or.inl ⟨rfl, rfl⟩
    · rw [Span_specContains_iff]; exact Or.inr ⟨hc, le_of_lt h1, h2⟩

theorem Intersect_success_iff (rs : RSpan) (desc : RangeDescriptor) :
    (rs.Intersect desc).2 = none ↔ rs.Key < desc.EndKey ∧ desc.StartKey < rs.EndKey := by
  by_cases h : rs.Key < desc.EndKey ∧ desc.StartKey < rs.EndKey
  · rw [(Intersect_eq rs desc).2 h.1 h.2]
    simp [h]
  · rw [(Intersect_eq rs desc).1 h]
    simp [h]

theorem Intersect_result (rs : RSpan) (desc : RangeDescriptor)
    (h : (rs.Intersect desc).2 = none) :
    (rs.Intersect desc).1.Key = maxKey rs.Key desc.StartKey ∧
    (rs.Intersect desc).1.EndKey = minKey rs.EndKey desc.EndKey ∧
    (rs.Intersect desc).1.EndKey ≠ [] ∧
    bytesCompare (rs.Intersect desc).1.EndKey desc.EndKey ≤ 0 ∧
    bytesCompare desc.StartKey (rs.Intersect desc).1.Key ≤ 0 ∧
    ∀ k, (rs.Intersect desc).1.ContainsKey k = true ↔
      rs.ContainsKey k = true ∧ desc.specContains k = true := by
  obtain ⟨h1, h2⟩ := (Intersect_success_iff rs desc).1 h
  have hk : (rs.Intersect desc).1.Key = max rs.Key desc.StartKey := by
    rw [(Intersect_eq rs desc).2 h1 h2]
    show (if rs.Key < desc.StartKey then desc.StartKey else rs.Key) = _
    split_ifs with hlt
    · rw [max_eq_right (le_of_lt hlt)]
    · rw [max_eq_left (not_lt.1 hlt)]
  have he : (rs.Intersect desc).1.EndKey = min rs.EndKey desc.EndKey := by
    rw [(Intersect_eq rs desc).2 h1 h2]
    show (if desc.EndKey < rs.EndKey then desc.EndKey else rs.EndKey) = _
    split_ifs with hlt
    · rw [min_eq_right (le_of_lt hlt)]
    · rw [min_eq_left (not_lt.1 hlt)]
  have hne1 : rs.EndKey ≠ [] := fun h => absurd (h ▸ h2) (List.Lex.not_nil_right _ _)
  have hne2 : desc.EndKey ≠ [] := fun h => absurd (h ▸ h1) (List.Lex.not_nil_right _ _)
  refine ⟨by rw [hk, maxKey_eq], by rw [he, minKey_eq], ?_, ?_, ?_, ?_⟩
  · rw [he]
    rcases min_choice rs.EndKey desc.EndKey with h | h <;> rw [h] <;> assumption
  · rw [bytesCompare_le_iff, he]; exact min_le_right _ _
  · rw [bytesCompare_le_iff, hk]; exact le_max_right _ _
  · intro k
    rw [ContainsKey_iff, ContainsKey_iff, desc_specContains_iff, hk, he]
    simp only [max_le_iff, lt_min_iff]
    tauto

/-- When `Intersect` returns the error, for a descriptor with `StartKey <
EndKey`: on a range `rs` with `Key < EndKey` exactly when the two ranges share no
key; on every `rs` with an empty `EndKey`; and the span returned with the error
is `rs`. -/
theorem Intersect_error_iff (rs : RSpan) (desc : RangeDescriptor)
    (hd : bytesCompare desc.StartKey desc.EndKey < 0) :
    (bytesCompare rs.Key rs.EndKey < 0 →
      ((rs.Intersect desc).2 ≠ none ↔
        ¬ ∃ k, rs.specContains k = true ∧ desc.specContains k = true)) ∧
    (rs.EndKey = [] → (rs.Intersect desc).2 ≠ none) ∧
    ((rs.Intersect desc).2 ≠ none → (rs.Intersect desc).1 = rs) := by
  have hd2 : desc.StartKey < desc.EndKey := (bytesCompare_lt_iff _ _).1 hd
  refine ⟨?_, ?_, ?_⟩
  · intro hr
    have hr2 : rs.Key < rs.EndKey := (bytesCompare_lt_iff _ _).1 hr
    have hne : rs.EndKey ≠ [] := fun h => absurd (h ▸ hr2) (List.Lex.not_nil_right _ _)
    rw [Ne, Intersect_success_iff, not_iff_not]
    have hex : (∃ k, rs.specContains k = true ∧ desc.specContains k = true) ↔
        ∃ k, (rs.Key ≤ k ∧ k < rs.EndKey) ∧ (desc.StartKey ≤ k ∧ k < desc.EndKey) := by
      refine exists_congr (fun k => ?_)
      rw [RSpan_specContains_iff, desc_specContains_iff]
      constructor
      · rintro ⟨h1 | h1, h2⟩
        · exact absurd h1.1 hne
        · exact ⟨h1.2, h2⟩
      · rintro ⟨h1, h2⟩
        exact ⟨Or.inr ⟨hne, h1⟩, h2⟩
    rw [hex, ranges_share_key_iff _ _ _ _ hr2 hd2]
    tauto
  · intro he
    rw [Ne, Intersect_success_iff, he]
    exact fun h => absurd h.2 (List.Lex.not_nil_right _ _)
  · intro h
    rw [Ne, Intersect_success_iff] at h
    rw [(Intersect_eq rs desc).1 h]

/-- C22: for well-formed spans `s` and `o` (`EndKey` empty, the single key `Key`,
or `Key < EndKey`, the half-open range), `s.Overlaps(o)` is true iff some key
belongs to both spans; for `a < b < c`, `Span{a,b}.Overlaps(Span{b,c})` is false
and the point span at `b` overlaps `Span{a,c}`. -/
theorem C22_overlaps_iff_common_key (s o : Span) (hs : s.WellFormed) (ho : o.WellFormed) :
    (s.Overlaps o = true ↔ ∃ k, s.specContains k = true ∧ o.specContains k = true) ∧
    (∀ a b c : List Byte, bytesCompare a b < 0 → bytesCompare b c < 0 →
      (Span.mk a b).Overlaps (Span.mk b c) = false ∧
      (Span.mk b []).Overlaps (Span.mk a c) = true) :=
  ⟨Overlaps_iff s o hs ho, Overlaps_touching⟩

theorem C22_overlaps_iff_common_key_witness :
    (Span.mk [98] []).WellFormed ∧ (Span.mk [97] [99]).WellFormed ∧
    (Span.mk [98] []).Overlaps (Span.mk [97] [99]) = true ∧
    (∃ k, (Span.mk [98] []).specContains k = true ∧
      (Span.mk [97] [99]).specContains k = true) ∧
    (Span.mk [97] [98]).Overlaps (Span.mk [98] [99]) = false :=
  ⟨by decide, by decide, by decide,
    (C22_overlaps_iff_common_key (Span.mk [98] []) (Span.mk [97] [99])
      (by decide) (by decide)).1.1 (by decide),
    ((C22_overlaps_iff_common_key (Span.mk [98] []) (Span.mk [97] [99])
      (by decide) (by decide)).2 [97] [98] [99] (by decide) (by decide)).1⟩

/-- C23 (counterexample): the empty `end` sorts before `start = "b"`, yet
`ContainsKeyRange` on `["a", "c")` is true: an empty `end` makes it the point
check `ContainsKey(start)`. -/
theorem C23_empty_end_before_start :
    bytesCompare [] [98] < 0 ∧ (RSpan.mk [97] [99]).ContainsKeyRange [98] [] = true := by
  decide

/-- C23 (amended): if `end` is empty or equal to `start`, `ContainsKeyRange(start,
end)` equals `ContainsKey(start)`; if `end` is not empty and `end < start` it is
false; if `start < end` it is true iff every key `k` with `start <= k < end`
satisfies `ContainsKey(k)`; and `ContainsKey(k)` holds iff
`rs.Key <= k < rs.EndKey`. -/
theorem C23_containsKeyRange (rs : RSpan) (start end_ : List Byte) :
    ((end_ = [] ∨ end_ = start) → rs.ContainsKeyRange start end_ = rs.ContainsKey start) ∧
    (end_ ≠ [] → bytesCompare end_ start < 0 → rs.ContainsKeyRange start end_ = false) ∧
    (bytesCompare start end_ < 0 →
      (rs.ContainsKeyRange start end_ = true ↔
        ∀ k, bytesCompare start k ≤ 0 → bytesCompare k end_ < 0 → rs.ContainsKey k = true)) ∧
    (∀ k, rs.ContainsKey k = true ↔ bytesCompare rs.Key k ≤ 0 ∧ bytesCompare k rs.EndKey < 0) :=
  ContainsKeyRange_cases rs start end_

theorem C23_containsKeyRange_witness :
    (RSpan.mk [97] [99]).ContainsKeyRange [97] [98] = true ∧
    (RSpan.mk [97] [99]).ContainsKey [98] = true ∧
    (RSpan.mk [97] [99]).ContainsKey [99] = false ∧
    (RSpan.mk [97] [99]).ContainsKeyRange [98] [97] = false ∧
    (∀ k, bytesCompare [97] k ≤ 0 → bytesCompare k [98] < 0 →
      (RSpan.mk [97] [99]).ContainsKey k = true) :=
  ⟨by decide, by decide, by decide,
    (C23_containsKeyRange (RSpan.mk [97] [99]) [98] [97]).2.1 (by decide) (by decide),
    ((C23_containsKeyRange (RSpan.mk [97] [99]) [97] [98]).2.2.1 (by decide)).1 (by decide)⟩

/-- C24: whenever `rs.Intersect(desc)` succeeds, the returned span has
`Key = max(rs.Key, desc.StartKey)` and `EndKey = min(rs.EndKey, desc.EndKey)`;
its end key is not empty and not greater than `desc.EndKey`, its start key is
not less than `desc.StartKey`, and a key lies in the result iff it lies in both
`rs` and the descriptor's range. -/
theorem C24_intersect_result (rs : RSpan) (desc : RangeDescriptor)
    (h : (rs.Intersect desc).2 = none) :
    (rs.Intersect desc).1.Key = maxKey rs.Key desc.StartKey ∧
    (rs.Intersect desc).1.EndKey = minKey rs.EndKey desc.EndKey ∧
    (rs.Intersect desc).1.EndKey ≠ [] ∧
    bytesCompare (rs.Intersect desc).1.EndKey desc.EndKey ≤ 0 ∧
    bytesCompare desc.StartKey (rs.Intersect desc).1.Key ≤ 0 ∧
    ∀ k, (rs.Intersect desc).1.ContainsKey k = true ↔
      rs.ContainsKey k = true ∧ desc.specContains k = true :=
  Intersect_result rs desc h

theorem C24_intersect_result_witness :
    ((RSpan.mk [97] [100]).Intersect ⟨[98], [99]⟩).2 = none ∧
    (RSpan.mk [97] [100]).Intersect ⟨[98], [99]⟩ = (RSpan.mk [98] [99], none) ∧
    ((RSpan.mk [97] [100]).Intersect ⟨[98], [99]⟩).1.Key = maxKey [97] [98] ∧
    ((RSpan.mk [97] [100]).Intersect ⟨[98], [99]⟩).1.EndKey = minKey [100] [99] :=
  ⟨by decide, by decide,
    (C24_intersect_result (RSpan.mk [97] [100]) ⟨[98], [99]⟩ (by decide)).1,
    (C24_intersect_result (RSpan.mk [97] [100]) ⟨[98], [99]⟩ (by decide)).2.1⟩

/-- C25 (failing input): the span with `Key = "b"` and a nil `EndKey`, the
single key `"b"`, shares `"b"` with the descriptor's range `["a", "c")`, yet
`Intersect` returns the error and the span unchanged: `desc.StartKey.Less(nil)`
is false, so the first test returns before the `endKey == nil` branch, which
would have supplied an end key, is reached. -/
theorem C25_single_key_span_errors :
    bytesCompare [97] [99] < 0 ∧
    (RSpan.mk [98] []).specContains [98] = true ∧
    (RangeDescriptor.mk [97] [99]).specContains [98] = true ∧
    RKey.Less (asSlice [97]) (asSlice []) = false ∧
    (RSpan.mk [98] []).Intersect ⟨[97], [99]⟩ = (RSpan.mk [98] [], some .noOverlap) := by
  decide

/-! ## PeekValueLength -/

theorem PutUvarint_length_le : ∀ (k x : Nat), x < 2 ^ (7 * (k + 1)) →
    (PutUvarint x).length ≤ k + 1
  | 0, x, hx => by
    rw [PutUvarint, if_neg (by norm_num at hx; omega)]
    simp
  | k + 1, x, hx => by
    rw [PutUvarint]
    split_ifs with h
    · have hlt : x >>> 7 < 2 ^ (7 * (k + 1)) := by
        rw [Nat.shiftRight_eq_div_pow]
        have hp : (2:Nat) ^ (7 * (k + 1 + 1)) = 2 ^ (7 * (k + 1)) * 2 ^ 7 := by
          rw [← Nat.pow_add]
          congr 1
        rw [hp] at hx
        exact Nat.div_lt_of_lt_mul (by rw [Nat.mul_comm]; exact hx)
      have := PutUvarint_length_le k (x >>> 7) hlt
      simp only [List.length_cons]
      omega
    · simp

theorem PutVarint_length_le (x : Int) : (PutVarint x).length ≤ 10 := by
  rw [PutVarint_eq]
  refine PutUvarint_length_le 9 _ (lt_trans (zigzag_lt x) (by norm_num))

theorem PeekValueLength_int (g : List Byte → Int → Res Int) (i : Int)
    (h1 : -2 ^ 63 ≤ i) (h2 : i < 2 ^ 63) (r : List Byte) :
    PeekValueLength g (EncodeIntValue [] i ++ r) = .ok ((EncodeIntValue [] i).length : Int) ∧
    (EncodeIntValue [] i).length = 1 + (PutVarint i).length := by
  have hp := PutVarint_length_pos i
  have hl := PutVarint_length_le i
  have hlen : (EncodeIntValue [] i).length = 1 + (PutVarint i).length := by
    simp [EncodeIntValue, encodeGoVarint]
    omega
  refine ⟨?_, hlen⟩
  rw [hlen]
  simp only [EncodeIntValue, encodeGoVarint, List.nil_append, List.singleton_append,
    List.cons_append, PeekValueLength]
  rw [if_neg (by decide), if_pos (by decide)]
  simp only [getGoVarintLen, Varint_PutVarint i h1 h2 r]
  rw [if_neg (by omega)]
  simp only
  rw [wrapInt64_of_inRange _ (by omega) (by omega)]
  push_cast
  rfl

theorem PeekValueLength_delimited_bytes (g : List Byte → Int → Res Int) (data r : List Byte)
    (hlen : ((EncodeBytesValue [] data true ++ r).length : Int) ≤ MaxInt64) :
    PeekValueLength g (EncodeBytesValue [] data true ++ r)
      = .ok ((EncodeBytesValue [] data true).length : Int) := by
  have hp := PutVarint_length_pos (data.length : Int)
  have hl := PutVarint_length_le (data.length : Int)
  have henc : EncodeBytesValue [] data true ++ r
      = byte ValueType_DELIMITED_BYTES
          :: (PutVarint (data.length : Int) ++ (data ++ r)) := by
    simp [EncodeBytesValue, encodeGoVarint]
  have hlen2 : (EncodeBytesValue [] data true).length
      = 1 + (PutVarint (data.length : Int)).length + data.length := by
    simp [EncodeBytesValue, encodeGoVarint]
    omega
  rw [henc] at hlen
  simp only [List.length_cons, List.length_append, MaxInt64] at hlen
  rw [henc, hlen2]
  simp only [PeekValueLength]
  rw [if_neg (by decide), if_neg (by decide), if_neg (by decide), if_pos (by decide)]
  simp only [getGoVarintLen, Varint_PutVarint _ (show -2 ^ 63 ≤ (data.length : Int) by omega)
    (show (data.length : Int) < 2 ^ 63 by omega) (data ++ r)]
  rw [if_neg (by omega)]
  simp only
  rw [wrapInt64_of_inRange (1 + ((PutVarint (data.length : Int)).length : Int))
    (by omega) (by omega), wrapInt64_of_inRange _ (by omega) (by omega)]
  push_cast
  rfl

theorem PeekValueLength_float (g : List Byte → Int → Res Int) (f : Nat) (r : List Byte) :
    PeekValueLength g (EncodeFloatValue [] f ++ r) = .ok ((EncodeFloatValue [] f).length : Int) ∧
    (EncodeFloatValue [] f).length = 9 := by
  have hlen : (EncodeFloatValue [] f).length = 9 := by
    simp [EncodeFloatValue, EncodeUint64Ascending]
  refine ⟨?_, hlen⟩
  rw [hlen]
  simp only [EncodeFloatValue, EncodeUint64Ascending, List.nil_append, List.singleton_append,
    List.cons_append, PeekValueLength]
  rw [if_neg (by decide), if_neg (by decide), if_pos (by decide)]
  rfl

/-- C26: `PeekValueLength` returns the exact encoded length of a self-delimiting
value at the head of a buffer: for every int64 `i`, byte sequence `data`, float
bit pattern `f` and tail `r`, it returns `(len(E), nil)` on `E ++ r` for
`E = EncodeIntValue(nil, i)` (1 + the varint length), for
`E = EncodeBytesValue(nil, data, true)` and for `E = EncodeFloatValue(nil, f)`
(that is 9); the buffer's length is an `int`. -/
theorem C26_peekValueLength_exact (g : List Byte → Int → Res Int) (i : Int)
    (h1 : -MaxInt64 - 1 ≤ i) (h2 : i ≤ MaxInt64) (data : List Byte) (f : Nat) (r : List Byte)
    (hlen : ((EncodeBytesValue [] data true ++ r).length : Int) ≤ MaxInt64) :
    PeekValueLength g (EncodeIntValue [] i ++ r) = .ok ((EncodeIntValue [] i).length : Int) ∧
    (EncodeIntValue [] i).length = 1 + (PutVarint i).length ∧
    PeekValueLength g (EncodeBytesValue [] data true ++ r)
      = .ok ((EncodeBytesValue [] data true).length : Int) ∧
    PeekValueLength g (EncodeFloatValue [] f ++ r) = .ok ((EncodeFloatValue [] f).length : Int) ∧
    (EncodeFloatValue [] f).length = 9 := by
  simp only [MaxInt64] at h1 h2
  exact ⟨(PeekValueLength_int g i (by omega) (by omega) r).1,
    (PeekValueLength_int g i (by omega) (by omega) r).2,
    PeekValueLength_delimited_bytes g data r hlen,
    (PeekValueLength_float g f r).1, (PeekValueLength_float g f r).2⟩

theorem C26_peekValueLength_exact_witness :
    (-MaxInt64 - 1 ≤ 42 ∧ (42 : Int) ≤ MaxInt64) ∧
    (((EncodeBytesValue [] [1, 2, 3] true ++ [7, 7]).length : Int) ≤ MaxInt64) ∧
    PeekValueLength (fun _ _ => .panic) (EncodeIntValue [] 42 ++ [7, 7])
      = .ok ((EncodeIntValue [] 42).length : Int) ∧
    PeekValueLength (fun _ _ => .panic) (EncodeBytesValue [] [1, 2, 3] true ++ [7, 7])
      = .ok ((EncodeBytesValue [] [1, 2, 3] true).length : Int) :=
  ⟨by decide, by simp [EncodeBytesValue, encodeGoVarint, PutVarint, PutUvarint, byte, MaxInt64],
    (C26_peekValueLength_exact (fun _ _ => .panic) 42 (by decide) (by decide) [1, 2, 3] 0 [7, 7]
      (by simp [EncodeBytesValue, encodeGoVarint, PutVarint, PutUvarint, byte, MaxInt64])).1,
    (C26_peekValueLength_exact (fun _ _ => .panic) 42 (by decide) (by decide) [1, 2, 3] 0 [7, 7]
      (by simp [EncodeBytesValue, encodeGoVarint, PutVarint, PutUvarint, byte, MaxInt64])).2.2.1⟩

/-! ## Value setters and the checksum life cycle -/

theorem setter_layout (v : Value) (i : Int) (b : List Byte) :
    ((v.SetInt i).RawBytes = [0, 0, 0, 0] ++ EncodeIntValue [] i ∧
      (v.SetBytes b).RawBytes = [0, 0, 0, 0] ++ (byte ValueType_BYTES :: b) ∧
      (v.SetString b).RawBytes = [0, 0, 0, 0] ++ (byte ValueType_BYTES :: b)) ∧
    ((v.SetInt i).checksum = .ok 0 ∧ (v.SetBytes b).checksum = .ok 0 ∧
      (v.SetString b).checksum = .ok 0) ∧
    ((v.SetInt i).RawBytes.getD 4 0 = byte ValueType_INT ∧
      (v.SetInt i).GetTag = ValueType_INT ∧
      (v.SetBytes b).RawBytes.getD 4 0 = byte ValueType_BYTES ∧
      (v.SetBytes b).GetTag = ValueType_BYTES ∧
      (v.SetString b).RawBytes.getD 4 0 = byte ValueType_BYTES ∧
      (v.SetString b).GetTag = ValueType_BYTES) ∧
    ((v.SetInt i).Timestamp = v.Timestamp ∧ (v.SetBytes b).Timestamp = v.Timestamp ∧
      (v.SetString b).Timestamp = v.Timestamp) := by
  have hi : v.SetInt i = Value.mk (0 :: 0 :: 0 :: 0 :: byte ValueType_INT :: PutVarint i)
      v.Timestamp := by
    simp [Value.SetInt, EncodeIntValue, encodeGoVarint, checksumSize, List.replicate]
  have hb : v.SetBytes b = Value.mk (0 :: 0 :: 0 :: 0 :: byte ValueType_BYTES :: b)
      v.Timestamp := by
    simp [Value.SetBytes, EncodeBytesValue, checksumSize, List.replicate]
  have hs : v.SetString b = Value.mk (0 :: 0 :: 0 :: 0 :: byte ValueType_BYTES :: b)
      v.Timestamp := by
    simp [Value.SetString, EncodeBytesValue, checksumSize, List.replicate]
  have hz : be32 0 0 0 0 = 0 := by decide
  rw [hi, hb, hs]
  refine ⟨⟨?_, rfl, rfl⟩, ⟨?_, ?_, ?_⟩, ⟨rfl, ?_, rfl, ?_, rfl, ?_⟩, ⟨rfl, rfl, rfl⟩⟩
  · simp [EncodeIntValue, encodeGoVarint]
  · rw [checksum_cons, hz]
  · rw [checksum_cons, hz]
  · rw [checksum_cons, hz]
  · simp [Value.GetTag, tagPos, checksumSize]
    rfl
  · simp [Value.GetTag, tagPos, checksumSize]
    rfl
  · simp [Value.GetTag, tagPos, checksumSize]
    rfl

theorem ClearChecksum_checksum (u : Value) : u.ClearChecksum.checksum = .ok 0 := by
  obtain ⟨bs, ts⟩ := u
  rcases bs with _ | ⟨b0, _ | ⟨b1, _ | ⟨b2, _ | ⟨b3, rest⟩⟩⟩⟩
  · exact checksum_short _ (by simp [Value.ClearChecksum, Value.setChecksum, checksumSize])
  · exact checksum_short _ (by simp [Value.ClearChecksum, Value.setChecksum, checksumSize])
  · exact checksum_short _ (by simp [Value.ClearChecksum, Value.setChecksum, checksumSize])
  · exact checksum_short _ (by simp [Value.ClearChecksum, Value.setChecksum, checksumSize])
  · have hset : (Value.mk (b0 :: b1 :: b2 :: b3 :: rest) ts).ClearChecksum
        = Value.mk (0 :: 0 :: 0 :: 0 :: rest) ts := by
      simp [Value.ClearChecksum, Value.setChecksum, checksumSize, EncodeUint32Ascending_nil]
      decide
    rw [hset, checksum_cons]
    rfl

theorem InitChecksum_twice (crc : List Byte → Nat) (v : Value) (k1 k2 : List Byte)
    (hlen : 5 ≤ v.RawBytes.length) (hz : v.checksum = .ok 0) :
    ∃ w, v.InitChecksum crc k1 = .ok w ∧ w.InitChecksum crc k2 = .panic ∧
      ∃ w2, w.ClearChecksum.InitChecksum crc k2 = .ok w2 := by
  obtain ⟨bs, ts⟩ := v
  rcases bs with _ | ⟨b0, _ | ⟨b1, _ | ⟨b2, _ | ⟨b3, _ | ⟨t, rest⟩⟩⟩⟩⟩
  · simp at hlen
  · simp at hlen
  · simp at hlen
  · simp at hlen
  · simp at hlen
  · have hc := computeChecksum_lt crc (Value.mk (b0 :: b1 :: b2 :: b3 :: t :: rest) ts) k1
    have hne := computeChecksum_ne_zero crc (Value.mk (b0 :: b1 :: b2 :: b3 :: t :: rest) ts) k1
      (by simp)
    generalize hcdef : (Value.mk (b0 :: b1 :: b2 :: b3 :: t :: rest) ts).computeChecksum crc k1
      = c at hc hne
    have hset : (Value.mk (b0 :: b1 :: b2 :: b3 :: t :: rest) ts).setChecksum c
        = Value.mk (byte (c >>> 24) :: byte (c >>> 16) :: byte (c >>> 8) :: byte c :: t :: rest)
            ts := by
      simp [Value.setChecksum, checksumSize, EncodeUint32Ascending_nil]
    have hclear : (Value.mk (byte (c >>> 24) :: byte (c >>> 16) :: byte (c >>> 8) :: byte c
        :: t :: rest) ts).ClearChecksum = Value.mk (0 :: 0 :: 0 :: 0 :: t :: rest) ts := by
      simp [Value.ClearChecksum, Value.setChecksum, checksumSize, EncodeUint32Ascending_nil]
      decide
    have hz0 : be32 0 0 0 0 = 0 := by decide
    refine ⟨Value.mk (byte (c >>> 24) :: byte (c >>> 16) :: byte (c >>> 8) :: byte c
        :: t :: rest) ts, ?_, ?_, ?_⟩
    · unfold Value.InitChecksum
      rw [if_neg (by simp), hz]
      simp only [checksumUninitialized, ne_eq, not_true_eq_false, if_false, hcdef, hset]
    · unfold Value.InitChecksum
      rw [if_neg (by simp), checksum_cons, be32_encode c hc]
      simp only [checksumUninitialized]
      rw [if_pos hne]
    · rw [hclear]
      unfold Value.InitChecksum
      rw [if_neg (by simp), checksum_cons, hz0]
      simp only [checksumUninitialized, ne_eq, not_true_eq_false, if_false]
      exact ⟨_, rfl⟩

/-- C27: binary layout after a constructor: for every `Value` v, whatever its
previous `RawBytes` and checksum, after `v.SetInt(i)` `RawBytes` is four zero
bytes followed by `EncodeIntValue(nil, i)`, and after `v.SetBytes(b)` or
`SetString` it is four zero bytes followed by the BYTES tag and `b`; the stored
checksum is 0, byte 4 is the type tag returned by `GetTag`, and `v.Timestamp` is
unchanged. -/
theorem C27_setter_layout (v : Value) (i : Int) (b : List Byte) :
    ((v.SetInt i).RawBytes = [0, 0, 0, 0] ++ EncodeIntValue [] i ∧
      (v.SetBytes b).RawBytes = [0, 0, 0, 0] ++ (byte ValueType_BYTES :: b) ∧
      (v.SetString b).RawBytes = [0, 0, 0, 0] ++ (byte ValueType_BYTES :: b)) ∧
    ((v.SetInt i).checksum = .ok 0 ∧ (v.SetBytes b).checksum = .ok 0 ∧
      (v.SetString b).checksum = .ok 0) ∧
    ((v.SetInt i).RawBytes.getD 4 0 = byte ValueType_INT ∧
      (v.SetInt i).GetTag = ValueType_INT ∧
      (v.SetBytes b).RawBytes.getD 4 0 = byte ValueType_BYTES ∧
      (v.SetBytes b).GetTag = ValueType_BYTES ∧
      (v.SetString b).RawBytes.getD 4 0 = byte ValueType_BYTES ∧
      (v.SetString b).GetTag = ValueType_BYTES) ∧
    ((v.SetInt i).Timestamp = v.Timestamp ∧ (v.SetBytes b).Timestamp = v.Timestamp ∧
      (v.SetString b).Timestamp = v.Timestamp) :=
  setter_layout v i b

/-- C28: for every `Value` with at least 5 bytes of `RawBytes` and an unset
checksum, and all keys `k1`, `k2`: `InitChecksum(k1)` completes, a second
`InitChecksum(k2)` right after it panics, `InitChecksum(k1); ClearChecksum();
InitChecksum(k2)` completes, and `ClearChecksum` leaves the stored checksum of
any value equal to 0. -/
theorem C28_initChecksum_twice_panics (crc : List Byte → Nat) (v : Value) (k1 k2 : List Byte)
    (hlen : 5 ≤ v.RawBytes.length) (hz : v.checksum = .ok 0) :
    (∃ w, v.InitChecksum crc k1 = .ok w ∧ w.InitChecksum crc k2 = .panic ∧
      ∃ w2, w.ClearChecksum.InitChecksum crc k2 = .ok w2) ∧
    ∀ u : Value, u.ClearChecksum.checksum = .ok 0 :=
  ⟨InitChecksum_twice crc v k1 k2 hlen hz, ClearChecksum_checksum⟩

theorem C28_initChecksum_twice_panics_witness :
    5 ≤ (Value.mk [0, 0, 0, 0, 3, 9] ⟨0, 0⟩).RawBytes.length ∧
    (Value.mk [0, 0, 0, 0, 3, 9] ⟨0, 0⟩).checksum = .ok 0 ∧
    ∃ w, (Value.mk [0, 0, 0, 0, 3, 9] ⟨0, 0⟩).InitChecksum (fun l => l.length) [1] = .ok w ∧
      w.InitChecksum (fun l => l.length) [2] = .panic ∧
      ∃ w2, w.ClearChecksum.InitChecksum (fun l => l.length) [2] = .ok w2 :=
  ⟨by decide, by decide,
    (C28_initChecksum_twice_panics (fun l => l.length) (Value.mk [0, 0, 0, 0, 3, 9] ⟨0, 0⟩)
      [1] [2] (by decide) (by decide)).1⟩

/-! ## PrefixEnd -/

theorem getD_append_cons (p : List Byte) (x : Byte) (zs : List Byte) :
    (p ++ x :: zs).getD p.length 0 = x := by
  induction p with
  | nil => rfl
  | cons c p ih => exact ih

theorem set_append_cons (p : List Byte) (x c : Byte) (zs : List Byte) :
    (p ++ x :: zs).set p.length c = p ++ c :: zs := by
  induction p with
  | nil => rfl
  | cons d p ih =>
    show d :: ((p ++ x :: zs).set p.length c) = _
    rw [ih]
    rfl

theorem prefixEndLoop_all_ff : ∀ (n : Nat) (e : List Byte),
    (∀ j, j < n → e.getD j 0 = 0xff) → prefixEndLoop e n = none
  | 0, _, _ => rfl
  | n + 1, e, h => by
    have hn : e.getD n 0 = 0xff := h n (Nat.lt_succ_self n)
    have hb : byte ((e.getD n 0).val + 1) = 0 := by rw [hn]; decide
    unfold prefixEndLoop
    simp only [hb]
    have hz : (e.set n 0).getD n 0 = 0 := by
      by_cases hlt : n < e.length
      · simp [List.getD_eq_getElem?_getD, List.getElem?_set, hlt]
      · simp [List.getD_eq_getElem?_getD, List.getElem?_set, hlt]
    rw [if_neg (not_not.2 hz)]
    refine prefixEndLoop_all_ff n _ (fun j hj => ?_)
    have := h j (Nat.lt_succ_of_lt hj)
    have hne : n ≠ j := by omega
    simpa [List.getD_eq_getElem?_getD, List.getElem?_set, hne] using this

theorem PrefixEnd_edge_cases (k : Slice) :
    (k.elems = [] → Key.PrefixEnd k = KeyMax ∧ RKey.PrefixEnd k = KeyMax ∧
      KeyMax.elems = [0xff, 0xff]) ∧
    (k.elems ≠ [] → (∀ x ∈ k.elems, x = 0xff) →
      Key.PrefixEnd k = k ∧ RKey.PrefixEnd k = k) := by
  constructor
  · intro h
    simp [Key.PrefixEnd, RKey.PrefixEnd, Slice.len, h, KeyMax, RKeyMax]
  · intro hne hall
    have hlen : k.len ≠ 0 := by
      simpa [Slice.len] using hne
    have hloop : prefixEndLoop k.elems k.len = none := by
      refine prefixEndLoop_all_ff _ _ (fun j hj => ?_)
      have hj2 : j < k.elems.length := hj
      rw [List.getD_eq_getElem _ _ hj2]
      exact hall _ (List.getElem_mem hj2)
    simp [Key.PrefixEnd, RKey.PrefixEnd, hlen, bytesPrefixEnd, hloop]

/-- The loop of `bytesPrefixEnd` on a key whose last byte other than `0xff` is
`x`: `x` is incremented and the `0xff` bytes after it become `0x00`; they are
not cut off. -/
theorem prefixEndLoop_carry (p : List Byte) (x : Byte) (hx : x ≠ 0xff) :
    ∀ (n : Nat) (zs : List Byte),
      prefixEndLoop (p ++ x :: (List.replicate n 0xff ++ zs)) (p.length + 1 + n)
        = some (p ++ byte (x.val + 1) :: (List.replicate n 0 ++ zs))
  | 0, zs => by
    have hx1 : byte (x.val + 1) ≠ 0 := by
      intro h
      have h2 := congrArg Fin.val h
      rw [byte_val] at h2
      have h3 := x.isLt
      have h4 : x.val ≠ 255 := fun h => hx (Fin.ext h)
      simp at h2
      omega
    show prefixEndLoop (p ++ x :: zs) (p.length + 1) = _
    unfold prefixEndLoop
    simp only [getD_append_cons, set_append_cons]
    rw [if_pos hx1]
    rfl
  | n + 1, zs => by
    have hrep : ∀ (c : Byte) (l : List Byte),
        List.replicate (n + 1) c ++ l = List.replicate n c ++ c :: l := by
      intro c l
      rw [List.replicate_succ', List.append_assoc]
      rfl
    have hidx : p.length + 1 + n = (p ++ x :: List.replicate n 0xff).length := by
      simp
      omega
    have hsplit : p ++ x :: (List.replicate n 0xff ++ 0xff :: zs)
        = (p ++ x :: List.replicate n 0xff) ++ 0xff :: zs := by simp
    rw [hrep, hrep]
    show prefixEndLoop _ (p.length + 1 + n + 1) = _
    unfold prefixEndLoop
    have hget : (p ++ x :: (List.replicate n 0xff ++ 0xff :: zs)).getD (p.length + 1 + n) 0
        = 0xff := by
      rw [hsplit, hidx, getD_append_cons]
    have hb : byte ((0xff : Byte).val + 1) = 0 := by decide
    have hset : (p ++ x :: (List.replicate n 0xff ++ 0xff :: zs)).set (p.length + 1 + n) 0
        = p ++ x :: (List.replicate n 0xff ++ 0 :: zs) := by
      rw [hsplit, hidx, set_append_cons]
      simp
    simp only [hget, hb, hset]
    have hget2 : (p ++ x :: (List.replicate n 0xff ++ 0 :: zs)).getD (p.length + 1 + n) 0
        = 0 := by
      have hsplit2 : p ++ x :: (List.replicate n 0xff ++ 0 :: zs)
          = (p ++ x :: List.replicate n 0xff) ++ 0 :: zs := by simp
      rw [hsplit2, hidx, getD_append_cons]
    rw [if_neg (not_not.2 hget2)]
    exact prefixEndLoop_carry p x hx n (0 :: zs)

/-- A key with a byte other than `0xff` ends in its last such byte followed by a
run of `0xff`. -/
theorem exists_last_non_ff : ∀ (k : List Byte), (∃ y ∈ k, y ≠ 0xff) →
    ∃ (p : List Byte) (x : Byte) (n : Nat), x ≠ 0xff ∧ k = p ++ x :: List.replicate n 0xff := by
  intro k
  induction k using List.reverseRecOn with
  | nil => rintro ⟨y, hy, _⟩; exact absurd hy (List.not_mem_nil _)
  | append_singleton init last ih =>
    rintro ⟨y, hy, hne⟩
    by_cases hl : last = 0xff
    · have hy2 : y ∈ init := by
        rcases List.mem_append.1 hy with h | h
        · exact h
        · rw [List.mem_singleton] at h
          exact absurd (h.trans hl) hne
      obtain ⟨p, x, n, hx, hk⟩ := ih ⟨y, hy2, hne⟩
      refine ⟨p, x, n + 1, hx, ?_⟩
      rw [hk, hl, List.replicate_succ']
      simp
    · exact ⟨init, last, 0, hl, by simp⟩

theorem bytesCompare_append_left (p : List Byte) (a b : List Byte) :
    bytesCompare (p ++ a) (p ++ b) = bytesCompare a b := by
  induction p with
  | nil => rfl
  | cons c p ih =>
    show bytesCompare (c :: (p ++ a)) (c :: (p ++ b)) = _
    rw [bytesCompare, if_neg (lt_irrefl c), if_neg (lt_irrefl c), ih]

/-- What `PrefixEnd` does guarantee: every sequence with prefix `k` sorts
strictly before `PrefixEnd(k)`, for `k` with a byte other than `0xff`. -/
theorem PrefixEnd_upper_bound (k : Slice) (hk : ∃ y ∈ k.elems, y ≠ 0xff) (r : List Byte) :
    bytesCompare (k.elems ++ r) (Key.PrefixEnd k).elems < 0 := by
  obtain ⟨p, x, n, hx, hkp⟩ := exists_last_non_ff k.elems hk
  have hlen : k.len = p.length + 1 + n := by
    simp [Slice.len, hkp]
    omega
  have hne : k.len ≠ 0 := by omega
  have hloop := prefixEndLoop_carry p x hx n []
  simp only [List.append_nil] at hloop
  have hpe : (Key.PrefixEnd k).elems = p ++ byte (x.val + 1) :: List.replicate n 0 := by
    simp [Key.PrefixEnd, hne, bytesPrefixEnd, hlen, hkp, hloop]
  rw [hpe, hkp, List.append_assoc, bytesCompare_append_left]
  show bytesCompare (x :: _) (byte (x.val + 1) :: _) < 0
  have hlt : x < byte (x.val + 1) := by
    rw [Fin.lt_def, byte_val]
    have h3 := x.isLt
    have h4 : x.val ≠ 255 := fun h => hx (Fin.ext h)
    omega
  rw [bytesCompare, if_pos hlt]
  decide

/-- C21 (failing input): for `k = [0x01, 0xff]` the code returns `[0x02, 0x00]`,
not `[0x02]`: `m = [0x02]` satisfies `k <= m < PrefixEnd(k)` and does not have
`k` as a prefix, so `PrefixEnd(k)` is not the least sequence sorting after all
sequences prefixed by `k`. -/
theorem C21_prefixEnd_not_least :
    Key.PrefixEnd ⟨[0x01, 0xff], []⟩ = ⟨[0x02, 0x00], []⟩ ∧
    bytesCompare [0x01, 0xff] [0x02] ≤ 0 ∧
    bytesCompare [0x02] (Key.PrefixEnd ⟨[0x01, 0xff], []⟩).elems < 0 ∧
    ¬ ([0x01, 0xff] <+: ([0x02] : List Byte)) := by
  decide

/-- C29: for the empty (or nil) key, `Key.PrefixEnd` and `RKey.PrefixEnd` return
the maximum sentinel `KeyMax = [0xff, 0xff]`; for every non-empty key `k` of
`0xff` bytes only, `PrefixEnd(k)` returns `k` unchanged. -/
theorem C29_prefixEnd_edge_cases (k : Slice) :
    (k.elems = [] → Key.PrefixEnd k = KeyMax ∧ RKey.PrefixEnd k = KeyMax ∧
      KeyMax.elems = [0xff, 0xff]) ∧
    (k.elems ≠ [] → (∀ x ∈ k.elems, x = 0xff) →
      Key.PrefixEnd k = k ∧ RKey.PrefixEnd k = k) :=
  PrefixEnd_edge_cases k

theorem C29_prefixEnd_edge_cases_witness :
    (Key.PrefixEnd ⟨[], [7]⟩ = KeyMax ∧ RKey.PrefixEnd ⟨[], [7]⟩ = KeyMax ∧
      KeyMax.elems = [0xff, 0xff]) ∧
    (Key.PrefixEnd ⟨[0xff, 0xff, 0xff], [7]⟩ = ⟨[0xff, 0xff, 0xff], [7]⟩ ∧
      RKey.PrefixEnd ⟨[0xff, 0xff, 0xff], [7]⟩ = ⟨[0xff, 0xff, 0xff], [7]⟩) :=
  ⟨(C29_prefixEnd_edge_cases ⟨[], [7]⟩).1 rfl,
    (C29_prefixEnd_edge_cases ⟨[0xff, 0xff, 0xff], [7]⟩).2 (by simp) (by simp)⟩

/-! ## Idempotence of Update -/

theorem UpdateObservedTimestamp_observe (t : Transaction) (k : NodeID) (v : Timestamp) :
    t.UpdateObservedTimestamp k v
      = { t with ObservedTimestamps := observe t.ObservedTimestamps k v } := by
  unfold Transaction.UpdateObservedTimestamp observe
  split
  · rfl
  · split_ifs <;> rfl

theorem foldl_UpdateObservedTimestamp_observeAll (es : ObservedMap) :
    ∀ t : Transaction,
      es.foldl (fun t e => t.UpdateObservedTimestamp e.1 e.2) t
        = { t with ObservedTimestamps := observeAll t.ObservedTimestamps es } := by
  induction es with
  | nil => intro t; rfl
  | cons e es ih =>
    intro t
    rw [List.foldl_cons, ih, UpdateObservedTimestamp_observe]
    rfl

/-- What `Update` leaves in the receiver when its ID is set and `o` is not nil,
field by field. -/
theorem Update_eq (t o : Transaction) (hid : t.ID ≠ none) :
    t.Update (some o) =
      { t with
        Key := (if t.Key.length = 0 then o.Key else t.Key),
        Status := (if o.Status ≠ .PENDING then o.Status else t.Status),
        LastHeartbeat := forwardHeartbeat t.LastHeartbeat o.LastHeartbeat,
        ObservedTimestamps := observeAll t.ObservedTimestamps o.ObservedTimestamps,
        Intents := (if o.Intents.length > 0 then o.Intents else t.Intents),
        Epoch := max t.Epoch o.Epoch,
        Timestamp := t.Timestamp.Forward o.Timestamp,
        OrigTimestamp := t.OrigTimestamp.Forward o.OrigTimestamp,
        MaxTimestamp := t.MaxTimestamp.Forward o.MaxTimestamp,
        Priority := max t.Priority o.Priority,
        Sequence := max t.Sequence o.Sequence,
        Writing := (t.Writing || o.Writing),
        WriteTooOld := o.WriteTooOld,
        RetryOnPush := o.RetryOnPush } := by
  unfold Transaction.Update
  simp -zeta only [hid, if_false]
  lift_lets
  intro t1 t2 t3 t4 t5 t6 th t7 t8 t9 t10 t11 t12 t13
  have ht1 : t1 =
      { t with
        Key := (if t.Key.length = 0 then o.Key else t.Key) } := by
    simp only [t1]
    split_ifs <;> rfl
  clear_value t1
  subst ht1
  have ht2 : t2 =
      { t with
        Key := (if t.Key.length = 0 then o.Key else t.Key),
        Status := (if o.Status ≠ .PENDING then o.Status else t.Status) } := by
    simp only [t2]
    split_ifs <;> rfl
  clear_value t2
  subst ht2
  have ht3 : t3 =
      { t with
        Key := (if t.Key.length = 0 then o.Key else t.Key),
        Status := (if o.Status ≠ .PENDING then o.Status else t.Status),
        Epoch := max t.Epoch o.Epoch } := by
    simp only [t3]
    by_cases h : t.Epoch < o.Epoch
    · rw [if_pos h, max_eq_right (le_of_lt h)]
    · rw [if_neg h, max_eq_left (not_lt.1 h)]
  clear_value t3
  subst ht3
  have ht4 : t4 =
      { t with
        Key := (if t.Key.length = 0 then o.Key else t.Key),
        Status := (if o.Status ≠ .PENDING then o.Status else t.Status),
        Epoch := max t.Epoch o.Epoch,
        Timestamp := t.Timestamp.Forward o.Timestamp } := by
    rfl
  clear_value t4
  subst ht4
  have ht5 : t5 =
      { t with
        Key := (if t.Key.length = 0 then o.Key else t.Key),
        Status := (if o.Status ≠ .PENDING then o.Status else t.Status),
        Epoch := max t.Epoch o.Epoch,
        Timestamp := t.Timestamp.Forward o.Timestamp,
        OrigTimestamp := t.OrigTimestamp.Forward o.OrigTimestamp } := by
    rfl
  clear_value t5
  subst ht5
  have ht6 : t6 =
      { t with
        Key := (if t.Key.length = 0 then o.Key else t.Key),
        Status := (if o.Status ≠ .PENDING then o.Status else t.Status),
        Epoch := max t.Epoch o.Epoch,
        Timestamp := t.Timestamp.Forward o.Timestamp,
        OrigTimestamp := t.OrigTimestamp.Forward o.OrigTimestamp,
        MaxTimestamp := t.MaxTimestamp.Forward o.MaxTimestamp } := by
    rfl
  clear_value t6
  subst ht6
  have ht7 : t7 =
      { t with
        Key := (if t.Key.length = 0 then o.Key else t.Key),
        Status := (if o.Status ≠ .PENDING then o.Status else t.Status),
        LastHeartbeat := forwardHeartbeat t.LastHeartbeat o.LastHeartbeat,
        Epoch := max t.Epoch o.Epoch,
        Timestamp := t.Timestamp.Forward o.Timestamp,
        OrigTimestamp := t.OrigTimestamp.Forward o.OrigTimestamp,
        MaxTimestamp := t.MaxTimestamp.Forward o.MaxTimestamp } := by
    simp only [t7, forwardHeartbeat]
    split <;> rfl
  clear_value t7
  subst ht7
  have ht8 : t8 =
      { t with
        Key := (if t.Key.length = 0 then o.Key else t.Key),
        Status := (if o.Status ≠ .PENDING then o.Status else t.Status),
        LastHeartbeat := forwardHeartbeat t.LastHeartbeat o.LastHeartbeat,
        ObservedTimestamps := observeAll t.ObservedTimestamps o.ObservedTimestamps,
        Epoch := max t.Epoch o.Epoch,
        Timestamp := t.Timestamp.Forward o.Timestamp,
        OrigTimestamp := t.OrigTimestamp.Forward o.OrigTimestamp,
        MaxTimestamp := t.MaxTimestamp.Forward o.MaxTimestamp } := by
    simp only [t8, foldl_UpdateObservedTimestamp_observeAll]
  clear_value t8
  subst ht8
  have ht9 : t9 =
      { t with
        Key := (if t.Key.length = 0 then o.Key else t.Key),
        Status := (if o.Status ≠ .PENDING then o.Status else t.Status),
        LastHeartbeat := forwardHeartbeat t.LastHeartbeat o.LastHeartbeat,
        ObservedTimestamps := observeAll t.ObservedTimestamps o.ObservedTimestamps,
        Epoch := max t.Epoch o.Epoch,
        Timestamp := t.Timestamp.Forward o.Timestamp,
        OrigTimestamp := t.OrigTimestamp.Forward o.OrigTimestamp,
        MaxTimestamp := t.MaxTimestamp.Forward o.MaxTimestamp,
        Priority := max t.Priority o.Priority } := by
    simp only [t9, UpgradePriority_eq]
  clear_value t9
  subst ht9
  have ht10 : t10 =
      { t with
        Key := (if t.Key.length = 0 then o.Key else t.Key),
        Status := (if o.Status ≠ .PENDING then o.Status else t.Status),
        LastHeartbeat := forwardHeartbeat t.LastHeartbeat o.LastHeartbeat,
        ObservedTimestamps := observeAll t.ObservedTimestamps o.ObservedTimestamps,
        Epoch := max t.Epoch o.Epoch,
        Timestamp := t.Timestamp.Forward o.Timestamp,
        OrigTimestamp := t.OrigTimestamp.Forward o.OrigTimestamp,
        MaxTimestamp := t.MaxTimestamp.Forward o.MaxTimestamp,
        Priority := max t.Priority o.Priority,
        Writing := (t.Writing || o.Writing) } := by
    rfl
  clear_value t10
  subst ht10
  have ht11 : t11 =
      { t with
        Key := (if t.Key.length = 0 then o.Key else t.Key),
        Status := (if o.Status ≠ .PENDING then o.Status else t.Status),
        LastHeartbeat := forwardHeartbeat t.LastHeartbeat o.LastHeartbeat,
        ObservedTimestamps := observeAll t.ObservedTimestamps o.ObservedTimestamps,
        Epoch := max t.Epoch o.Epoch,
        Timestamp := t.Timestamp.Forward o.Timestamp,
        OrigTimestamp := t.OrigTimestamp.Forward o.OrigTimestamp,
        MaxTimestamp := t.MaxTimestamp.Forward o.MaxTimestamp,
        Priority := max t.Priority o.Priority,
        Writing := (t.Writing || o.Writing),
        WriteTooOld := o.WriteTooOld } := by
    rfl
  clear_value t11
  subst ht11
  have ht12 : t12 =
      { t with
        Key := (if t.Key.length = 0 then o.Key else t.Key),
        Status := (if o.Status ≠ .PENDING then o.Status else t.Status),
        LastHeartbeat := forwardHeartbeat t.LastHeartbeat o.LastHeartbeat,
        ObservedTimestamps := observeAll t.ObservedTimestamps o.ObservedTimestamps,
        Epoch := max t.Epoch o.Epoch,
        Timestamp := t.Timestamp.Forward o.Timestamp,
        OrigTimestamp := t.OrigTimestamp.Forward o.OrigTimestamp,
        MaxTimestamp := t.MaxTimestamp.Forward o.MaxTimestamp,
        Priority := max t.Priority o.Priority,
        Writing := (t.Writing || o.Writing),
        WriteTooOld := o.WriteTooOld,
        RetryOnPush := o.RetryOnPush } := by
    rfl
  clear_value t12
  subst ht12
  have ht13 : t13 =
      { t with
        Key := (if t.Key.length = 0 then o.Key else t.Key),
        Status := (if o.Status ≠ .PENDING then o.Status else t.Status),
        LastHeartbeat := forwardHeartbeat t.LastHeartbeat o.LastHeartbeat,
        ObservedTimestamps := observeAll t.ObservedTimestamps o.ObservedTimestamps,
        Epoch := max t.Epoch o.Epoch,
        Timestamp := t.Timestamp.Forward o.Timestamp,
        OrigTimestamp := t.OrigTimestamp.Forward o.OrigTimestamp,
        MaxTimestamp := t.MaxTimestamp.Forward o.MaxTimestamp,
        Priority := max t.Priority o.Priority,
        Sequence := max t.Sequence o.Sequence,
        Writing := (t.Writing || o.Writing),
        WriteTooOld := o.WriteTooOld,
        RetryOnPush := o.RetryOnPush } := by
    simp only [t13]
    by_cases h : t.Sequence < o.Sequence
    · rw [if_pos h, max_eq_right (le_of_lt h)]
    · rw [if_neg h, max_eq_left (not_lt.1 h)]
  clear_value t13
  subst ht13
  split_ifs <;> rfl

theorem Less_irrefl (v : Timestamp) : v.Less v = false := by
  rw [Less_false_iff]
  omega

theorem Less_trans_false (v w ts : Timestamp) (h1 : v.Less ts = false)
    (h2 : w.Less ts = true) : v.Less w = false := by
  rw [Less_false_iff] at h1 ⊢
  rw [Less_iff] at h2
  omega

theorem Forward_idem (t s : Timestamp) : (t.Forward s).Forward s = t.Forward s := by
  have h := (Forward_Backward_spec t s).2.2.1
  generalize t.Forward s = u at h
  unfold Timestamp.Forward
  rw [if_neg (by simp [h])]

theorem Forward_self (t : Timestamp) : t.Forward t = t := by
  unfold Timestamp.Forward
  split_ifs <;> rfl

theorem forwardHeartbeat_idem (th oh : Option Timestamp) :
    forwardHeartbeat (forwardHeartbeat th oh) oh = forwardHeartbeat th oh := by
  cases oh with
  | none => rfl
  | some h =>
    simp only [forwardHeartbeat]
    rw [Forward_idem]

theorem forwardHeartbeat_self (oh : Option Timestamp) : forwardHeartbeat oh oh = oh := by
  cases oh with
  | none => rfl
  | some h =>
    simp only [forwardHeartbeat]
    rw [Forward_self]

/-- An entry `(k, v)` is settled in `m` when `m` holds for `k` a timestamp that
`v` is not below: observing it changes nothing. -/
theorem observe_of_settled (m : ObservedMap) (k : NodeID) (v ts : Timestamp)
    (h1 : mapLookup m k = some ts) (h2 : v.Less ts = false) : observe m k v = m := by
  unfold observe
  rw [h1]
  simp only
  rw [if_neg (by simp [h2])]

theorem settled_after_observe (m : ObservedMap) (k : NodeID) (v : Timestamp) :
    ∃ ts, mapLookup (observe m k v) k = some ts ∧ v.Less ts = false := by
  unfold observe
  cases hl : mapLookup m k with
  | none => exact ⟨v, mapLookup_mapStore_same _ _ _, Less_irrefl v⟩
  | some ts =>
    simp only
    split_ifs with h
    · exact ⟨v, mapLookup_mapStore_same _ _ _, Less_irrefl v⟩
    · exact ⟨ts, hl, by simpa using h⟩

theorem settled_preserved (m : ObservedMap) (k : NodeID) (v : Timestamp) (k2 : NodeID)
    (v2 : Timestamp) (h : ∃ ts, mapLookup m k = some ts ∧ v.Less ts = false) :
    ∃ ts, mapLookup (observe m k2 v2) k = some ts ∧ v.Less ts = false := by
  obtain ⟨ts, h1, h2⟩ := h
  by_cases hk : k2 = k
  · subst hk
    unfold observe
    rw [h1]
    simp only
    split_ifs with hlt
    · exact ⟨v2, mapLookup_mapStore_same _ _ _, Less_trans_false v v2 ts h2 hlt⟩
    · exact ⟨ts, h1, h2⟩
  · refine ⟨ts, ?_, h2⟩
    unfold observe
    split
    · rw [mapLookup_mapStore_ne _ _ _ _ hk, h1]
    · split_ifs
      · rw [mapLookup_mapStore_ne _ _ _ _ hk, h1]
      · exact h1

theorem settled_preserved_all (es : ObservedMap) (k : NodeID) (v : Timestamp) :
    ∀ m : ObservedMap, (∃ ts, mapLookup m k = some ts ∧ v.Less ts = false) →
      ∃ ts, mapLookup (observeAll m es) k = some ts ∧ v.Less ts = false := by
  induction es with
  | nil => intro m h; exact h
  | cons e es ih =>
    intro m h
    exact ih _ (settled_preserved m k v e.1 e.2 h)

theorem settled_after_observeAll (es : ObservedMap) :
    ∀ m : ObservedMap, ∀ e ∈ es,
      ∃ ts, mapLookup (observeAll m es) e.1 = some ts ∧ e.2.Less ts = false := by
  induction es with
  | nil => intro m e he; exact absurd he (List.not_mem_nil _)
  | cons e0 es ih =>
    intro m e he
    rcases List.mem_cons.1 he with h | h
    · subst h
      exact settled_preserved_all es e.1 e.2 _ (settled_after_observe m e.1 e.2)
    · exact ih _ e h

theorem observeAll_of_settled (es : ObservedMap) (m : ObservedMap)
    (h : ∀ e ∈ es, ∃ ts, mapLookup m e.1 = some ts ∧ e.2.Less ts = false) :
    observeAll m es = m := by
  induction es with
  | nil => rfl
  | cons e es ih =>
    obtain ⟨ts, h1, h2⟩ := h e (List.mem_cons_self _ _)
    show observeAll (observe m e.1 e.2) es = m
    rw [observe_of_settled m e.1 e.2 ts h1 h2]
    exact ih (fun e2 he2 => h e2 (List.mem_cons_of_mem _ he2))

theorem observeAll_idem (m es : ObservedMap) :
    observeAll (observeAll m es) es = observeAll m es :=
  observeAll_of_settled es _ (settled_after_observeAll es m)

theorem mapLookup_of_mem_nodup (m : ObservedMap) (hnd : (m.map Prod.fst).Nodup) :
    ∀ e ∈ m, mapLookup m e.1 = some e.2 := by
  induction m with
  | nil => intro e he; exact absurd he (List.not_mem_nil _)
  | cons e0 m ih =>
    obtain ⟨k0, v0⟩ := e0
    rw [List.map_cons, List.nodup_cons] at hnd
    intro e he
    rcases List.mem_cons.1 he with h | h
    · subst h
      simp [mapLookup]
    · have hne : k0 ≠ e.1 := by
        intro heq
        exact hnd.1 (List.mem_map.2 ⟨e, h, heq.symm⟩)
      simp only [mapLookup]
      rw [if_neg hne]
      exact ih hnd.2 e h

theorem observeAll_self (m : ObservedMap) (hnd : (m.map Prod.fst).Nodup) :
    observeAll m m = m :=
  observeAll_of_settled m m
    (fun e he => ⟨e.2, mapLookup_of_mem_nodup m hnd e he, Less_irrefl e.2⟩)

/-- `Update` from `o` on a receiver that already is the result of `Update` from
`o`, when the receiver has an ID. -/
theorem Update_idem_of_ID_set (t o : Transaction) (hid : t.ID ≠ none) :
    (t.Update (some o)).Update (some o) = t.Update (some o) := by
  have hid2 : (t.Update (some o)).ID ≠ none := by
    rw [Update_eq t o hid]
    exact hid
  rw [Update_eq _ o hid2, Update_eq t o hid]
  simp only [Forward_idem, forwardHeartbeat_idem, observeAll_idem, max_assoc, max_self,
    Bool.or_assoc, Bool.or_self]
  congr 1
  · split_ifs <;> simp_all
  · split_ifs <;> simp_all
  · split_ifs <;> simp_all

/-- `Update` of a transaction with an ID from itself changes nothing (the keys
of its map being distinct). -/
theorem Update_self (o : Transaction) (hid : o.ID ≠ none)
    (hnd : (o.ObservedTimestamps.map Prod.fst).Nodup) : o.Update (some o) = o := by
  rw [Update_eq o o hid]
  simp only [Forward_self, forwardHeartbeat_self, observeAll_self _ hnd, max_self,
    Bool.or_self, ite_self]

theorem Update_idem (t : Transaction) (o : Option Transaction)
    (hnd : ∀ o2, o = some o2 → (o2.ObservedTimestamps.map Prod.fst).Nodup) :
    (t.Update o).Update o = t.Update o := by
  cases o with
  | none => rfl
  | some o2 =>
    by_cases hid : t.ID = none
    · have h1 : t.Update (some o2) = o2 := by
        unfold Transaction.Update
        simp only [hid, if_true]
        exact Clone_eq o2 (hnd o2 rfl)
      rw [h1]
      by_cases hid2 : o2.ID = none
      · unfold Transaction.Update
        simp only [hid2, if_true]
        exact Clone_eq o2 (hnd o2 rfl)
      · exact Update_self o2 hid2 (hnd o2 rfl)
    · exact Update_idem_of_ID_set t o2 hid

/-- C30: `Transaction.Update` is idempotent: for every transaction `t` (with or
without an ID) and every `o` (nil included; the keys of its observed-timestamp
map are distinct, as those of a Go map are), `t.Update(o)` applied twice leaves
`t` in the same state, every field included, as applied once. -/
theorem C30_update_idempotent (t : Transaction) (o : Option Transaction)
    (hnd : ∀ o2, o = some o2 → (o2.ObservedTimestamps.map Prod.fst).Nodup) :
    (t.Update o).Update o = t.Update o :=
  Update_idem t o hnd

theorem C30_update_idempotent_witness :
    (List.map Prod.fst [((1 : NodeID), Timestamp.mk 4 0), (2, Timestamp.mk 7 0)]).Nodup ∧
    (({ zeroTransaction with ID := some 1, ObservedTimestamps := [(1, ⟨5, 0⟩)] }.Update
        (some { zeroTransaction with
          ID := some 2, Priority := 3, LastHeartbeat := some ⟨9, 0⟩,
          ObservedTimestamps := [(1, ⟨4, 0⟩), (2, ⟨7, 0⟩)] })).Update
        (some { zeroTransaction with
          ID := some 2, Priority := 3, LastHeartbeat := some ⟨9, 0⟩,
          ObservedTimestamps := [(1, ⟨4, 0⟩), (2, ⟨7, 0⟩)] })
      = { zeroTransaction with ID := some 1, ObservedTimestamps := [(1, ⟨5, 0⟩)] }.Update
        (some { zeroTransaction with
          ID := some 2, Priority := 3, LastHeartbeat := some ⟨9, 0⟩,
          ObservedTimestamps := [(1, ⟨4, 0⟩), (2, ⟨7, 0⟩)] })) :=
  ⟨by decide,
    C30_update_idempotent
      { zeroTransaction with ID := some 1, ObservedTimestamps := [(1, ⟨5, 0⟩)] }
      (some { zeroTransaction with
        ID := some 2, Priority := 3, LastHeartbeat := some ⟨9, 0⟩,
        ObservedTimestamps := [(1, ⟨4, 0⟩), (2, ⟨7, 0⟩)] })
      (fun o2 h => by
        cases h
        decide)⟩

end Roachpb
